import Mathlib

/-!
SafestPath: the bit-exact container codec of `bits.cpp`.

A shallow embedding of `src/bits.cpp` (the `Bit` value type, `BitWriter`,
`BitReader`, `checkIntegrityOf`, `writeData`, `readData`) together with the
properties of the on-disk format, and of the three path searches of
`src/street.cpp` (`safestPath1`, `safestPath2`, `safestPath3`) together with
their optimality.

Conventions of the embedding.

* A byte of a stream, and a `char` held in a queue, is its bit pattern: a
  number below 256 (`Byte`).  Every narrowing conversion to `uint8_t` is an
  explicit `% 256` (`toU8`).
* An `ostream` is the list of bytes written so far; an `istream` is the list
  of bytes not yet consumed.  Writes to the sink always succeed, and
  `tellg`/`seekg` on the source always succeed (the source is seekable), so
  the two seek errors of `readData` are never raised.
* `error(msg)` throws: a function that may call it returns `Except Err _`,
  one constructor of `Err` per message of the source.
* The 4-byte header is written and read through `reinterpret_cast`, in the
  byte order of the host: the host byte order `Endian` is a parameter.
* A recursion or loop of `street.cpp` whose termination rests on the distance
  to the exit takes a number of steps it may use as its first argument; the
  entry points pass a number that is proved to be enough.
* An `int` of `street.cpp` that holds a sum of safety ratings is a 32-bit
  two's complement number: every `+=` on it, and its negation, is reduced into
  the range of `int` by `wrapInt32`.  The exact sum of the ratings of a path
  is `totalRating`.
-/

namespace SafestPath

/-! ## Bytes and errors -/

/-- One octet of a stream, or the bit pattern of a `char`. -/
abbrev Byte := Fin 256

/-- Narrowing conversion of an integer value to `uint8_t`. -/
def toU8 (n : Nat) : Byte := ⟨n % 256, Nat.mod_lt n (by decide)⟩

/-- The messages `error(...)` is called with in `bits.cpp`. -/
inductive Err where
  /-- Message "You have attempted to create a bit equal to the character '0' or '1'. ..." -/
  | bitIsCharacter
  /-- Message "Illegal value for a bit: " followed by the value -/
  | bitIllegalValue (value : Int)
  /-- Message "File must contain at least two distinct characters." -/
  | tooFewCharacters
  /-- Message "Wrong number of tree bits for the given leaves." -/
  | wrongTreeBits
  /-- Message "Unexpected end of file when reading bits." -/
  | unexpectedEndOfBits
  /-- Message "Chosen file is not a Huffman-compressed file." -/
  | notHuffmanFile
  /-- Message "Error reading character count." -/
  | readingCharCount
  /-- Message "Character count is too low for this to be a valid file." -/
  | charCountTooLow
  /-- Message "Could not read in all tree leaves." -/
  | readingLeaves
  /-- Message "Error reading modulus." -/
  | readingModulus
  /-- Message "Error seeking to end of file." (never raised: the source is seekable) -/
  | seekToEnd
  /-- Message "Error seeking back to middle of file." (never raised) -/
  | seekBack
  deriving DecidableEq, Repr

deriving instance DecidableEq for Except

/-- The errors that report a source offering fewer bytes or bits than needed
(after the magic header): character count, leaf table, modulus byte, bits. -/
def Err.isTruncation : Err → Bool
  | .readingCharCount => true
  | .readingLeaves => true
  | .readingModulus => true
  | .unexpectedEndOfBits => true
  | _ => false

/-! ## Bit -/

/-- The class `Bit`: one private field `_value` of type `bool`. -/
structure Bit where
  _value : Bool
  deriving DecidableEq, Repr

/-- The constructor `Bit::Bit(int value)`; 48 and 49 are the codes of the
characters 0 and 1. -/
def Bit.ofInt (value : Int) : Except Err Bit :=
  if value = 48 ∨ value = 49 then .error .bitIsCharacter
  else if value ≠ 0 ∧ value ≠ 1 then .error (.bitIllegalValue value)
  else .ok ⟨decide (value = 1)⟩

/-- The function `operator== (Bit lhs, Bit rhs)`. -/
def Bit.eq (lhs rhs : Bit) : Bool := lhs._value == rhs._value

/-- The function `operator!= (Bit lhs, Bit rhs)`. -/
def Bit.ne (lhs rhs : Bit) : Bool := !(Bit.eq lhs rhs)

/-- The function `operator<< (ostream&, Bit)`: the character printed. -/
def Bit.render (bit : Bit) : Char := if bit._value then '1' else '0'

/-- The value `Bit(0)` that the literal `0` converts to in `b != 0`. -/
def Bit.zero : Bit := ⟨false⟩

/-! ## EncodedData and its validation -/

/-- Modelled from the spec: the struct `EncodedData` is declared in `bits.h`,
which is not among the sources.  Three queues: `treeShape` (bits),
`treeLeaves` (chars) and `messageBits` (bits); the head of each list is the
front of the queue. -/
structure EncodedData where
  treeShape : List Bit
  treeLeaves : List Byte
  messageBits : List Bit
  deriving DecidableEq, Repr

/-- The function `checkIntegrityOf`: at least two leaves, and `2c - 1` tree
bits (`size()` is an `int`, so the arithmetic is over the integers). -/
def checkIntegrityOf (data : EncodedData) : Except Err Unit :=
  if (data.treeLeaves.length : Int) < 2 then .error .tooFewCharacters
  else if (data.treeShape.length : Int) ≠ (data.treeLeaves.length : Int) * 2 - 1 then
    .error .wrongTreeBits
  else .ok ()

/-! ## BitWriter -/

/-- The class `BitWriter`: the sink `_out` (bytes written so far) and the two
`uint8_t` fields `_bitBuffer` and `_bitIndex`. -/
structure BitWriter where
  _out : List Byte
  _bitBuffer : Nat
  _bitIndex : Nat
  deriving DecidableEq, Repr

/-- The constructor `BitWriter(ostream& o)`: both fields start at 0. -/
def BitWriter.new (o : List Byte) : BitWriter := ⟨o, 0, 0⟩

/-- The method `BitWriter::flush`. -/
def BitWriter.flush (w : BitWriter) : BitWriter :=
  { _out := w._out ++ [toU8 w._bitBuffer], _bitBuffer := 0, _bitIndex := 0 }

/-- The method `BitWriter::put`. -/
def BitWriter.put (w : BitWriter) (b : Bit) : BitWriter :=
  let w1 : BitWriter :=
    if Bit.ne b Bit.zero then
      { w with _bitBuffer := (w._bitBuffer ||| (1 <<< w._bitIndex)) % 256 }
    else w
  let w2 : BitWriter := { w1 with _bitIndex := (w1._bitIndex + 1) % 256 }
  if w2._bitIndex = 8 then w2.flush else w2

/-- The destructor `~BitWriter`: flushes a pending partial byte; the result
is the sink. -/
def BitWriter.destroy (w : BitWriter) : List Byte :=
  if w._bitIndex ≠ 0 then w.flush._out else w._out

/-! ## BitReader -/

/-- The class `BitReader`: the source `_in` (bytes not yet consumed) and the
two `uint8_t` fields. -/
structure BitReader where
  _in : List Byte
  _bitBuffer : Nat
  _bitIndex : Nat
  deriving DecidableEq, Repr

/-- The constructor `BitReader(istream& i)`: buffer 0, index 8. -/
def BitReader.new (i : List Byte) : BitReader := ⟨i, 0, 8⟩

/-- The method `BitReader::readMore`. -/
def BitReader.readMore (r : BitReader) : Except Err BitReader :=
  match r._in with
  | [] => .error .unexpectedEndOfBits
  | read :: rest => .ok { _in := rest, _bitBuffer := read.val, _bitIndex := 0 }

/-- The method `BitReader::get`. -/
def BitReader.get (r : BitReader) : Except Err (Bit × BitReader) :=
  match (if r._bitIndex = 8 then r.readMore else .ok r) with
  | .error err => .error err
  | .ok r1 =>
    let result : Bit := ⟨(r1._bitBuffer &&& (1 <<< r1._bitIndex)) != 0⟩
    .ok (result, { r1 with _bitIndex := (r1._bitIndex + 1) % 256 })

/-! ## The file header -/

/-- Byte order of the host. -/
inductive Endian where
  | little
  | big
  deriving DecidableEq, Repr

/-- The constant `kFileHeader`. -/
def kFileHeader : Nat := 0xC5106BA7

/-- The four bytes of a `uint32_t` in memory, as
`out.write(reinterpret_cast<const char *>(&v), 4)` emits them. -/
def bytesOfU32 (e : Endian) (v : Nat) : List Byte :=
  match e with
  | .little => [toU8 v, toU8 (v / 2 ^ 8), toU8 (v / 2 ^ 16), toU8 (v / 2 ^ 24)]
  | .big => [toU8 (v / 2 ^ 24), toU8 (v / 2 ^ 16), toU8 (v / 2 ^ 8), toU8 v]

/-- The `uint32_t` that four bytes read into its memory denote. -/
def u32OfBytes (e : Endian) (b0 b1 b2 b3 : Byte) : Nat :=
  match e with
  | .little => b0.val + 2 ^ 8 * b1.val + 2 ^ 16 * b2.val + 2 ^ 24 * b3.val
  | .big => b3.val + 2 ^ 8 * b2.val + 2 ^ 16 * b1.val + 2 ^ 24 * b0.val

/-! ## writeData -/

/-- The loop `while (!data.treeLeaves.isEmpty()) out.put(data.treeLeaves.dequeue())`:
returns the queue as the loop leaves it, and the sink. -/
def drainLeaves : List Byte → List Byte → List Byte × List Byte
  | [], out => ([], out)
  | leaf :: queue, out => drainLeaves queue (out ++ [leaf])

/-- The loops `while (!q.isEmpty()) writer.put(q.dequeue())` over a queue of
bits: returns the queue as the loop leaves it, and the writer. -/
def drainBits : List Bit → BitWriter → List Bit × BitWriter
  | [], writer => ([], writer)
  | b :: queue, writer => drainBits queue (writer.put b)

/-- What a call of `writeData` leaves behind: whether it threw, the container
(it is passed by reference and drained) and the sink. -/
structure WriteOutcome where
  result : Except Err Unit
  data : EncodedData
  out : List Byte

/-- The function `writeData(EncodedData& data, ostream& out)`. -/
def writeData (e : Endian) (data : EncodedData) (out : List Byte) : WriteOutcome :=
  match checkIntegrityOf data with
  | .error err => ⟨.error err, data, out⟩
  | .ok () =>
    let out1 := out ++ bytesOfU32 e kFileHeader
    let charByte : Byte := toU8 (((data.treeLeaves.length : Int) - 1).toNat)
    let out2 := out1 ++ [charByte]
    let (leaves, out3) := drainLeaves data.treeLeaves out2
    let modulus0 : Nat := (data.treeShape.length + data.messageBits.length) % 8 % 256
    let modulus : Nat := if modulus0 = 0 then 8 else modulus0
    let out4 := out3 ++ [toU8 modulus]
    let writer := BitWriter.new out4
    let (shape, writer1) := drainBits data.treeShape writer
    let (message, writer2) := drainBits data.messageBits writer1
    ⟨.ok (), ⟨shape, leaves, message⟩, writer2.destroy⟩

/-! ## readData -/

/-- The loop `for (i = 0; i < 2 * charCount - 1; i++)` of `readData`, with
`n` iterations left: each reads one bit and decrements the `uint64_t`
counter `bitsToRead` (wrapping at 0). -/
def readTreeShape : Nat → BitReader → Nat → Except Err (List Bit × BitReader × Nat)
  | 0, reader, bitsToRead => .ok ([], reader, bitsToRead)
  | n + 1, reader, bitsToRead =>
    match reader.get with
    | .error err => .error err
    | .ok (b, reader1) =>
      match readTreeShape n reader1 ((bitsToRead + 2 ^ 64 - 1) % 2 ^ 64) with
      | .error err => .error err
      | .ok (bits, reader2, left) => .ok (b :: bits, reader2, left)

/-- The loop `while (bitsToRead > 0)` of `readData`. -/
def readMessageBits : Nat → BitReader → Except Err (List Bit × BitReader)
  | 0, reader => .ok ([], reader)
  | bitsToRead + 1, reader =>
    match reader.get with
    | .error err => .error err
    | .ok (b, reader1) =>
      match readMessageBits bitsToRead reader1 with
      | .error err => .error err
      | .ok (bits, reader2) => .ok (b :: bits, reader2)

/-- The value of `(endPos - currPos - 1) * 8 + modulus`, computed in the
signed stream-offset type and converted to `uint64_t`, for `remaining` bytes
between the current position and the end of the source. -/
def bitsToReadOf (remaining : Nat) (modulus : Nat) : Nat :=
  ((((remaining : Int) - 1) * 8 + (modulus : Int)) % (2 ^ 64 : Int)).toNat

/-- The function `readData(istream& in)`. -/
def readData (e : Endian) (inp : List Byte) : Except Err EncodedData :=
  match inp with
  | b0 :: b1 :: b2 :: b3 :: in1 =>
    if u32OfBytes e b0 b1 b2 b3 ≠ kFileHeader then .error .notHuffmanFile
    else
      match in1 with
      | [] => .error .readingCharCount
      | skewCharCount :: in2 =>
        let charCount : Nat := skewCharCount.val + 1
        if charCount < 2 then .error .charCountTooLow
        else if in2.length < charCount then .error .readingLeaves
        else
          let leaves := in2.take charCount
          match in2.drop charCount with
          | [] => .error .readingModulus
          | signedModulus :: in3 =>
            let modulus : Nat := signedModulus.val
            let bitsToRead := bitsToReadOf in3.length modulus
            match readTreeShape (2 * charCount - 1) (BitReader.new in3) bitsToRead with
            | .error err => .error err
            | .ok (shape, reader1, bitsToRead1) =>
              match readMessageBits bitsToRead1 reader1 with
              | .error err => .error err
              | .ok (message, _) => .ok ⟨shape, leaves, message⟩
  | _ => .error .notHuffmanFile

/-! ## Specification-side vocabulary -/

/-- The number a list of bits denotes, first bit least significant. -/
def bitsVal : List Bit → Nat
  | [] => 0
  | b :: bs => (if b._value then 1 else 0) + 2 * bitsVal bs

/-- Spec-side packing of a bit sequence (the format table: "packed
8-per-byte, unused high bits of final byte are zero"): ceil(n/8) bytes, byte
`j` holding the input bits `8j .. 8j+7` that exist, input bit `8j+i` at bit
position `i`. -/
def packBits (bits : List Bit) : List Byte :=
  (List.range ((bits.length + 7) / 8)).map
    (fun j => toU8 (bitsVal ((bits.drop (8 * j)).take 8)))

/-- The state of a writer that holds the pending bits `p` of an unfinished
byte: the index counts them and the buffer is their value. -/
def BitWriter.Pending (w : BitWriter) (p : List Bit) : Prop :=
  w._bitIndex = p.length ∧ p.length < 8 ∧ w._bitBuffer = bitsVal p

/-- The eight low bits of a number, least significant first. -/
def bitsOfNat (n : Nat) : List Bit :=
  (List.range 8).map (fun i => (⟨n.testBit i⟩ : Bit))

/-- The eight bits of a byte, least significant first. -/
def bitsOfByte (b : Byte) : List Bit := bitsOfNat b.val

/-- The bits of a byte region, least significant bit first within each byte. -/
def bitsOfBytes : List Byte → List Bit
  | [] => []
  | b :: bs => bitsOfByte b ++ bitsOfBytes bs

/-- The bits a reader has still to deliver: the unread bits of its buffer,
then the bits of the bytes left in the source. -/
def BitReader.pending (r : BitReader) : List Bit :=
  (bitsOfNat r._bitBuffer).drop r._bitIndex ++ bitsOfBytes r._in

/-- The value of the `uint64_t` counter `bitsToRead` after `n` decrements
(each decrement adds 2^64 - 1 modulo 2^64). -/
def decrement64 (bitsToRead n : Nat) : Nat := (bitsToRead + n * (2 ^ 64 - 1)) % 2 ^ 64

/-- The bit phase of `readData`, named for the proofs: the two loops over the
bitstream region and the container returned (`readData_header` shows that
`readData` continues with it after the modulus byte). -/
def readBitsOf (leaves : List Byte) (charCount : Nat) (modulus : Nat) (region : List Byte) :
    Except Err EncodedData :=
  match readTreeShape (2 * charCount - 1) (BitReader.new region)
      (bitsToReadOf region.length modulus) with
  | .error err => .error err
  | .ok (shape, reader1, bitsToRead1) =>
    match readMessageBits bitsToRead1 reader1 with
    | .error err => .error err
    | .ok (message, _) => .ok ⟨shape, leaves, message⟩

/-- The value of `modulus` that `writeData` stores for a total of `t` bits:
`t % 8` narrowed to `uint8_t`, replaced by 8 when it is 0. -/
def modulusOf (t : Nat) : Nat := if t % 8 % 256 = 0 then 8 else t % 8 % 256

/-- The container used in the examples: leaves A and B, tree shape 1,0,0 and a
message of the given bits. -/
def sample (message : List Bit) : EncodedData :=
  ⟨[⟨true⟩, ⟨false⟩, ⟨false⟩], [65, 66], message⟩

/-- A container with 257 leaves (all of them the character 0) and the 513
tree bits that `checkIntegrityOf` asks for. -/
def container257 : EncodedData :=
  ⟨List.replicate 513 ⟨false⟩, List.replicate 257 0, []⟩

/-- The message bits 1,0,1,1,0 of the examples. -/
def message5 : List Bit := [⟨true⟩, ⟨false⟩, ⟨true⟩, ⟨true⟩, ⟨false⟩]

/-- The 13 message bits of the counterexample of C6. -/
def message13 : List Bit := message5 ++ message5 ++ [⟨true⟩, ⟨true⟩, ⟨true⟩]

/-- The results of `n` successive calls of `get`, in order, and the reader
they leave; the first call that throws ends the sequence with its error. -/
def BitReader.gets : Nat → BitReader → Except Err (List Bit × BitReader)
  | 0, reader => .ok ([], reader)
  | n + 1, reader =>
    match reader.get with
    | .error err => .error err
    | .ok (b, reader1) =>
      match BitReader.gets n reader1 with
      | .error err => .error err
      | .ok (bits, reader2) => .ok (b :: bits, reader2)

/-! ## street.cpp: the safest path through a city -/

/-- Modelled from the spec: the class `street` is declared in `street.h`,
which is not among the sources, and the spec leaves the pathfinding code out.
A street is taken for what `street.cpp` observes of it: the values returned
by `getCrime()`, `getLight()`, `getDensity()`, `isSidewalk()` and
`getSafetyRating()` (how the rating follows from the other values is not in
the sources, so it is a field of its own). -/
structure street where
  crime : Int
  light : Int
  density : Int
  sidewalk : Bool
  safetyRating : Int
  deriving DecidableEq, Repr, Inhabited

/-- The library class `Grid<street>` as `street.cpp` uses it: `numRows()`,
`numCols()` and the cell `city[row][col]`; the code indexes the grid inside
its bounds only. -/
structure Grid where
  numRows : Nat
  numCols : Nat
  cell : Nat → Nat → street

/-- The grid written as a list of rows, as in the tests. -/
def Grid.ofRows (rows : List (List street)) : Grid :=
  { numRows := rows.length
    numCols := (rows.headD []).length
    cell := fun row col => (rows.getD row []).getD col default }

/-- The library class `PriorityQueue<ValueType>` as `street.cpp` uses it: the
entries in the order they were enqueued, each with its priority. -/
structure PriorityQueue (α : Type) where
  entries : List (α × Int)

/-- The method `PriorityQueue::enqueue(value, priority)`. -/
def PriorityQueue.enqueue {α : Type} (q : PriorityQueue α) (value : α) (priority : Int) :
    PriorityQueue α :=
  ⟨q.entries ++ [(value, priority)]⟩

/-- The entry of least priority value of a list of entries, the earliest one
among equals. -/
def leastEntry {α : Type} : List (α × Int) → Option (α × Int)
  | [] => none
  | x :: rest =>
    match leastEntry rest with
    | none => some x
    | some y => if x.2 ≤ y.2 then some x else some y

/-- The method `PriorityQueue::dequeue()`, for the value it returns: that of
the entry with the least priority value (the code dequeues once and drops
the queue); `none` stands for the error thrown on an empty queue. -/
def PriorityQueue.dequeue {α : Type} (q : PriorityQueue α) : Option α :=
  (leastEntry q.entries).map (fun x => x.1)

/-- The value left in an `int` by a signed 32-bit computation whose exact
result is `x`: `x` brought into the range -2^31 .. 2^31 - 1 by adding or
subtracting a multiple of 2^32 (the wrap-around of two's complement
arithmetic). -/
def wrapInt32 (x : Int) : Int :=
  (x + 2147483648) % 4294967296 - 2147483648

/-- The function `getPathSafetyVector`; `output` is an `int`, so each `+=`
wraps around. -/
def getPathSafetyVector (path : List street) : Int :=
  path.foldl (fun output s => wrapInt32 (output + s.safetyRating)) 0

/-- Spec-side: the total safety rating of a path, the exact sum of
`getSafetyRating()` over its cells. -/
def totalRating (path : List street) : Int :=
  (path.map (fun s => s.safetyRating)).sum

/-- The function `safestPath1Helper`; the first number is fuel for the
recursion (each call moves one cell closer to the exit, so
`numRows + numCols` is never used up). -/
def safestPath1Helper (city : Grid) :
    Nat → Nat → Nat → List street → PriorityQueue (List street) → PriorityQueue (List street)
  | 0, _, _, _, solutions => solutions
  | fuel + 1, row, col, path, solutions =>
    if (row : Int) = (city.numRows : Int) - 1 ∧ (col : Int) = (city.numCols : Int) - 1 then
      solutions.enqueue path (wrapInt32 (-(getPathSafetyVector path)))
    else
      let solutions1 :=
        if (row : Int) < (city.numRows : Int) - 1 ∧ (city.cell (row + 1) col).sidewalk then
          safestPath1Helper city fuel (row + 1) col (path ++ [city.cell (row + 1) col]) solutions
        else solutions
      if (col : Int) < (city.numCols : Int) - 1 ∧ (city.cell row (col + 1)).sidewalk then
        safestPath1Helper city fuel row (col + 1) (path ++ [city.cell row (col + 1)]) solutions1
      else solutions1

/-- The function `safestPath1`; `none` stands for a thrown error (`city[0][0]`
outside the grid, or `dequeue` on an empty queue). -/
def safestPath1 (city : Grid) : Option (List street) :=
  if city.numRows = 0 ∨ city.numCols = 0 then none
  else
    (safestPath1Helper city (city.numRows + city.numCols) 0 0 [city.cell 0 0] ⟨[]⟩).dequeue

/-- The function `getSaferPath`. -/
def getSaferPath (path1 path2 : List street) : List street :=
  if path1.length > path2.length then path1
  else if path2.length > path1.length then path2
  else if getPathSafetyVector path1 ≥ getPathSafetyVector path2 then path1
  else path2

/-- The function `safestPath2Helper`; the first number is fuel for the
recursion, as in `safestPath1Helper`. -/
def safestPath2Helper (city : Grid) : Nat → Nat → Nat → List street → List street
  | 0, _, _, _ => []
  | fuel + 1, row, col, path =>
    if (row : Int) = (city.numRows : Int) - 1 ∧ (col : Int) = (city.numCols : Int) - 1 then
      path
    else if (row : Int) = (city.numRows : Int) - 1 then
      if ¬ (city.cell row (col + 1)).sidewalk then []
      else safestPath2Helper city fuel row (col + 1) (path ++ [city.cell row (col + 1)])
    else if (col : Int) = (city.numCols : Int) - 1 then
      if ¬ (city.cell (row + 1) col).sidewalk then []
      else safestPath2Helper city fuel (row + 1) col (path ++ [city.cell (row + 1) col])
    else
      let downPath :=
        if (city.cell (row + 1) col).sidewalk then path ++ [city.cell (row + 1) col] else path
      let rightPath :=
        if (city.cell row (col + 1)).sidewalk then path ++ [city.cell row (col + 1)] else path
      let rightPath1 := safestPath2Helper city fuel row (col + 1) rightPath
      let downPath1 := safestPath2Helper city fuel (row + 1) col downPath
      getSaferPath rightPath1 downPath1

/-- The function `safestPath2`; `none` stands for the error thrown when
`city[0][0]` is outside the grid. -/
def safestPath2 (city : Grid) : Option (List street) :=
  if city.numRows = 0 ∨ city.numCols = 0 then none
  else some (safestPath2Helper city (city.numRows + city.numCols) 0 0 [city.cell 0 0])

/-- One step of a path: to the cell below or to the cell on the right. -/
inductive Move where
  | down
  | right
  deriving DecidableEq, Repr

/-- Spec-side: the streets entered by following the moves from the cell
(row, col): defined when every move stays inside the grid and enters a
sidewalk, and the last cell is the bottom-right one. -/
def walk (city : Grid) : Nat → Nat → List Move → Option (List street)
  | row, col, [] =>
    if row + 1 = city.numRows ∧ col + 1 = city.numCols then some [] else none
  | row, col, .down :: moves =>
    if row + 1 < city.numRows ∧ col < city.numCols ∧ (city.cell (row + 1) col).sidewalk then
      (walk city (row + 1) col moves).map (fun cells => city.cell (row + 1) col :: cells)
    else none
  | row, col, .right :: moves =>
    if row < city.numRows ∧ col + 1 < city.numCols ∧ (city.cell row (col + 1)).sidewalk then
      (walk city row (col + 1) moves).map (fun cells => city.cell row (col + 1) :: cells)
    else none

/-- Spec-side: a path from the top-left cell to the bottom-right cell that
moves only right or down and enters only sidewalk cells, as the list of its
streets (the first one is `city[0][0]`). -/
def IsSidewalkPath (city : Grid) (path : List street) : Prop :=
  ∃ moves cells, walk city 0 0 moves = some cells ∧ path = city.cell 0 0 :: cells

/-- A sidewalk with the given safety rating. -/
def walkway (rating : Int) : street := ⟨0, 0, 0, true, rating⟩

/-- A street that is not a sidewalk. -/
def roadway : street := ⟨2, 3, 4, false, 9⟩

/-- A city shaped like the one of the test "Simple example". -/
def simpleCity : Grid :=
  Grid.ofRows [[walkway 0, walkway 8, walkway 0],
               [walkway 0, roadway, walkway 0],
               [walkway 0, walkway 0, walkway 0]]

/-- Proof-side: the continuations that `safestPath1Helper` enqueues from the
cell (row, col), in the order it enqueues them, with the same fuel. -/
def pathsFrom (city : Grid) : Nat → Nat → Nat → List (List street)
  | 0, _, _ => []
  | fuel + 1, row, col =>
    if (row : Int) = (city.numRows : Int) - 1 ∧ (col : Int) = (city.numCols : Int) - 1 then
      [[]]
    else
      (if (row : Int) < (city.numRows : Int) - 1 ∧ (city.cell (row + 1) col).sidewalk then
        (pathsFrom city fuel (row + 1) col).map (fun cells => city.cell (row + 1) col :: cells)
      else []) ++
      (if (col : Int) < (city.numCols : Int) - 1 ∧ (city.cell row (col + 1)).sidewalk then
        (pathsFrom city fuel row (col + 1)).map (fun cells => city.cell row (col + 1) :: cells)
      else [])

/-- Proof-side: what `safestPath2Helper` owes for the cell (row, col), `d`
moves away from the exit, when called with `path` and returning `res`: `res`
is no longer than `path` plus `d`; when it has that length it is `path`
followed by a sidewalk walk to the exit; and when such a walk exists `res`
has that length and an `int` total no smaller than that of `path` followed
by any such walk. -/
def PathSpec (city : Grid) (row col : Nat) (path res : List street) : Prop :=
  res.length ≤ path.length + ((city.numRows - 1 - row) + (city.numCols - 1 - col)) ∧
  (res.length = path.length + ((city.numRows - 1 - row) + (city.numCols - 1 - col)) →
    ∃ moves cells, walk city row col moves = some cells ∧ res = path ++ cells) ∧
  (∀ moves cells, walk city row col moves = some cells →
    res.length = path.length + ((city.numRows - 1 - row) + (city.numCols - 1 - col)) ∧
    getPathSafetyVector (path ++ cells) ≤ getPathSafetyVector res)

/-- The city of the test "Two paths of same safety rating": two kinds of
sidewalk with the same rating 7, so that its two sidewalk paths tie. -/
def tieCity : Grid :=
  Grid.ofRows [[⟨5, 1, 4, true, 7⟩, ⟨5, 1, 4, true, 7⟩, ⟨3, 2, 1, true, 7⟩],
               [⟨3, 2, 1, true, 7⟩, roadway, ⟨5, 1, 4, true, 7⟩],
               [⟨3, 2, 1, true, 7⟩, ⟨3, 2, 1, true, 7⟩, ⟨5, 1, 4, true, 7⟩]]

/-- A city of two rows and two columns whose path through the top-right
cell has the ratings 2147483647, 2 and 0, one more than 2^31 in total. -/
def brimCity : Grid :=
  Grid.ofRows [[walkway 2147483647, walkway 2],
               [walkway 0, walkway 0]]

/-- A city of two rows and two columns whose path through the top-right
cell has the ratings 2147483647, 1 and 0, exactly 2^31 in total. -/
def edgeCity : Grid :=
  Grid.ofRows [[walkway 2147483647, walkway 1],
               [walkway 0, walkway 0]]

/-- The library struct `GridLocation`: a row and a column.  The locations the
code builds are the entry (0, 0) and right and down neighbours, so the fields
are never negative; `exit`, which is (-1, -1) for an empty grid, is only
compared with them. -/
structure GridLocation where
  row : Nat
  col : Nat
  deriving DecidableEq, Repr

/-- The function `generateValidMoves` (its two grids have the same
dimensions; one `Grid` stands for both).  The set it returns is listed in the
order in which the caller iterates over it: the library set is ordered by row,
then column, which is the order of `possible_locations`. -/
def generateValidMoves (city : Grid) (cur : GridLocation) : List GridLocation :=
  let possible_locations : List GridLocation :=
    [⟨cur.row, cur.col + 1⟩, ⟨cur.row + 1, cur.col⟩]
  possible_locations.filter (fun location =>
    decide (location.row < city.numRows ∧ location.col < city.numCols) &&
      (city.cell location.row location.col).sidewalk)

/-- The function `getGridLocPathSafety`; the head of the list is the top of
the stack, popped first; `output` is an `int`, so each `+=` wraps around. -/
def getGridLocPathSafety (path : List GridLocation) (city : Grid) : Int :=
  path.foldl
    (fun output loc => wrapInt32 (output + (city.cell loc.row loc.col).safetyRating)) 0

/-- The local variables of `safestPath3Helper` that the `while` loop changes:
the queue `paths` (front first) of stacks (top first), the set
`checked_moves` and the priority queue `solutions`. -/
structure SearchState where
  paths : List (List GridLocation)
  checked_moves : List GridLocation
  solutions : PriorityQueue (List GridLocation)

/-- The loop `for (GridLocation move : valid_moves)` of `safestPath3Helper`. -/
def enqueueMoves (checked_moves curr_path : List GridLocation) :
    List GridLocation → List (List GridLocation) → List (List GridLocation)
  | [], paths => paths
  | move :: moves, paths =>
    if ¬ (move ∈ checked_moves) then
      enqueueMoves checked_moves curr_path moves (paths ++ [move :: curr_path])
    else enqueueMoves checked_moves curr_path moves paths

/-- One iteration of the `while` loop of `safestPath3Helper`; `none` when the
loop does not run: `paths` is empty (or its front is an empty stack, on which
`peek` would throw; the stacks in the queue are never empty). -/
def safestPath3Step (city : Grid) (s : SearchState) : Option SearchState :=
  match s.paths with
  | [] => none
  | curr_path :: paths =>
    match curr_path with
    | [] => none
    | top :: _ =>
      let checked_moves := List.insert top s.checked_moves
      if (top.row : Int) = (city.numRows : Int) - 1 ∧
          (top.col : Int) = (city.numCols : Int) - 1 then
        some ⟨paths, checked_moves,
          s.solutions.enqueue curr_path (wrapInt32 (-(getGridLocPathSafety curr_path city)))⟩
      else
        some ⟨enqueueMoves checked_moves curr_path (generateValidMoves city top) paths,
          checked_moves, s.solutions⟩

/-- The `while` loop of `safestPath3Helper`, for at most the given number of
iterations. -/
def safestPath3Loop (city : Grid) : Nat → SearchState → SearchState
  | 0, s => s
  | fuel + 1, s =>
    match safestPath3Step city s with
    | none => s
    | some s1 => safestPath3Loop city fuel s1

/-- The state in which `safestPath3Helper` enters its loop. -/
def searchStart : SearchState := ⟨[[⟨0, 0⟩]], [], ⟨[]⟩⟩

/-- The function `safestPath3Helper`.  Every iteration replaces a stack by at
most two stacks that end one move closer to the exit, so the loop ends within
2^(numRows + numCols) iterations; `none` stands for a thrown error (`dequeue`
on an empty queue). -/
def safestPath3Helper (city : Grid) : Option (List GridLocation) :=
  let s := safestPath3Loop city (2 ^ (city.numRows + city.numCols)) searchStart
  if s.paths = [] then s.solutions.dequeue else none

/-- The loop of `safestPath3` that pops the stack and inserts each street at
index 0 of `output`. -/
def unstack (cityStreet : Grid) : List GridLocation → List street → List street
  | [], output => output
  | loc :: stackOutput, output =>
    unstack cityStreet stackOutput (cityStreet.cell loc.row loc.col :: output)

/-- The function `safestPath3`. -/
def safestPath3 (cityStreet : Grid) : Option (List street) :=
  match safestPath3Helper cityStreet with
  | none => none
  | some stackOutput => some (unstack cityStreet stackOutput [])

/-- Spec-side: the inner loop of `safestPath3Helper` with the test against
`checked_moves` removed. -/
def enqueueMovesUnchecked (curr_path : List GridLocation) :
    List GridLocation → List (List GridLocation) → List (List GridLocation)
  | [], paths => paths
  | move :: moves, paths =>
    enqueueMovesUnchecked curr_path moves (paths ++ [move :: curr_path])

/-- Spec-side: one iteration of the `while` loop with the test against
`checked_moves` removed. -/
def safestPath3StepUnchecked (city : Grid) (s : SearchState) : Option SearchState :=
  match s.paths with
  | [] => none
  | curr_path :: paths =>
    match curr_path with
    | [] => none
    | top :: _ =>
      let checked_moves := List.insert top s.checked_moves
      if (top.row : Int) = (city.numRows : Int) - 1 ∧
          (top.col : Int) = (city.numCols : Int) - 1 then
        some ⟨paths, checked_moves,
          s.solutions.enqueue curr_path (wrapInt32 (-(getGridLocPathSafety curr_path city)))⟩
      else
        some ⟨enqueueMovesUnchecked curr_path (generateValidMoves city top) paths,
          checked_moves, s.solutions⟩

/-- Spec-side: the `while` loop with the test against `checked_moves`
removed, for at most the given number of iterations. -/
def safestPath3LoopUnchecked (city : Grid) : Nat → SearchState → SearchState
  | 0, s => s
  | fuel + 1, s =>
    match safestPath3StepUnchecked city s with
    | none => s
    | some s1 => safestPath3LoopUnchecked city fuel s1

/-- Spec-side: the locations entered by following the moves from (row, col). -/
def locsOf : Nat → Nat → List Move → List GridLocation
  | _, _, [] => []
  | row, col, .down :: moves => ⟨row + 1, col⟩ :: locsOf (row + 1) col moves
  | row, col, .right :: moves => ⟨row, col + 1⟩ :: locsOf row (col + 1) moves

/-- Proof-side: the anti-diagonal on which a stack ends (that of its top). -/
def diagOf : List GridLocation → Nat
  | [] => 0
  | top :: _ => top.row + top.col

/-- Proof-side: the invariant of the search loop.  No stack in the queue is
empty; every checked location lies on an anti-diagonal no later than the end
of any queued stack; the queue is ordered by the anti-diagonal of the ends;
and the ends span at most two consecutive anti-diagonals. -/
def SearchInv (s : SearchState) : Prop :=
  (∀ p ∈ s.paths, p ≠ []) ∧
  (∀ l ∈ s.checked_moves, ∀ p ∈ s.paths, l.row + l.col ≤ diagOf p) ∧
  s.paths.Pairwise (fun p q => diagOf p ≤ diagOf q) ∧
  (∀ p ∈ s.paths, ∀ q ∈ s.paths, diagOf q ≤ diagOf p + 1)

/-- Proof-side: the weight of a queued stack, one less than two to the power
of the rows and columns from its top to the end of the grid; the weights in
the queue add up to a bound on the iterations that remain. -/
def weightOf (city : Grid) : List GridLocation → Nat
  | [] => 0
  | top :: _ => 2 ^ ((city.numRows - top.row) + (city.numCols - top.col)) - 1

/-- Proof-side: the sum of the weights of the queued stacks. -/
def queueWeight (city : Grid) (paths : List (List GridLocation)) : Nat :=
  (paths.map (weightOf city)).sum

/-- Proof-side: a stack whose top is a cell of the grid. -/
def EndsInside (city : Grid) (p : List GridLocation) : Prop :=
  ∃ top rest, p = top :: rest ∧ top.row < city.numRows ∧ top.col < city.numCols

/-- Proof-side: the entry `x` of `solutions` is the stack `p` continued by a
sidewalk walk from its top to the exit, with the priority the loop gives it. -/
def IsCompletion (city : Grid) (p : List GridLocation) (x : List GridLocation × Int) : Prop :=
  ∃ top rest moves cells, p = top :: rest ∧
    walk city top.row top.col moves = some cells ∧
    x.1 = (locsOf top.row top.col moves).reverse ++ p ∧
    x.2 = wrapInt32 (-(getGridLocPathSafety x.1 city))

/-! ## Theorems -/

theorem bitsVal_lt (p : List Bit) : bitsVal p < 2 ^ p.length := by
  induction p with
  | nil => simp [bitsVal]
  | cons b bs ih =>
    simp only [bitsVal, List.length_cons, pow_succ]
    split <;> omega

theorem bitsVal_append_singleton (p : List Bit) (b : Bit) :
    bitsVal (p ++ [b]) = bitsVal p + (if b._value then 2 ^ p.length else 0) := by
  induction p with
  | nil => simp [bitsVal]
  | cons a as ih =>
    rw [List.cons_append]
    simp only [bitsVal]
    rw [ih]
    simp only [List.length_cons, pow_succ]
    cases b._value <;> cases a._value <;> simp <;> omega

theorem testBit_bitsVal (p : List Bit) (i : Nat) :
    (bitsVal p).testBit i = (p.getD i ⟨false⟩)._value := by
  induction p generalizing i with
  | nil => simp [bitsVal]
  | cons b bs ih =>
    cases i with
    | zero =>
      simp only [bitsVal, Nat.testBit_zero, List.getD_cons_zero]
      cases h : b._value <;> simp
    | succ i =>
      simp only [bitsVal, Nat.testBit_succ, List.getD_cons_succ]
      rw [← ih i]
      congr 1
      split <;> omega

theorem bitsVal_or (p : List Bit) :
    bitsVal p ||| 2 ^ p.length = bitsVal (p ++ [⟨true⟩]) := by
  apply Nat.eq_of_testBit_eq
  intro i
  rw [Nat.testBit_or, testBit_bitsVal, testBit_bitsVal, Nat.testBit_two_pow]
  rcases Nat.lt_trichotomy i p.length with h | h | h
  · have hne : ¬ (p.length = i) := by omega
    simp [List.getD_eq_getElem?_getD, List.getElem?_append_left h, hne]
  · subst h
    simp [List.getD_eq_getElem?_getD]
  · have hne : ¬ (p.length = i) := by omega
    have h1 : p.length ≤ i := by omega
    have h2 : (p ++ [(⟨true⟩ : Bit)]).length ≤ i := by simp; omega
    simp [List.getD_eq_getElem?_getD, List.getElem?_eq_none h1, List.getElem?_eq_none h2, hne]

theorem BitWriter.new_holds_nothing (o : List Byte) : (BitWriter.new o).Pending [] := by
  simp [BitWriter.new, BitWriter.Pending, bitsVal]

theorem BitWriter.put_buffer (w : BitWriter) (p : List Bit) (b : Bit) (h : w.Pending p) :
    (if Bit.ne b Bit.zero then (w._bitBuffer ||| (1 <<< w._bitIndex)) % 256 else w._bitBuffer)
      = bitsVal (p ++ [b]) := by
  obtain ⟨hi, hlt, hb⟩ := h
  have hv := bitsVal_lt p
  rw [bitsVal_append_singleton, hi, hb, Nat.one_shiftLeft]
  have hor : bitsVal p ||| 2 ^ p.length = 2 ^ p.length + bitsVal p := by
    rw [bitsVal_or, bitsVal_append_singleton]; simp; omega
  have hp : 2 ^ p.length ≤ 2 ^ 7 := Nat.pow_le_pow_right (by decide) (by omega)
  cases hbv : b._value <;> simp [Bit.ne, Bit.eq, Bit.zero, hbv]
  rw [hor]; omega

theorem BitWriter.put_pending_lt (w : BitWriter) (p : List Bit) (b : Bit) (h : w.Pending p)
    (hlen : p.length + 1 < 8) :
    (w.put b).Pending (p ++ [b]) ∧ (w.put b)._out = w._out := by
  have hbuf := BitWriter.put_buffer w p b h
  obtain ⟨hi, hlt, hb⟩ := h
  have h8 : (w._bitIndex + 1) % 256 = p.length + 1 := by omega
  have hne : ¬ (p.length + 1 = 8) := by omega
  unfold BitWriter.put
  cases hbit : Bit.ne b Bit.zero <;> simp only [hbit] at hbuf ⊢ <;> simp at hbuf <;>
    simp [h8, hne, BitWriter.Pending, hbuf, hlen]

theorem BitWriter.put_pending_full (w : BitWriter) (p : List Bit) (b : Bit) (h : w.Pending p)
    (hlen : p.length + 1 = 8) :
    (w.put b).Pending [] ∧ (w.put b)._out = w._out ++ [toU8 (bitsVal (p ++ [b]))] := by
  have hbuf := BitWriter.put_buffer w p b h
  obtain ⟨hi, hlt, hb⟩ := h
  have h8 : (w._bitIndex + 1) % 256 = 8 := by omega
  unfold BitWriter.put
  cases hbit : Bit.ne b Bit.zero <;> simp only [hbit] at hbuf ⊢ <;> simp at hbuf <;>
    simp [h8, BitWriter.Pending, hbuf, BitWriter.flush, bitsVal]

theorem packBits_nil : packBits [] = [] := by
  simp [packBits]

theorem packBits_short (p : List Bit) (h0 : 0 < p.length) (h8 : p.length ≤ 8) :
    packBits p = [toU8 (bitsVal p)] := by
  have h : (p.length + 7) / 8 = 1 := by omega
  simp [packBits, h, List.range_succ, List.take_of_length_le h8]

theorem packBits_chunk (q bs : List Bit) (hq : q.length = 8) :
    packBits (q ++ bs) = toU8 (bitsVal q) :: packBits bs := by
  have h : ((q ++ bs).length + 7) / 8 = (bs.length + 7) / 8 + 1 := by
    simp [hq]; omega
  unfold packBits
  rw [h, List.range_succ_eq_map, List.map_cons, List.map_map]
  congr 1
  · simp [List.take_append_of_le_length (Nat.le_of_eq hq.symm), List.take_of_length_le (Nat.le_of_eq hq)]
  · apply List.map_congr_left
    intro j _
    have hd : 8 * (j + 1) = q.length + 8 * j := by omega
    simp only [Function.comp, Nat.succ_eq_add_one, hd, List.drop_append]

theorem drainBits_spec (bits : List Bit) (w : BitWriter) (p : List Bit) (h : w.Pending p) :
    (drainBits bits w).1 = [] ∧
    ∃ p1, (drainBits bits w).2.Pending p1 ∧
      ∀ s, (drainBits bits w).2._out ++ packBits (p1 ++ s) = w._out ++ packBits (p ++ bits ++ s) := by
  induction bits generalizing w p with
  | nil => exact ⟨rfl, p, h, fun s => by simp [drainBits]⟩
  | cons b bs ih =>
    simp only [drainBits]
    by_cases hlen : p.length + 1 < 8
    · obtain ⟨hp, ho⟩ := BitWriter.put_pending_lt w p b h hlen
      obtain ⟨h1, p1, hp1, hs⟩ := ih (w.put b) (p ++ [b]) hp
      refine ⟨h1, p1, hp1, fun s => ?_⟩
      rw [hs s, ho]
      simp
    · have hfull : p.length + 1 = 8 := by have := h.2.1; omega
      obtain ⟨hp, ho⟩ := BitWriter.put_pending_full w p b h hfull
      obtain ⟨h1, p1, hp1, hs⟩ := ih (w.put b) [] hp
      refine ⟨h1, p1, hp1, fun s => ?_⟩
      rw [hs s, ho]
      have hq : (p ++ [b]).length = 8 := by simp; omega
      have := packBits_chunk (p ++ [b]) (bs ++ s) hq
      simp only [List.append_assoc, List.singleton_append, List.nil_append,
        List.cons_append] at this ⊢
      rw [this]

theorem BitWriter.destroy_pending (w : BitWriter) (p : List Bit) (h : w.Pending p) :
    w.destroy = w._out ++ packBits p := by
  obtain ⟨hi, hlt, hb⟩ := h
  unfold BitWriter.destroy
  by_cases h0 : p.length = 0
  · have : p = [] := List.eq_nil_of_length_eq_zero h0
    subst this
    simp [hi, packBits_nil]
  · have hne : w._bitIndex ≠ 0 := by omega
    rw [if_pos hne, packBits_short p (by omega) (by omega)]
    simp [BitWriter.flush, hb]

/-- Putting the bits of two queues through a fresh writer and disposing of it
appends the packed bits to the sink, and leaves both queues empty. -/
theorem drain_two (out : List Byte) (a b : List Bit) :
    (drainBits a (BitWriter.new out)).1 = [] ∧
    (drainBits b (drainBits a (BitWriter.new out)).2).1 = [] ∧
    (drainBits b (drainBits a (BitWriter.new out)).2).2.destroy = out ++ packBits (a ++ b) := by
  obtain ⟨h1, p1, hp1, hs1⟩ := drainBits_spec a (BitWriter.new out) [] (BitWriter.new_holds_nothing out)
  obtain ⟨h2, p2, hp2, hs2⟩ := drainBits_spec b _ p1 hp1
  refine ⟨h1, h2, ?_⟩
  rw [BitWriter.destroy_pending _ p2 hp2]
  have e2 := hs2 []
  have e1 := hs1 b
  simp only [List.append_nil, List.nil_append] at e1 e2
  rw [e2, e1]
  rfl

theorem packBits_length (bits : List Bit) : (packBits bits).length = (bits.length + 7) / 8 := by
  simp [packBits]

theorem toU8_bitsVal (q : List Bit) (h : q.length ≤ 8) : (toU8 (bitsVal q)).val = bitsVal q := by
  have h1 := bitsVal_lt q
  have h2 : 2 ^ q.length ≤ 2 ^ 8 := Nat.pow_le_pow_right (by decide) h
  simp only [toU8]
  omega

/-- Bit `i` of byte `j` of the packing is input bit `8j + i` when that bit
exists, and 0 otherwise. -/
theorem packBits_testBit (bits : List Bit) (j i : Nat) (hj : j < (packBits bits).length)
    (hi : i < 8) :
    ((packBits bits).get ⟨j, hj⟩).val.testBit i = (bits.getD (8 * j + i) ⟨false⟩)._value := by
  have hj2 : j < (bits.length + 7) / 8 := by rw [← packBits_length]; exact hj
  simp only [packBits, List.get_eq_getElem, List.getElem_map, List.getElem_range]
  rw [toU8_bitsVal _ (by simp), testBit_bitsVal]
  simp only [List.getD_eq_getElem?_getD]
  rw [List.getElem?_take_of_lt hi, List.getElem?_drop]

theorem and_shift_ne_zero (m n : Nat) : ((m &&& (1 <<< n)) != 0) = m.testBit n := by
  rw [Nat.one_shiftLeft]
  cases h : m.testBit n
  · have : m &&& 2 ^ n = 0 := by
      apply Nat.eq_of_testBit_eq
      intro i
      rw [Nat.testBit_and, Nat.testBit_two_pow]
      by_cases hi : n = i
      · subst hi; simp [h]
      · simp [hi]
    simp [this]
  · have : m &&& 2 ^ n ≠ 0 := by
      intro h0
      have := congrArg (fun x => x.testBit n) h0
      simp [h] at this
    simpa using this

theorem bitsOfNat_length (n : Nat) : (bitsOfNat n).length = 8 := by
  simp [bitsOfNat]

theorem bitsOfBytes_length (bs : List Byte) : (bitsOfBytes bs).length = 8 * bs.length := by
  induction bs with
  | nil => rfl
  | cons b bs ih => simp [bitsOfBytes, bitsOfByte, bitsOfNat_length, ih]; omega

theorem bitsOfNat_drop (n i : Nat) (h : i < 8) :
    (bitsOfNat n).drop i = ⟨n.testBit i⟩ :: (bitsOfNat n).drop (i + 1) := by
  have hl : i < (bitsOfNat n).length := by rw [bitsOfNat_length]; exact h
  rw [List.drop_eq_getElem_cons hl]
  simp [bitsOfNat]

theorem BitReader.new_pending (i : List Byte) : (BitReader.new i).pending = bitsOfBytes i := by
  simp [BitReader.new, BitReader.pending, bitsOfNat_length]

theorem BitReader.pending_length (r : BitReader) :
    r.pending.length = (8 - r._bitIndex) + 8 * r._in.length := by
  simp [BitReader.pending, bitsOfNat_length, bitsOfBytes_length]

/-- One call of `get`: fails exactly when no bit is left, and otherwise
delivers the first pending bit. -/
theorem BitReader.get_spec (r : BitReader) (h : r._bitIndex ≤ 8) :
    (r.pending = [] → r.get = .error .unexpectedEndOfBits) ∧
    (∀ b rest, r.pending = b :: rest →
      ∃ r1, r.get = .ok (b, r1) ∧ r1.pending = rest ∧ r1._bitIndex ≤ 8) := by
  by_cases h8 : r._bitIndex = 8
  · cases hin : r._in with
    | nil =>
      constructor
      · intro _; simp [BitReader.get, h8, BitReader.readMore, hin]
      · intro b rest hp
        have := congrArg List.length hp
        rw [BitReader.pending_length r, hin, h8] at this
        simp at this
    | cons c cs =>
      constructor
      · intro hp
        have := congrArg List.length hp
        rw [BitReader.pending_length r, hin] at this
        simp at this
      · intro b rest hp
        simp only [BitReader.pending, h8, hin, bitsOfBytes, bitsOfByte] at hp
        rw [List.drop_of_length_le (by rw [bitsOfNat_length]), List.nil_append,
          ← List.drop_zero (bitsOfNat c.val), bitsOfNat_drop _ 0 (by decide),
          List.cons_append] at hp
        injection hp with hb hrest
        refine ⟨⟨cs, c.val, 1⟩, ?_, ?_, by simp⟩
        · rw [← hb]
          simp only [BitReader.get, h8, BitReader.readMore, hin, and_shift_ne_zero, if_true]
        · simp [BitReader.pending, ← hrest]
  · have hlt : r._bitIndex < 8 := by omega
    constructor
    · intro hp
      have := congrArg List.length hp
      rw [BitReader.pending_length r] at this
      simp at this
      omega
    · intro b rest hp
      simp only [BitReader.pending] at hp
      rw [bitsOfNat_drop _ _ hlt, List.cons_append] at hp
      injection hp with hb hrest
      have hmod : (r._bitIndex + 1) % 256 = r._bitIndex + 1 := by omega
      refine ⟨⟨r._in, r._bitBuffer, r._bitIndex + 1⟩, ?_, ?_, by simp; omega⟩
      · rw [← hb]
        simp only [BitReader.get, h8, and_shift_ne_zero, if_false, hmod]
      · simp [BitReader.pending, ← hrest]

/-- The message loop reads exactly `n` bits when that many are pending. -/
theorem readMessageBits_ok (n : Nat) (r : BitReader) (h : r._bitIndex ≤ 8)
    (hn : n ≤ r.pending.length) :
    ∃ r1, readMessageBits n r = .ok (r.pending.take n, r1) ∧ r1.pending = r.pending.drop n ∧
      r1._bitIndex ≤ 8 := by
  induction n generalizing r with
  | zero => exact ⟨r, by simp [readMessageBits], by simp, h⟩
  | succ n ih =>
    cases hp : r.pending with
    | nil => rw [hp] at hn; simp at hn
    | cons b rest =>
      obtain ⟨r1, hget, hpend, hidx⟩ := (BitReader.get_spec r h).2 b rest hp
      have hn1 : n ≤ r1.pending.length := by
        rw [hpend]; rw [hp] at hn; simp at hn; exact hn
      obtain ⟨r2, hrd, hp2, hi2⟩ := ih r1 hidx hn1
      refine ⟨r2, ?_, ?_, hi2⟩
      · simp [readMessageBits, hget, hrd, hpend]
      · simp [hp2, hpend]

/-- The message loop fails when fewer than `n` bits are pending. -/
theorem readMessageBits_error (n : Nat) (r : BitReader) (h : r._bitIndex ≤ 8)
    (hn : r.pending.length < n) :
    readMessageBits n r = .error .unexpectedEndOfBits := by
  induction n generalizing r with
  | zero => simp at hn
  | succ n ih =>
    cases hp : r.pending with
    | nil => simp [readMessageBits, (BitReader.get_spec r h).1 hp]
    | cons b rest =>
      obtain ⟨r1, hget, hpend, hidx⟩ := (BitReader.get_spec r h).2 b rest hp
      have hn1 : r1.pending.length < n := by
        rw [hpend]; rw [hp] at hn; simp at hn; exact hn
      simp [readMessageBits, hget, ih r1 hidx hn1]

theorem readTreeShape_ok (n : Nat) (r : BitReader) (c : Nat) (h : r._bitIndex ≤ 8)
    (hn : n ≤ r.pending.length) :
    ∃ r1, readTreeShape n r c = .ok (r.pending.take n, r1, if n = 0 then c else decrement64 c n) ∧
      r1.pending = r.pending.drop n ∧ r1._bitIndex ≤ 8 := by
  induction n generalizing r c with
  | zero => exact ⟨r, by simp [readTreeShape], by simp, h⟩
  | succ n ih =>
    cases hp : r.pending with
    | nil => rw [hp] at hn; simp at hn
    | cons b rest =>
      obtain ⟨r1, hget, hpend, hidx⟩ := (BitReader.get_spec r h).2 b rest hp
      have hn1 : n ≤ r1.pending.length := by
        rw [hpend]; rw [hp] at hn; simp at hn; exact hn
      obtain ⟨r2, hrd, hp2, hi2⟩ := ih r1 ((c + 2 ^ 64 - 1) % 2 ^ 64) hidx hn1
      refine ⟨r2, ?_, ?_, hi2⟩
      · simp only [readTreeShape, hget, hrd, hpend, List.take_succ_cons]
        congr 3
        by_cases h0 : n = 0
        · subst h0; simp [decrement64]
        · simp only [h0, if_false, decrement64, Nat.succ_ne_zero]
          omega
      · simp [hp2, hpend]

theorem readTreeShape_error (n : Nat) (r : BitReader) (c : Nat) (h : r._bitIndex ≤ 8)
    (hn : r.pending.length < n) :
    readTreeShape n r c = .error .unexpectedEndOfBits := by
  induction n generalizing r c with
  | zero => simp at hn
  | succ n ih =>
    cases hp : r.pending with
    | nil => simp [readTreeShape, (BitReader.get_spec r h).1 hp]
    | cons b rest =>
      obtain ⟨r1, hget, hpend, hidx⟩ := (BitReader.get_spec r h).2 b rest hp
      have hn1 : r1.pending.length < n := by
        rw [hpend]; rw [hp] at hn; simp at hn; exact hn
      simp [readTreeShape, hget, ih r1 _ hidx hn1]

theorem header_little : bytesOfU32 .little kFileHeader = [0xA7, 0x6B, 0x10, 0xC5] := by decide

theorem header_big : bytesOfU32 .big kFileHeader = [0xC5, 0x10, 0x6B, 0xA7] := by decide

theorem header_length (e : Endian) : (bytesOfU32 e kFileHeader).length = 4 := by
  cases e <;> rfl

/-- Four bytes read as a `uint32_t` equal the constant exactly when they are
the bytes the constant is written as. -/
theorem u32OfBytes_eq_header (e : Endian) (b0 b1 b2 b3 : Byte) :
    u32OfBytes e b0 b1 b2 b3 = kFileHeader ↔ [b0, b1, b2, b3] = bytesOfU32 e kFileHeader := by
  have h0 := b0.isLt
  have h1 := b1.isLt
  have h2 := b2.isLt
  have h3 := b3.isLt
  cases e
  · rw [header_little]
    simp only [u32OfBytes, kFileHeader, List.cons.injEq, and_true, Fin.ext_iff]
    constructor
    · intro h; refine ⟨?_, ?_, ?_, ?_⟩ <;> omega
    · rintro ⟨a0, a1, a2, a3⟩; omega
  · rw [header_big]
    simp only [u32OfBytes, kFileHeader, List.cons.injEq, and_true, Fin.ext_iff]
    constructor
    · intro h; refine ⟨?_, ?_, ?_, ?_⟩ <;> omega
    · rintro ⟨a0, a1, a2, a3⟩; omega

theorem readData_header (e : Endian) (rest : List Byte) :
    readData e (bytesOfU32 e kFileHeader ++ rest) =
      match rest with
      | [] => .error .readingCharCount
      | skewCharCount :: in2 =>
        if skewCharCount.val + 1 < 2 then .error .charCountTooLow
        else if in2.length < skewCharCount.val + 1 then .error .readingLeaves
        else
          match in2.drop (skewCharCount.val + 1) with
          | [] => .error .readingModulus
          | signedModulus :: in3 =>
            readBitsOf (in2.take (skewCharCount.val + 1)) (skewCharCount.val + 1)
              signedModulus.val in3 := by
  cases e
  · rw [header_little]
    have : u32OfBytes .little 0xA7 0x6B 0x10 0xC5 = kFileHeader := by decide
    simp only [List.cons_append, List.nil_append, readData, this, ne_eq, not_true_eq_false,
      if_false, readBitsOf]
  · rw [header_big]
    have : u32OfBytes .big 0xC5 0x10 0x6B 0xA7 = kFileHeader := by decide
    simp only [List.cons_append, List.nil_append, readData, this, ne_eq, not_true_eq_false,
      if_false, readBitsOf]

/-- A stream whose first four bytes are not the header is rejected. -/
theorem readData_bad_header (e : Endian) (bs : List Byte)
    (h : bs.take 4 ≠ bytesOfU32 e kFileHeader) : readData e bs = .error .notHuffmanFile := by
  match bs, h with
  | [], _ => rfl
  | [_], _ => rfl
  | [_, _], _ => rfl
  | [_, _, _], _ => rfl
  | b0 :: b1 :: b2 :: b3 :: rest, h =>
    have hne : u32OfBytes e b0 b1 b2 b3 ≠ kFileHeader := by
      intro heq
      exact h (by simpa using (u32OfBytes_eq_header e b0 b1 b2 b3).1 heq)
    simp only [readData, hne, ne_eq, not_false_eq_true, if_true]

theorem readData_layout (e : Endian) (b : Byte) (leaves : List Byte) (m : Byte)
    (region : List Byte) (hb : 1 ≤ b.val) (hl : leaves.length = b.val + 1) :
    readData e (bytesOfU32 e kFileHeader ++ b :: (leaves ++ m :: region)) =
      readBitsOf leaves (b.val + 1) m.val region := by
  rw [readData_header]
  have h1 : ¬ (b.val + 1 < 2) := by omega
  have h2 : ¬ ((leaves ++ m :: region).length < b.val + 1) := by simp [hl]
  have h3 : (leaves ++ m :: region).drop (b.val + 1) = m :: region := by
    rw [← hl]; simp
  have h4 : (leaves ++ m :: region).take (b.val + 1) = leaves := by
    rw [← hl]; simp
  simp only [h1, h2, if_false, h3, h4]

/-- Every accepted stream has the layout header, count byte, leaves, modulus
byte, bitstream region. -/
theorem readData_ok_layout (e : Endian) (bs : List Byte) (c : EncodedData)
    (h : readData e bs = .ok c) :
    ∃ b leaves m region, bs = bytesOfU32 e kFileHeader ++ b :: (leaves ++ m :: region) ∧
      1 ≤ b.val ∧ leaves.length = b.val + 1 := by
  by_cases hh : bs.take 4 = bytesOfU32 e kFileHeader
  · have hbs : bs = bytesOfU32 e kFileHeader ++ bs.drop 4 := by
      rw [← hh, List.take_append_drop]
    rw [hbs, readData_header] at h
    cases hr : bs.drop 4 with
    | nil => rw [hr] at h; simp at h
    | cons b in2 =>
      rw [hr] at h
      simp only at h
      by_cases h1 : b.val + 1 < 2
      · simp [h1] at h
      · by_cases h2 : in2.length < b.val + 1
        · simp [h1, h2] at h
        · simp only [h1, h2, if_false] at h
          cases hd : in2.drop (b.val + 1) with
          | nil => rw [hd] at h; simp at h
          | cons m region =>
            refine ⟨b, in2.take (b.val + 1), m, region, ?_, by omega, ?_⟩
            · rw [← hd, List.take_append_drop, ← hr]; exact hbs
            · simp; omega
  · rw [readData_bad_header e bs hh] at h
    cases h

theorem readBitsOf_short (leaves : List Byte) (L m : Nat) (region : List Byte)
    (h : 8 * region.length < 2 * L - 1) :
    readBitsOf leaves L m region = .error .unexpectedEndOfBits := by
  unfold readBitsOf
  rw [readTreeShape_error _ _ _ (by simp [BitReader.new])
    (by rw [BitReader.new_pending, bitsOfBytes_length]; exact h)]

theorem readBitsOf_ok (leaves : List Byte) (L m : Nat) (region : List Byte) (hL : 1 ≤ L)
    (h1 : 2 * L - 1 ≤ 8 * region.length)
    (h2 : decrement64 (bitsToReadOf region.length m) (2 * L - 1)
      ≤ 8 * region.length - (2 * L - 1)) :
    readBitsOf leaves L m region =
      .ok ⟨(bitsOfBytes region).take (2 * L - 1), leaves,
        ((bitsOfBytes region).drop (2 * L - 1)).take
          (decrement64 (bitsToReadOf region.length m) (2 * L - 1))⟩ := by
  unfold readBitsOf
  obtain ⟨r1, hr1, hp1, hi1⟩ := readTreeShape_ok (2 * L - 1) (BitReader.new region)
    (bitsToReadOf region.length m) (by simp [BitReader.new])
    (by rw [BitReader.new_pending, bitsOfBytes_length]; exact h1)
  have hne : ¬ (2 * L - 1 = 0) := by omega
  rw [if_neg hne, BitReader.new_pending] at hr1
  rw [BitReader.new_pending] at hp1
  obtain ⟨r2, hr2, _, _⟩ := readMessageBits_ok
    (decrement64 (bitsToReadOf region.length m) (2 * L - 1)) r1 hi1
    (by rw [hp1, List.length_drop, bitsOfBytes_length]; exact h2)
  rw [hr1]
  simp only [hr2, hp1]

theorem readBitsOf_long (leaves : List Byte) (L m : Nat) (region : List Byte) (hL : 1 ≤ L)
    (h1 : 2 * L - 1 ≤ 8 * region.length)
    (h2 : 8 * region.length - (2 * L - 1)
      < decrement64 (bitsToReadOf region.length m) (2 * L - 1)) :
    readBitsOf leaves L m region = .error .unexpectedEndOfBits := by
  unfold readBitsOf
  obtain ⟨r1, hr1, hp1, hi1⟩ := readTreeShape_ok (2 * L - 1) (BitReader.new region)
    (bitsToReadOf region.length m) (by simp [BitReader.new])
    (by rw [BitReader.new_pending, bitsOfBytes_length]; exact h1)
  have hne : ¬ (2 * L - 1 = 0) := by omega
  rw [if_neg hne, BitReader.new_pending] at hr1
  rw [BitReader.new_pending] at hp1
  rw [hr1]
  simp only
  rw [readMessageBits_error _ r1 hi1
    (by rw [hp1, List.length_drop, bitsOfBytes_length]; exact h2)]

theorem bitsToReadOf_pos (R m : Nat) (hR : 1 ≤ R) (hs : (R - 1) * 8 + m < 2 ^ 64) :
    bitsToReadOf R m = (R - 1) * 8 + m := by
  unfold bitsToReadOf
  omega

theorem decrement64_ge (c t : Nat) (hc : c < 2 ^ 64) (ht : t ≤ c) :
    decrement64 c t = c - t := by
  unfold decrement64
  omega

theorem decrement64_lt (c t : Nat) (hc : t < 2 ^ 64) (ht : c < t) :
    decrement64 c t = 2 ^ 64 + c - t := by
  unfold decrement64
  omega

theorem bitsOfByte_bitsVal (q : List Bit) (h : q.length ≤ 8) :
    bitsOfByte (toU8 (bitsVal q)) = q ++ List.replicate (8 - q.length) ⟨false⟩ := by
  apply List.ext_getElem
  · simp [bitsOfByte, bitsOfNat_length]; omega
  · intro i h1 h2
    simp only [bitsOfByte, bitsOfNat, List.getElem_map, List.getElem_range]
    rw [toU8_bitsVal q h, testBit_bitsVal, List.getD_eq_getElem?_getD]
    by_cases hi : i < q.length
    · rw [List.getElem_append_left hi, List.getElem?_eq_getElem hi]
      rfl
    · rw [List.getElem_append_right (by omega), List.getElem?_eq_none (by omega)]
      simp

theorem bitsOfBytes_packBits (bits : List Bit) :
    bitsOfBytes (packBits bits) =
      bits ++ List.replicate (8 * ((bits.length + 7) / 8) - bits.length) ⟨false⟩ := by
  generalize hn : bits.length = n
  induction n using Nat.strong_induction_on generalizing bits with
  | _ n ih =>
    subst hn
    by_cases h0 : bits.length = 0
    · have : bits = [] := List.eq_nil_of_length_eq_zero h0
      subst this
      simp [packBits_nil, bitsOfBytes]
    · by_cases h8 : bits.length ≤ 8
      · rw [packBits_short bits (by omega) h8]
        have hc : 8 * ((bits.length + 7) / 8) - bits.length = 8 - bits.length := by omega
        simp only [bitsOfBytes, List.append_nil, hc]
        exact bitsOfByte_bitsVal bits h8
      · have hsplit : bits = bits.take 8 ++ bits.drop 8 := (List.take_append_drop 8 bits).symm
        have hq : (bits.take 8).length = 8 := by simp; omega
        have hd : (bits.drop 8).length = bits.length - 8 := by simp
        have ihd := ih (bits.drop 8).length (by rw [hd]; omega) (bits.drop 8) rfl
        have hc : 8 * ((bits.length + 7) / 8) - bits.length
            = 8 * (((bits.drop 8).length + 7) / 8) - (bits.drop 8).length := by
          rw [hd]; omega
        rw [hc]
        conv_lhs => rw [hsplit]
        rw [packBits_chunk _ _ hq]
        simp only [bitsOfBytes]
        rw [ihd, bitsOfByte_bitsVal _ (by omega), hq]
        simp only [Nat.sub_self, List.replicate_zero, List.append_nil]
        rw [← List.append_assoc, List.take_append_drop]

theorem drainLeaves_spec (queue out : List Byte) : drainLeaves queue out = ([], out ++ queue) := by
  induction queue generalizing out with
  | nil => simp [drainLeaves]
  | cons leaf queue ih => simp [drainLeaves, ih]

theorem checkIntegrityOf_ok_iff (data : EncodedData) :
    checkIntegrityOf data = .ok () ↔
      2 ≤ data.treeLeaves.length ∧ data.treeShape.length = 2 * data.treeLeaves.length - 1 := by
  unfold checkIntegrityOf
  split_ifs with h1 h2 <;> simp <;> omega

/-- What a successful `writeData` does: the three queues end up empty and the
sink has received header, count byte, leaves, modulus byte and packed bits. -/
theorem writeData_ok (e : Endian) (data : EncodedData) (out : List Byte)
    (h : checkIntegrityOf data = .ok ()) :
    (writeData e data out).result = .ok () ∧
    (writeData e data out).data = ⟨[], [], []⟩ ∧
    (writeData e data out).out = out ++ (bytesOfU32 e kFileHeader ++
      toU8 (data.treeLeaves.length - 1) :: (data.treeLeaves ++
        toU8 (modulusOf (data.treeShape.length + data.messageBits.length)) ::
          packBits (data.treeShape ++ data.messageBits))) := by
  obtain ⟨d1, d2, d3⟩ := drain_two
    (out ++ bytesOfU32 e kFileHeader ++ [toU8 (data.treeLeaves.length - 1)] ++ data.treeLeaves ++
      [toU8 (modulusOf (data.treeShape.length + data.messageBits.length))])
    data.treeShape data.messageBits
  have hc : ((data.treeLeaves.length : Int) - 1).toNat = data.treeLeaves.length - 1 := by omega
  simp only [writeData, h, drainLeaves_spec, hc]
  simp only [modulusOf] at d1 d2 d3
  refine ⟨trivial, ?_, ?_⟩
  · simp only [d1, d2]
  · rw [d3]; simp [modulusOf]

theorem toU8_val_of_lt (n : Nat) (h : n < 256) : (toU8 n).val = n := by
  simp only [toU8]; omega

theorem modulusOf_range (t : Nat) :
    modulusOf t = (if t % 8 = 0 then 8 else t % 8) ∧ 1 ≤ modulusOf t ∧ modulusOf t ≤ 8 := by
  unfold modulusOf
  split_ifs <;> omega

/-- Reading the bit region that `writeData` produced gives the two bit
sequences back. -/
theorem readBitsOf_written (leaves : List Byte) (L : Nat) (ts mb : List Bit) (hL : 1 ≤ L)
    (hts : ts.length = 2 * L - 1) (hsz : ts.length + mb.length < 2 ^ 64) :
    readBitsOf leaves L (modulusOf (ts.length + mb.length)) (packBits (ts ++ mb))
      = .ok ⟨ts, leaves, mb⟩ := by
  obtain ⟨hm, hm1, hm8⟩ := modulusOf_range (ts.length + mb.length)
  have hR : (packBits (ts ++ mb)).length = (ts.length + mb.length + 7) / 8 := by
    rw [packBits_length, List.length_append]
  have hN : bitsToReadOf (packBits (ts ++ mb)).length (modulusOf (ts.length + mb.length))
      = ts.length + mb.length := by
    rw [bitsToReadOf_pos _ _ (by omega) (by split_ifs at hm <;> omega)]
    split_ifs at hm <;> omega
  have hD : decrement64 (ts.length + mb.length) (2 * L - 1) = mb.length := by
    rw [decrement64_ge _ _ hsz (by omega)]; omega
  rw [readBitsOf_ok leaves L _ _ hL (by omega) (by rw [hN, hD]; omega), hN, hD,
    bitsOfBytes_packBits, ← hts]
  simp [List.append_assoc]

theorem container257_leaves : container257.treeLeaves.length = 257 := by
  simp only [container257, List.length_replicate]

theorem container257_shape : container257.treeShape.length = 513 := by
  simp only [container257, List.length_replicate]

theorem container257_valid : checkIntegrityOf container257 = .ok () := by
  rw [checkIntegrityOf_ok_iff, container257_leaves, container257_shape]
  decide

/-- C1, as stated, fails: a container with 257 leaves and 513 tree bits
passes the validation of `writeData`, and `readData` rejects the bytes
written for it (the count byte is 0). -/
theorem C1_counterexample :
    2 ≤ container257.treeLeaves.length ∧
    container257.treeShape.length = 2 * container257.treeLeaves.length - 1 ∧
    (writeData .little container257 []).result = .ok () ∧
    readData .little ((writeData .little container257 []).out) = .error .charCountTooLow := by
  obtain ⟨h1, _, h3⟩ := writeData_ok .little container257 [] container257_valid
  refine ⟨by rw [container257_leaves]; decide,
    by rw [container257_leaves, container257_shape], h1, ?_⟩
  rw [h3, List.nil_append, readData_header, container257_leaves]
  rfl

/-- C1 (amended): for every container with 2 <= L <= 256 leaves, 2L - 1 tree
bits and any message bits (the total bit count below 2^64), `readData`
applied to the bytes `writeData` appends to the sink returns the container
the write started from: same leaves, same tree bits, same message bits. -/
theorem C1_roundtrip (e : Endian) (c : EncodedData) (out : List Byte)
    (h2 : 2 ≤ c.treeLeaves.length) (h256 : c.treeLeaves.length ≤ 256)
    (hts : c.treeShape.length = 2 * c.treeLeaves.length - 1)
    (hsz : c.treeShape.length + c.messageBits.length < 2 ^ 64) :
    readData e ((writeData e c out).out.drop out.length) = .ok c := by
  have hv : checkIntegrityOf c = .ok () := (checkIntegrityOf_ok_iff c).2 ⟨h2, hts⟩
  have hb : (toU8 (c.treeLeaves.length - 1)).val = c.treeLeaves.length - 1 :=
    toU8_val_of_lt _ (by omega)
  have hm : (toU8 (modulusOf (c.treeShape.length + c.messageBits.length))).val
      = modulusOf (c.treeShape.length + c.messageBits.length) :=
    toU8_val_of_lt _ (by have := modulusOf_range (c.treeShape.length + c.messageBits.length); omega)
  rw [(writeData_ok e c out hv).2.2, List.drop_left,
    readData_layout e _ _ _ _ (by rw [hb]; omega) (by rw [hb]; omega), hb, hm]
  have hL : c.treeLeaves.length - 1 + 1 = c.treeLeaves.length := by omega
  rw [hL, readBitsOf_written _ _ _ _ (by omega) hts hsz]

/-- C1: the theorem at a concrete input, its hypotheses discharged by
evaluation. -/
theorem C1_roundtrip_witness :
    (2 ≤ (sample message5).treeLeaves.length ∧ (sample message5).treeLeaves.length ≤ 256 ∧
      (sample message5).treeShape.length = 2 * (sample message5).treeLeaves.length - 1 ∧
      (sample message5).treeShape.length + (sample message5).messageBits.length < 2 ^ 64) ∧
    readData .big ((writeData .big (sample message5) [7]).out.drop [(7 : Byte)].length)
      = .ok (sample message5) :=
  ⟨by decide, C1_roundtrip .big (sample message5) [7] (by decide) (by decide) (by decide)
    (by decide)⟩

/-- C2: for every container that passes validation, the bytes `writeData`
appends to the sink are exactly the 4 header bytes in host byte order, one
leaf-count byte, the leaves in queue order, one trailing-bit-count byte, and
the bits of `treeShape` followed by those of `messageBits` packed 8 per byte:
ceil(T/8) bytes, bit `i` of byte `j` being bit `8j + i` of the sequence, and
0 where the sequence has ended. -/
theorem C2_byte_layout (e : Endian) (data : EncodedData) (out : List Byte)
    (hv : checkIntegrityOf data = .ok ()) :
    ∃ countByte modulusByte : Byte, ∃ packed : List Byte,
      (writeData e data out).out = out ++ (bytesOfU32 e kFileHeader ++ countByte ::
        (data.treeLeaves ++ modulusByte :: packed)) ∧
      (bytesOfU32 e kFileHeader).length = 4 ∧
      packed = packBits (data.treeShape ++ data.messageBits) ∧
      packed.length = (data.treeShape.length + data.messageBits.length + 7) / 8 ∧
      ∀ (j i : Nat) (hj : j < packed.length), i < 8 →
        (packed.get ⟨j, hj⟩).val.testBit i
          = ((data.treeShape ++ data.messageBits).getD (8 * j + i) ⟨false⟩)._value := by
  refine ⟨_, _, _, (writeData_ok e data out hv).2.2, header_length e, rfl, ?_, ?_⟩
  · rw [packBits_length, List.length_append]
  · intro j i hj hi
    exact packBits_testBit _ j i hj hi

/-- C2: the theorem at a concrete input, its hypotheses discharged by
evaluation. -/
theorem C2_byte_layout_witness :
    checkIntegrityOf (sample message5) = .ok () ∧
    ∃ countByte modulusByte : Byte, ∃ packed : List Byte,
      (writeData .little (sample message5) []).out = [] ++ (bytesOfU32 .little kFileHeader ++
        countByte :: ((sample message5).treeLeaves ++ modulusByte :: packed)) ∧
      (bytesOfU32 .little kFileHeader).length = 4 ∧
      packed = packBits ((sample message5).treeShape ++ (sample message5).messageBits) ∧
      packed.length
        = ((sample message5).treeShape.length + (sample message5).messageBits.length + 7) / 8 ∧
      ∀ (j i : Nat) (hj : j < packed.length), i < 8 →
        (packed.get ⟨j, hj⟩).val.testBit i
          = (((sample message5).treeShape ++ (sample message5).messageBits).getD
              (8 * j + i) ⟨false⟩)._value :=
  ⟨by decide, C2_byte_layout .little (sample message5) [] (by decide)⟩

/-- C3: `writeData` fails if and only if there are fewer than 2 leaves or the
number of tree bits is not 2L - 1; the leaf-count check comes first (fewer
than 2 leaves always gives the leaf-count error, also with L = 1 and one tree
bit); and whenever it fails the sink and the three queues are unchanged. -/
theorem C3_write_validation (e : Endian) (data : EncodedData) (out : List Byte) :
    ((writeData e data out).result ≠ .ok () ↔
      (data.treeLeaves.length < 2 ∨
        (data.treeShape.length : Int) ≠ 2 * (data.treeLeaves.length : Int) - 1)) ∧
    (data.treeLeaves.length < 2 →
      (writeData e data out).result = .error .tooFewCharacters) ∧
    ((writeData e data out).result ≠ .ok () →
      (writeData e data out).out = out ∧ (writeData e data out).data = data) := by
  by_cases hv : checkIntegrityOf data = .ok ()
  · have hok := (writeData_ok e data out hv).1
    have hiff := (checkIntegrityOf_ok_iff data).1 hv
    refine ⟨?_, ?_, ?_⟩
    · constructor
      · intro h; exact absurd hok h
      · intro h; omega
    · intro h; omega
    · intro h; exact absurd hok h
  · have hiff := (checkIntegrityOf_ok_iff data).not.1 hv
    cases hc : checkIntegrityOf data with
    | ok u => exact absurd hc hv
    | error err =>
      have hr : (writeData e data out) = ⟨.error err, data, out⟩ := by
        simp only [writeData, hc]
      rw [hr]
      refine ⟨?_, ?_, ?_⟩
      · constructor
        · intro _; omega
        · intro _ h; cases h
      · intro h
        have h1 : (data.treeLeaves.length : Int) < 2 := by omega
        simp only [checkIntegrityOf, h1, if_true] at hc
        injection hc with hc
        simp only [hc]
      · intro _; exact ⟨rfl, rfl⟩

/-- C4: for every container that passes validation, the byte at offset 5 + L
of the bytes written is (treeShape.length + messageBits.length) mod 8 when
that is not 0, and 8 when it is 0; so it lies in 1..8. -/
theorem C4_trailing_bit_count (e : Endian) (data : EncodedData) (out : List Byte)
    (hv : checkIntegrityOf data = .ok ()) :
    ∃ m : Byte,
      ((writeData e data out).out.drop out.length).get? (5 + data.treeLeaves.length) = some m ∧
      m.val = (if (data.treeShape.length + data.messageBits.length) % 8 = 0 then 8
        else (data.treeShape.length + data.messageBits.length) % 8) ∧
      1 ≤ m.val ∧ m.val ≤ 8 := by
  obtain ⟨hm, hm1, hm8⟩ := modulusOf_range (data.treeShape.length + data.messageBits.length)
  have hval := toU8_val_of_lt (modulusOf (data.treeShape.length + data.messageBits.length))
    (by omega)
  refine ⟨toU8 (modulusOf (data.treeShape.length + data.messageBits.length)), ?_, ?_, ?_, ?_⟩
  · rw [(writeData_ok e data out hv).2.2, List.drop_left, List.get?_eq_getElem?,
      List.getElem?_append_right (by rw [header_length]; omega), header_length]
    have h5 : 5 + data.treeLeaves.length - 4 = (data.treeLeaves.length) + 1 := by omega
    rw [h5, List.getElem?_cons_succ, List.getElem?_append_right (Nat.le_refl _)]
    simp
  · rw [hval, hm]
  · rw [hval]; exact hm1
  · rw [hval]; exact hm8

/-- C4: the theorem at a concrete input, its hypotheses discharged by
evaluation. -/
theorem C4_trailing_bit_count_witness :
    checkIntegrityOf (sample message5) = .ok () ∧
    ∃ m : Byte,
      ((writeData .big (sample message5) []).out.drop ([] : List Byte).length).get?
        (5 + (sample message5).treeLeaves.length) = some m ∧
      m.val = (if ((sample message5).treeShape.length
          + (sample message5).messageBits.length) % 8 = 0 then 8
        else ((sample message5).treeShape.length + (sample message5).messageBits.length) % 8) ∧
      1 ≤ m.val ∧ m.val ≤ 8 :=
  ⟨by decide, C4_trailing_bit_count .big (sample message5) [] (by decide)⟩

/-- C5: a stream shorter than 4 bytes, or whose first 4 bytes are not the
bytes of the magic constant, is rejected with the not-this-format error,
whatever follows the first four bytes. -/
theorem C5_format_rejection (e : Endian) (bs : List Byte)
    (h : bs.length < 4 ∨ bs.take 4 ≠ bytesOfU32 e kFileHeader) :
    readData e bs = .error .notHuffmanFile := by
  apply readData_bad_header
  rcases h with h | h
  · intro heq
    have := congrArg List.length heq
    rw [header_length, List.length_take] at this
    omega
  · exact h

/-- C5: the theorem at a concrete input, its hypotheses discharged by
evaluation. -/
theorem C5_format_rejection_witness :
    (([0, 0, 0, 0, 1, 65, 66, 8, 105] : List Byte).length < 4 ∨
      ([0, 0, 0, 0, 1, 65, 66, 8, 105] : List Byte).take 4 ≠ bytesOfU32 .little kFileHeader) ∧
    readData .little [0, 0, 0, 0, 1, 65, 66, 8, 105] = .error .notHuffmanFile :=
  ⟨by decide, C5_format_rejection .little [0, 0, 0, 0, 1, 65, 66, 8, 105] (by decide)⟩

/-- C7, as stated, fails at the top of its range: for the valid container
with L = 257 leaves the byte at offset 4 is 0, not L - 1 = 256, and not >= 1. -/
theorem C7_counterexample :
    checkIntegrityOf container257 = .ok () ∧ container257.treeLeaves.length = 257 ∧
    (writeData .little container257 []).out.get? 4 = some 0 := by
  refine ⟨container257_valid, container257_leaves, ?_⟩
  rw [(writeData_ok .little container257 [] container257_valid).2.2, container257_leaves]
  rfl

/-- C7 (amended): for every container that passes write validation the byte
at offset 4 of the bytes written is (L - 1) mod 256; for 2 <= L <= 256 it is
L - 1, hence >= 1. -/
theorem C7_leaf_count_byte (e : Endian) (data : EncodedData) (out : List Byte)
    (hv : checkIntegrityOf data = .ok ()) :
    ∃ b : Byte, ((writeData e data out).out.drop out.length).get? 4 = some b ∧
      b.val = (data.treeLeaves.length - 1) % 256 ∧
      (data.treeLeaves.length ≤ 256 → b.val = data.treeLeaves.length - 1 ∧ 1 ≤ b.val) := by
  have hiff := (checkIntegrityOf_ok_iff data).1 hv
  refine ⟨toU8 (data.treeLeaves.length - 1), ?_, rfl, ?_⟩
  · rw [(writeData_ok e data out hv).2.2, List.drop_left, List.get?_eq_getElem?,
      List.getElem?_append_right (by rw [header_length]), header_length]
    simp
  · intro h
    rw [toU8_val_of_lt _ (by omega)]
    omega

/-- C7: the theorem at a concrete input, its hypotheses discharged by
evaluation. -/
theorem C7_leaf_count_byte_witness :
    checkIntegrityOf (sample message5) = .ok () ∧
    ∃ b : Byte, ((writeData .little (sample message5) []).out.drop
        ([] : List Byte).length).get? 4 = some b ∧
      b.val = ((sample message5).treeLeaves.length - 1) % 256 ∧
      ((sample message5).treeLeaves.length ≤ 256 →
        b.val = (sample message5).treeLeaves.length - 1 ∧ 1 ≤ b.val) :=
  ⟨by decide, C7_leaf_count_byte .little (sample message5) [] (by decide)⟩

/-- The outcome of the bit phase in terms of the counts alone: with `R`
region bytes and modulus byte `m` (the declared bit count below 2^64), it
succeeds exactly when `R >= 1`, the declared bit count `(R - 1) * 8 + m`
covers the tree and `m <= 8`. -/
theorem readBitsOf_cases (leaves : List Byte) (L m : Nat) (region : List Byte) (hL : 1 ≤ L)
    (hL256 : L ≤ 256) (hsmall : (region.length - 1) * 8 + m < 2 ^ 64) :
    (1 ≤ region.length ∧ 2 * L - 1 ≤ (region.length - 1) * 8 + m ∧ m ≤ 8 ∧
      readBitsOf leaves L m region =
        .ok ⟨(bitsOfBytes region).take (2 * L - 1), leaves,
          ((bitsOfBytes region).drop (2 * L - 1)).take
            ((region.length - 1) * 8 + m - (2 * L - 1))⟩) ∨
    ((region.length = 0 ∨ (region.length - 1) * 8 + m < 2 * L - 1 ∨ 8 < m) ∧
      readBitsOf leaves L m region = .error .unexpectedEndOfBits) := by
  by_cases hshort : 8 * region.length < 2 * L - 1
  · right
    refine ⟨?_, readBitsOf_short leaves L m region hshort⟩
    omega
  · have hR : 1 ≤ region.length := by omega
    have hN := bitsToReadOf_pos region.length m hR (by omega)
    by_cases hcover : 2 * L - 1 ≤ (region.length - 1) * 8 + m
    · have hD := decrement64_ge ((region.length - 1) * 8 + m) (2 * L - 1) (by omega) hcover
      by_cases hm8 : m ≤ 8
      · left
        refine ⟨hR, hcover, hm8, ?_⟩
        rw [readBitsOf_ok leaves L m region hL (by omega) (by rw [hN, hD]; omega), hN, hD]
      · right
        refine ⟨Or.inr (Or.inr (by omega)), ?_⟩
        exact readBitsOf_long leaves L m region hL (by omega) (by rw [hN, hD]; omega)
    · right
      have hD := decrement64_lt ((region.length - 1) * 8 + m) (2 * L - 1) (by omega) (by omega)
      refine ⟨Or.inr (Or.inl (by omega)), ?_⟩
      exact readBitsOf_long leaves L m region hL (by omega) (by rw [hN, hD]; omega)

/-- Reading the first `k >= 4` bytes of a well laid out stream. -/
theorem readData_take (e : Endian) (b : Byte) (leaves : List Byte) (m : Byte)
    (region : List Byte) (k : Nat) (hb : 1 ≤ b.val) (hl : leaves.length = b.val + 1)
    (hk4 : 4 ≤ k) :
    readData e ((bytesOfU32 e kFileHeader ++ b :: (leaves ++ m :: region)).take k) =
      if k = 4 then .error .readingCharCount
      else if k < 5 + leaves.length then .error .readingLeaves
      else if k = 5 + leaves.length then .error .readingModulus
      else readBitsOf leaves (b.val + 1) m.val (region.take (k - (6 + leaves.length))) := by
  rw [List.take_append_eq_append_take, header_length,
    List.take_of_length_le (by rw [header_length]; exact hk4)]
  by_cases h4 : k = 4
  · subst h4
    simp only [Nat.sub_self, List.take_zero, if_true]
    rw [readData_header]
  · obtain ⟨k1, rfl⟩ : ∃ k1, k = 5 + k1 := ⟨k - 5, by omega⟩
    have e1 : 5 + k1 - 4 = k1 + 1 := by omega
    rw [e1, List.take_succ_cons, if_neg h4, List.take_append_eq_append_take]
    by_cases hlt : 5 + k1 < 5 + leaves.length
    · rw [if_pos hlt, readData_header]
      have h1 : ¬ (b.val + 1 < 2) := by omega
      have h2 : (List.take k1 leaves ++ List.take (k1 - leaves.length) (m :: region)).length
          < b.val + 1 := by
        have : k1 - leaves.length = 0 := by omega
        rw [this]; simp; omega
      simp only [h1, h2, if_false, if_true]
    · rw [if_neg hlt, List.take_of_length_le (by omega)]
      by_cases heq : 5 + k1 = 5 + leaves.length
      · rw [if_pos heq, readData_header]
        have h1 : ¬ (b.val + 1 < 2) := by omega
        have h0 : k1 - leaves.length = 0 := by omega
        have h2 : ¬ ((leaves ++ List.take 0 (m :: region)).length < b.val + 1) := by
          simp; omega
        have h3 : (leaves ++ List.take 0 (m :: region)).drop (b.val + 1) = [] := by
          rw [← hl]; simp
        simp only [h0, h1, h2, if_false, h3]
      · rw [if_neg heq]
        obtain ⟨k2, hk2⟩ : ∃ k2, k1 = leaves.length + 1 + k2 := ⟨k1 - leaves.length - 1, by omega⟩
        have e2 : k1 - leaves.length = k2 + 1 := by omega
        have e3 : 5 + k1 - (6 + leaves.length) = k2 := by omega
        rw [e2, List.take_succ_cons, e3, readData_layout e b leaves m _ hb hl]

/-- C6, as stated, fails: the bytes written for the sample container with 13
message bits are 10 bytes long; their first 9 bytes, a proper prefix with the
complete header, are accepted by `readData`, which returns a container with
only the first 5 message bits. -/
theorem C6_counterexample :
    checkIntegrityOf (sample message13) = .ok () ∧
    (writeData .little (sample message13) []).out.length = 10 ∧
    readData .little ((writeData .little (sample message13) []).out.take 9)
      = .ok (sample message5) := by
  decide

/-- C6 (amended): for every valid container with at most 256 leaves (and
fewer than 2^64 bits) and every proper prefix of the bytes written that holds
the complete header, of length k: when the cut falls in the leaf-count byte,
the leaf table or the trailing-count byte, or leaves so few bitstream bytes
that the declared bit count (k - 7 - L) * 8 + m is below the 2L - 1 tree bits
(k <= 6 + L included), `readData` fails with a truncation error; in every
other case it returns a container. -/
theorem C6_truncation (e : Endian) (c : EncodedData) (out : List Byte) (k : Nat)
    (h2 : 2 ≤ c.treeLeaves.length) (h256 : c.treeLeaves.length ≤ 256)
    (hts : c.treeShape.length = 2 * c.treeLeaves.length - 1)
    (hsz : c.treeShape.length + c.messageBits.length < 2 ^ 64)
    (hk4 : 4 ≤ k) (hk : k < ((writeData e c out).out.drop out.length).length) :
    ((k ≤ 6 + c.treeLeaves.length ∨
        (k - 7 - c.treeLeaves.length) * 8
            + modulusOf (c.treeShape.length + c.messageBits.length)
          < 2 * c.treeLeaves.length - 1) →
      ∃ err, readData e (((writeData e c out).out.drop out.length).take k) = .error err ∧
        err.isTruncation = true) ∧
    (¬ (k ≤ 6 + c.treeLeaves.length ∨
        (k - 7 - c.treeLeaves.length) * 8
            + modulusOf (c.treeShape.length + c.messageBits.length)
          < 2 * c.treeLeaves.length - 1) →
      ∃ c1, readData e (((writeData e c out).out.drop out.length).take k) = .ok c1) := by
  have hv : checkIntegrityOf c = .ok () := (checkIntegrityOf_ok_iff c).2 ⟨h2, hts⟩
  have hb : (toU8 (c.treeLeaves.length - 1)).val = c.treeLeaves.length - 1 :=
    toU8_val_of_lt _ (by omega)
  obtain ⟨_, hm1, hm8⟩ := modulusOf_range (c.treeShape.length + c.messageBits.length)
  have hm : (toU8 (modulusOf (c.treeShape.length + c.messageBits.length))).val
      = modulusOf (c.treeShape.length + c.messageBits.length) :=
    toU8_val_of_lt _ (by omega)
  rw [(writeData_ok e c out hv).2.2, List.drop_left] at hk ⊢
  simp only [List.length_append, List.length_cons, header_length, packBits_length] at hk
  rw [readData_take e _ _ _ _ k (by rw [hb]; omega) (by rw [hb]; omega) hk4, hb, hm]
  have hL : c.treeLeaves.length - 1 + 1 = c.treeLeaves.length := by omega
  rw [hL]
  by_cases c1 : k = 4
  · rw [if_pos c1]
    exact ⟨fun _ => ⟨_, rfl, rfl⟩, fun h => absurd (Or.inl (by omega)) h⟩
  · rw [if_neg c1]
    by_cases c2 : k < 5 + c.treeLeaves.length
    · rw [if_pos c2]
      exact ⟨fun _ => ⟨_, rfl, rfl⟩, fun h => absurd (Or.inl (by omega)) h⟩
    · rw [if_neg c2]
      by_cases c3 : k = 5 + c.treeLeaves.length
      · rw [if_pos c3]
        exact ⟨fun _ => ⟨_, rfl, rfl⟩, fun h => absurd (Or.inl (by omega)) h⟩
      · rw [if_neg c3]
        have hlen : (List.take (k - (6 + c.treeLeaves.length))
            (packBits (c.treeShape ++ c.messageBits))).length = k - (6 + c.treeLeaves.length) := by
          rw [List.length_take, packBits_length, List.length_append]; omega
        rcases readBitsOf_cases c.treeLeaves c.treeLeaves.length
          (modulusOf (c.treeShape.length + c.messageBits.length))
          (List.take (k - (6 + c.treeLeaves.length)) (packBits (c.treeShape ++ c.messageBits)))
          (by omega) h256 (by rw [hlen]; omega) with ⟨hR, hcov, _, hok⟩ | ⟨hbad, herr⟩
        · rw [hlen] at hR hcov
          rw [hok]
          refine ⟨fun h => ?_, fun _ => ⟨_, rfl⟩⟩
          exfalso
          rcases h with h | h
          · omega
          · have : k - 7 - c.treeLeaves.length = k - (6 + c.treeLeaves.length) - 1 := by omega
            rw [this] at h; omega
        · rw [hlen] at hbad
          rw [herr]
          refine ⟨fun _ => ⟨_, rfl, rfl⟩, fun h => ?_⟩
          exfalso
          apply h
          rcases hbad with h0 | hlt | h8
          · left; omega
          · right
            have : k - 7 - c.treeLeaves.length = k - (6 + c.treeLeaves.length) - 1 := by omega
            rw [this]; exact hlt
          · omega

/-- C6: the theorem at a concrete input, its hypotheses discharged by
evaluation. -/
theorem C6_truncation_witness :
    (2 ≤ (sample message13).treeLeaves.length ∧ (sample message13).treeLeaves.length ≤ 256 ∧
      (sample message13).treeShape.length = 2 * (sample message13).treeLeaves.length - 1 ∧
      (sample message13).treeShape.length + (sample message13).messageBits.length < 2 ^ 64 ∧
      4 ≤ 8 ∧
      8 < ((writeData .little (sample message13) []).out.drop ([] : List Byte).length).length) ∧
    (((8 ≤ 6 + (sample message13).treeLeaves.length ∨
        (8 - 7 - (sample message13).treeLeaves.length) * 8
            + modulusOf ((sample message13).treeShape.length
              + (sample message13).messageBits.length)
          < 2 * (sample message13).treeLeaves.length - 1) →
      ∃ err, readData .little (((writeData .little (sample message13) []).out.drop
          ([] : List Byte).length).take 8) = .error err ∧ err.isTruncation = true) ∧
    (¬ (8 ≤ 6 + (sample message13).treeLeaves.length ∨
        (8 - 7 - (sample message13).treeLeaves.length) * 8
            + modulusOf ((sample message13).treeShape.length
              + (sample message13).messageBits.length)
          < 2 * (sample message13).treeLeaves.length - 1) →
      ∃ c1, readData .little (((writeData .little (sample message13) []).out.drop
          ([] : List Byte).length).take 8) = .ok c1)) :=
  ⟨by decide, C6_truncation .little (sample message13) [] 8 (by decide) (by decide) (by decide)
    (by decide) (by decide) (by decide)⟩

/-- The bit phase either returns a container or fails with the end-of-input
error of the bit reader. -/
theorem readBitsOf_total (leaves : List Byte) (L m : Nat) (region : List Byte) (hL : 1 ≤ L) :
    (∃ c, readBitsOf leaves L m region = .ok c) ∨
      readBitsOf leaves L m region = .error .unexpectedEndOfBits := by
  by_cases hshort : 8 * region.length < 2 * L - 1
  · exact Or.inr (readBitsOf_short leaves L m region hshort)
  · by_cases hfit : decrement64 (bitsToReadOf region.length m) (2 * L - 1)
        ≤ 8 * region.length - (2 * L - 1)
    · exact Or.inl ⟨_, readBitsOf_ok leaves L m region hL (by omega) hfit⟩
    · exact Or.inr (readBitsOf_long leaves L m region hL (by omega) (by omega))

/-- C8: whenever `readData` succeeds on a stream (of fewer than 2^60 bytes),
the stream is header, count byte `b` (L = b + 1), L leaves, modulus byte `m`
and a region of R >= 1 bytes; the declared bit count (R - 1) * 8 + m covers
the 2L - 1 tree bits; the returned `treeShape` is the first 2L - 1 bits of the
region, least significant bit first within each byte, and the returned
`messageBits` is the following (R - 1) * 8 + m - (2L - 1) bits, in order. -/
theorem C8_read_bit_split (e : Endian) (bs : List Byte) (c : EncodedData)
    (hsize : bs.length < 2 ^ 60) (h : readData e bs = .ok c) :
    ∃ (b : Byte) (leaves : List Byte) (m : Byte) (region : List Byte),
      bs = bytesOfU32 e kFileHeader ++ b :: (leaves ++ m :: region) ∧
      leaves.length = b.val + 1 ∧
      1 ≤ region.length ∧
      2 * (b.val + 1) - 1 ≤ (region.length - 1) * 8 + m.val ∧
      c.treeShape = (bitsOfBytes region).take (2 * (b.val + 1) - 1) ∧
      c.messageBits = ((bitsOfBytes region).drop (2 * (b.val + 1) - 1)).take
        ((region.length - 1) * 8 + m.val - (2 * (b.val + 1) - 1)) ∧
      c.treeShape.length = 2 * (b.val + 1) - 1 ∧
      c.messageBits.length = (region.length - 1) * 8 + m.val - (2 * (b.val + 1) - 1) := by
  obtain ⟨b, leaves, m, region, hbs, hb, hl⟩ := readData_ok_layout e bs c h
  have hlen : bs.length = 4 + (1 + (leaves.length + (1 + region.length))) := by
    rw [hbs]; simp [header_length]; omega
  have hbl := b.isLt
  have hml := m.isLt
  rw [hbs, readData_layout e b leaves m region hb hl] at h
  rcases readBitsOf_cases leaves (b.val + 1) m.val region (by omega) (by omega) (by omega)
    with ⟨hR, hcov, hm8, hok⟩ | ⟨_, herr⟩
  · rw [hok] at h
    injection h with h
    subst h
    refine ⟨b, leaves, m, region, hbs, hl, hR, hcov, rfl, rfl, ?_, ?_⟩
    · simp only [List.length_take, bitsOfBytes_length]; omega
    · simp only [List.length_take, List.length_drop, bitsOfBytes_length]; omega
  · rw [herr] at h
    cases h

/-- C8: the theorem at a concrete input, its hypotheses discharged by
evaluation. -/
theorem C8_read_bit_split_witness :
    (([0xA7, 0x6B, 0x10, 0xC5, 1, 65, 66, 8, 0x69] : List Byte).length < 2 ^ 60 ∧
      readData .little [0xA7, 0x6B, 0x10, 0xC5, 1, 65, 66, 8, 0x69] = .ok (sample message5)) ∧
    ∃ (b : Byte) (leaves : List Byte) (m : Byte) (region : List Byte),
      [0xA7, 0x6B, 0x10, 0xC5, 1, 65, 66, 8, 0x69]
        = bytesOfU32 .little kFileHeader ++ b :: (leaves ++ m :: region) ∧
      leaves.length = b.val + 1 ∧
      1 ≤ region.length ∧
      2 * (b.val + 1) - 1 ≤ (region.length - 1) * 8 + m.val ∧
      (sample message5).treeShape = (bitsOfBytes region).take (2 * (b.val + 1) - 1) ∧
      (sample message5).messageBits = ((bitsOfBytes region).drop (2 * (b.val + 1) - 1)).take
        ((region.length - 1) * 8 + m.val - (2 * (b.val + 1) - 1)) ∧
      (sample message5).treeShape.length = 2 * (b.val + 1) - 1 ∧
      (sample message5).messageBits.length
        = (region.length - 1) * 8 + m.val - (2 * (b.val + 1) - 1) :=
  ⟨by decide, C8_read_bit_split .little [0xA7, 0x6B, 0x10, 0xC5, 1, 65, 66, 8, 0x69]
    (sample message5) (by decide) (by decide)⟩

/-- C9: on a stream with a correct magic header, `readData` fails with the
character-count read error when there is no fifth byte; with a fifth byte `b`
it takes L = b + 1 and fails with the count-too-low error if and only if
b = 0; and when b >= 1 and the stream ends right after the b + 1 leaves it
fails with the modulus read error. -/
theorem C9_read_leaf_count (e : Endian) (b : Byte) (tail leaves : List Byte)
    (hl : leaves.length = b.val + 1) :
    readData e (bytesOfU32 e kFileHeader) = .error .readingCharCount ∧
    (readData e (bytesOfU32 e kFileHeader ++ b :: tail) = .error .charCountTooLow
      ↔ b.val = 0) ∧
    (1 ≤ b.val →
      readData e (bytesOfU32 e kFileHeader ++ b :: leaves) = .error .readingModulus) := by
  refine ⟨?_, ?_, ?_⟩
  · have := readData_header e []
    rw [List.append_nil] at this
    rw [this]
  · rw [readData_header]
    by_cases h0 : b.val = 0
    · simp [h0]
    · have h1 : ¬ (b.val + 1 < 2) := by omega
      simp only [h1, if_false, h0, iff_false]
      by_cases h2 : tail.length < b.val + 1
      · simp [h2]
      · simp only [h2, if_false]
        cases hd : tail.drop (b.val + 1) with
        | nil => simp
        | cons m region =>
          simp only
          intro hcontra
          rcases readBitsOf_total (tail.take (b.val + 1)) (b.val + 1) m.val region (by omega)
            with ⟨c1, hc1⟩ | herr
          · rw [hc1] at hcontra; cases hcontra
          · rw [herr] at hcontra; cases hcontra
  · intro hb
    rw [readData_header]
    have h1 : ¬ (b.val + 1 < 2) := by omega
    have h2 : ¬ (leaves.length < b.val + 1) := by omega
    have h3 : leaves.drop (b.val + 1) = [] := by
      rw [← hl]; simp
    simp only [h1, h2, if_false, h3]

/-- C9: the theorem at a concrete input, its hypotheses discharged by
evaluation. -/
theorem C9_read_leaf_count_witness :
    ([65, 66] : List Byte).length = (1 : Byte).val + 1 ∧
    (readData .little (bytesOfU32 .little kFileHeader) = .error .readingCharCount ∧
    (readData .little (bytesOfU32 .little kFileHeader ++ 1 :: [65]) = .error .charCountTooLow
      ↔ (1 : Byte).val = 0) ∧
    (1 ≤ (1 : Byte).val →
      readData .little (bytesOfU32 .little kFileHeader ++ 1 :: [65, 66])
        = .error .readingModulus)) :=
  ⟨by decide, C9_read_leaf_count .little 1 [65] [65, 66] (by decide)⟩

/-- C10: on a stream with a correct magic header and a leaf-count byte
b >= 1, `readData` fails with the leaf-table read error when fewer than b + 1
bytes follow the count byte; otherwise the `treeLeaves` of any container it
returns are exactly the b + 1 bytes that follow, in stream order and
unchanged. -/
theorem C10_read_leaf_table (e : Endian) (b : Byte) (tail : List Byte) (hb : 1 ≤ b.val) :
    (tail.length < b.val + 1 →
      readData e (bytesOfU32 e kFileHeader ++ b :: tail) = .error .readingLeaves) ∧
    (b.val + 1 ≤ tail.length → ∀ c,
      readData e (bytesOfU32 e kFileHeader ++ b :: tail) = .ok c →
        c.treeLeaves = tail.take (b.val + 1) ∧ c.treeLeaves.length = b.val + 1) := by
  have h1 : ¬ (b.val + 1 < 2) := by omega
  rw [readData_header]
  simp only [h1, if_false]
  constructor
  · intro hlt
    rw [if_pos hlt]
  · intro hge c hc
    have h2 : ¬ (tail.length < b.val + 1) := by omega
    rw [if_neg h2] at hc
    cases hd : tail.drop (b.val + 1) with
    | nil => rw [hd] at hc; cases hc
    | cons m region =>
      rw [hd] at hc
      simp only [readBitsOf] at hc
      cases hts : readTreeShape (2 * (b.val + 1) - 1) (BitReader.new region)
          (bitsToReadOf region.length m.val) with
      | error err => rw [hts] at hc; cases hc
      | ok res =>
        obtain ⟨shape, reader1, n1⟩ := res
        rw [hts] at hc
        simp only at hc
        cases hms : readMessageBits n1 reader1 with
        | error err => rw [hms] at hc; cases hc
        | ok res2 =>
          rw [hms] at hc
          injection hc with hc
          subst hc
          exact ⟨rfl, by simp; omega⟩

/-- C10: the theorem at a concrete input, its hypotheses discharged by
evaluation. -/
theorem C10_read_leaf_table_witness :
    1 ≤ (1 : Byte).val ∧
    ((([200, 66, 8, 0x69] : List Byte).length < (1 : Byte).val + 1 →
      readData .big (bytesOfU32 .big kFileHeader ++ 1 :: [200, 66, 8, 0x69])
        = .error .readingLeaves) ∧
    ((1 : Byte).val + 1 ≤ ([200, 66, 8, 0x69] : List Byte).length → ∀ c,
      readData .big (bytesOfU32 .big kFileHeader ++ 1 :: [200, 66, 8, 0x69]) = .ok c →
        c.treeLeaves = ([200, 66, 8, 0x69] : List Byte).take ((1 : Byte).val + 1) ∧
        c.treeLeaves.length = (1 : Byte).val + 1)) :=
  ⟨by decide, C10_read_leaf_table .big 1 [200, 66, 8, 0x69] (by decide)⟩

/-- C11: constructing a Bit from an integer `v` succeeds if and only if `v` is
0 or 1, giving false for 0 and true for 1; for 48 and 49, the codes of the
characters 0 and 1, it fails with the character-confusion error; for every
other value it fails with the generic illegal-value error. -/
theorem C11_bit_construction (v : Int) :
    ((∃ b, Bit.ofInt v = .ok b) ↔ (v = 0 ∨ v = 1)) ∧
    (v = 0 → Bit.ofInt v = .ok ⟨false⟩) ∧
    (v = 1 → Bit.ofInt v = .ok ⟨true⟩) ∧
    (v = 48 ∨ v = 49 → Bit.ofInt v = .error .bitIsCharacter) ∧
    (v ≠ 0 → v ≠ 1 → v ≠ 48 → v ≠ 49 → Bit.ofInt v = .error (.bitIllegalValue v)) := by
  refine ⟨?_, ?_, ?_, ?_, ?_⟩
  · constructor
    · rintro ⟨b, hb⟩
      unfold Bit.ofInt at hb
      split_ifs at hb with h1 h2
      omega
    · rintro (h | h) <;> subst h <;> exact ⟨_, rfl⟩
  · intro h; subst h; rfl
  · intro h; subst h; rfl
  · intro h
    unfold Bit.ofInt
    rw [if_pos h]
  · intro h0 h1 h48 h49
    unfold Bit.ofInt
    rw [if_neg (by omega), if_pos ⟨h0, h1⟩]

theorem drainBits_snd (bits : List Bit) (w : BitWriter) :
    (drainBits bits w).2 = bits.foldl BitWriter.put w := by
  induction bits generalizing w with
  | nil => rfl
  | cons b bs ih => simp only [drainBits, List.foldl_cons, ih]

/-- Putting a sequence of bits into a fresh writer and disposing of it
appends the packing of the sequence to the sink. -/
theorem putAll_destroy (out : List Byte) (bits : List Bit) :
    (bits.foldl BitWriter.put (BitWriter.new out)).destroy = out ++ packBits bits := by
  obtain ⟨_, p1, hp1, hs1⟩ :=
    drainBits_spec bits (BitWriter.new out) [] (BitWriter.new_holds_nothing out)
  rw [← drainBits_snd, BitWriter.destroy_pending _ p1 hp1]
  have := hs1 []
  simp only [List.append_nil, List.nil_append] at this
  rw [this]
  rfl

theorem gets_eq_readMessageBits (n : Nat) (r : BitReader) :
    BitReader.gets n r = readMessageBits n r := by
  induction n generalizing r with
  | zero => rfl
  | succ n ih =>
    simp only [BitReader.gets, readMessageBits]
    cases r.get with
    | error err => rfl
    | ok res =>
      simp only [ih]

theorem bitsOfBytes_getElem? (bytes : List Byte) (k : Nat) :
    (bitsOfBytes bytes)[k]? = bytes[k / 8]?.map (fun b => (⟨b.val.testBit (k % 8)⟩ : Bit)) := by
  induction bytes generalizing k with
  | nil => simp [bitsOfBytes]
  | cons b bs ih =>
    simp only [bitsOfBytes]
    by_cases hk : k < 8
    · have h0 : k / 8 = 0 := by omega
      have hm : k % 8 = k := by omega
      rw [List.getElem?_append_left (by simp [bitsOfByte, bitsOfNat_length]; exact hk), h0, hm]
      simp [bitsOfByte, bitsOfNat, List.getElem?_map, List.getElem?_range hk]
    · have h1 : k / 8 = (k - 8) / 8 + 1 := by omega
      have hm : k % 8 = (k - 8) % 8 := by omega
      rw [List.getElem?_append_right (by simp [bitsOfByte, bitsOfNat_length]; omega), h1, hm]
      simp only [bitsOfByte, bitsOfNat_length, List.getElem?_cons_succ]
      exact ih (k - 8)

/-- C12: for every sequence of n bits put into a fresh `BitWriter` that is
then disposed of, the sink receives exactly ceil(n/8) further bytes (none for
n = 0, no extra byte for a multiple of 8), and bit `i` of byte `j` is set if
and only if input bit `8j + i` exists and is 1. -/
theorem C12_writer_packing (out : List Byte) (bits : List Bit) :
    ∃ packed : List Byte,
      (bits.foldl BitWriter.put (BitWriter.new out)).destroy = out ++ packed ∧
      packed.length = (bits.length + 7) / 8 ∧
      (bits.length = 0 → packed = []) ∧
      (bits.length % 8 = 0 → packed.length * 8 = bits.length) ∧
      ∀ (j i : Nat) (hj : j < packed.length), i < 8 →
        ((packed.get ⟨j, hj⟩).val.testBit i = true ↔
          ∃ h : 8 * j + i < bits.length, (bits.get ⟨8 * j + i, h⟩)._value = true) := by
  refine ⟨packBits bits, putAll_destroy out bits, packBits_length bits, ?_, ?_, ?_⟩
  · intro h
    have : bits = [] := List.eq_nil_of_length_eq_zero h
    rw [this, packBits_nil]
  · intro h
    rw [packBits_length]
    omega
  · intro j i hj hi
    rw [packBits_testBit bits j i hj hi, List.getD_eq_getElem?_getD]
    by_cases h : 8 * j + i < bits.length
    · rw [List.getElem?_eq_getElem h]
      simp [h]
    · rw [List.getElem?_eq_none (by omega)]
      simp [h]

/-- C13: on a fresh `BitReader` over a source of B bytes, when
floor(k/8) < B the first k + 1 calls of `get` succeed and the (k+1)-th
returns bit (k mod 8) of byte floor(k/8); when k = 8B the first k calls
succeed and the (k+1)-th fails with the unexpected-end error; and for k > 8B
the first k calls do not all succeed. -/
theorem C13_bit_reader (bytes : List Byte) (k : Nat) :
    (∀ h : k / 8 < bytes.length, ∃ bits r r1,
      BitReader.gets k (BitReader.new bytes) = .ok (bits, r) ∧
      r.get = .ok (⟨(bytes.get ⟨k / 8, h⟩).val.testBit (k % 8)⟩, r1)) ∧
    (k = 8 * bytes.length → ∃ bits r,
      BitReader.gets k (BitReader.new bytes) = .ok (bits, r) ∧
      r.get = .error .unexpectedEndOfBits) ∧
    (8 * bytes.length < k →
      BitReader.gets k (BitReader.new bytes) = .error .unexpectedEndOfBits) := by
  have hnew : (BitReader.new bytes)._bitIndex ≤ 8 := by simp [BitReader.new]
  have hlen : (BitReader.new bytes).pending.length = 8 * bytes.length := by
    rw [BitReader.new_pending, bitsOfBytes_length]
  refine ⟨?_, ?_, ?_⟩
  · intro h
    obtain ⟨r, hr, hp, hi⟩ := readMessageBits_ok k (BitReader.new bytes) hnew
      (by rw [hlen]; omega)
    rw [BitReader.new_pending] at hp
    have hk : k < (bitsOfBytes bytes).length := by rw [bitsOfBytes_length]; omega
    have hhead : (bitsOfBytes bytes).drop k
        = ⟨(bytes.get ⟨k / 8, h⟩).val.testBit (k % 8)⟩ :: (bitsOfBytes bytes).drop (k + 1) := by
      rw [List.drop_eq_getElem_cons hk]
      congr 1
      have := bitsOfBytes_getElem? bytes k
      rw [List.getElem?_eq_getElem hk, List.getElem?_eq_getElem h] at this
      simpa using this
    obtain ⟨r1, hget, _, _⟩ := (BitReader.get_spec r hi).2 _ _ (hp.trans hhead)
    exact ⟨_, r, r1, by rw [gets_eq_readMessageBits]; exact hr, hget⟩
  · intro hk
    obtain ⟨r, hr, hp, hi⟩ := readMessageBits_ok k (BitReader.new bytes) hnew
      (by rw [hlen]; omega)
    have hnil : r.pending = [] := by
      rw [hp]
      apply List.drop_of_length_le
      rw [hlen]; omega
    exact ⟨_, r, by rw [gets_eq_readMessageBits]; exact hr, (BitReader.get_spec r hi).1 hnil⟩
  · intro hk
    rw [gets_eq_readMessageBits]
    exact readMessageBits_error k (BitReader.new bytes) hnew (by rw [hlen]; exact hk)

/-- C14: reading 8 * ceil(n/8) bits with a fresh `BitReader` from the bytes a
fresh `BitWriter` emitted for a sequence `s` of n bits gives `s` followed by
8 * ceil(n/8) - n zero bits, after which the source is exhausted. -/
theorem C14_writer_reader_inverse (s : List Bit) :
    ∃ r, BitReader.gets (8 * ((s.length + 7) / 8))
        (BitReader.new ((s.foldl BitWriter.put (BitWriter.new [])).destroy))
      = .ok (s ++ List.replicate (8 * ((s.length + 7) / 8) - s.length) ⟨false⟩, r) ∧
      r.get = .error .unexpectedEndOfBits := by
  rw [putAll_destroy, List.nil_append, gets_eq_readMessageBits]
  have hnew : (BitReader.new (packBits s))._bitIndex ≤ 8 := by simp [BitReader.new]
  have hpend : (BitReader.new (packBits s)).pending
      = s ++ List.replicate (8 * ((s.length + 7) / 8) - s.length) ⟨false⟩ := by
    rw [BitReader.new_pending, bitsOfBytes_packBits]
  have hlen : (BitReader.new (packBits s)).pending.length = 8 * ((s.length + 7) / 8) := by
    rw [BitReader.new_pending, bitsOfBytes_length, packBits_length]
  obtain ⟨r, hr, hp, hi⟩ := readMessageBits_ok (8 * ((s.length + 7) / 8))
    (BitReader.new (packBits s)) hnew (by rw [hlen])
  refine ⟨r, ?_, ?_⟩
  · rw [hr, List.take_of_length_le (by rw [hlen]), hpend]
  · apply (BitReader.get_spec r hi).1
    rw [hp]
    exact List.drop_of_length_le (by rw [hlen])

theorem writeData_result_ok_iff (e : Endian) (data : EncodedData) (out : List Byte) :
    (writeData e data out).result = .ok () ↔ checkIntegrityOf data = .ok () := by
  constructor
  · intro h
    cases hc : checkIntegrityOf data with
    | ok u => rfl
    | error err =>
      have hr : (writeData e data out) = ⟨.error err, data, out⟩ := by
        simp only [writeData, hc]
      rw [hr] at h
      cases h
  · intro h
    exact (writeData_ok e data out h).1

/-- The bit phase returns the leaves it was given and 2L - 1 tree bits. -/
theorem readBitsOf_shape (leaves : List Byte) (L m : Nat) (region : List Byte) (hL : 1 ≤ L)
    (c : EncodedData) (h : readBitsOf leaves L m region = .ok c) :
    c.treeLeaves = leaves ∧ c.treeShape.length = 2 * L - 1 := by
  by_cases hshort : 8 * region.length < 2 * L - 1
  · rw [readBitsOf_short leaves L m region hshort] at h
    cases h
  · by_cases hfit : decrement64 (bitsToReadOf region.length m) (2 * L - 1)
        ≤ 8 * region.length - (2 * L - 1)
    · rw [readBitsOf_ok leaves L m region hL (by omega) hfit] at h
      injection h with h
      subst h
      refine ⟨rfl, ?_⟩
      simp only [List.length_take, bitsOfBytes_length]
      omega
    · rw [readBitsOf_long leaves L m region hL (by omega) (by omega)] at h
      cases h

/-- C15: for every container that passes validation `writeData` emits exactly
4 + 1 + L + 1 + ceil((treeShape.length + messageBits.length)/8) bytes; for
leaves A, B, tree shape 1,0,0 and message bits 1,0,1,1,0 that is 9 bytes, with
leaf-count byte 1, trailing-count byte 8 and one packed byte, and `readData`
of those 9 bytes returns the container. -/
theorem C15_output_size (e : Endian) (data : EncodedData) (out : List Byte)
    (hv : checkIntegrityOf data = .ok ()) :
    ((writeData e data out).out.drop out.length).length
      = 4 + 1 + data.treeLeaves.length + 1
        + (data.treeShape.length + data.messageBits.length + 7) / 8 ∧
    ((writeData e (sample message5) []).out.length = 9 ∧
      (writeData e (sample message5) []).out.get? 4 = some 1 ∧
      (writeData e (sample message5) []).out.get? 7 = some 8 ∧
      (writeData e (sample message5) []).out.drop 8 = [0x69] ∧
      readData e (writeData e (sample message5) []).out = .ok (sample message5)) := by
  constructor
  · rw [(writeData_ok e data out hv).2.2, List.drop_left]
    simp only [List.length_append, List.length_cons, header_length, packBits_length]
    omega
  · cases e <;> decide

/-- C15: the theorem at a concrete input, its hypotheses discharged by
evaluation. -/
theorem C15_output_size_witness :
    checkIntegrityOf (sample message13) = .ok () ∧
    (((writeData .big (sample message13) [1, 2]).out.drop ([1, 2] : List Byte).length).length
      = 4 + 1 + (sample message13).treeLeaves.length + 1
        + ((sample message13).treeShape.length + (sample message13).messageBits.length + 7) / 8 ∧
    ((writeData .big (sample message5) []).out.length = 9 ∧
      (writeData .big (sample message5) []).out.get? 4 = some 1 ∧
      (writeData .big (sample message5) []).out.get? 7 = some 8 ∧
      (writeData .big (sample message5) []).out.drop 8 = [0x69] ∧
      readData .big (writeData .big (sample message5) []).out = .ok (sample message5))) :=
  ⟨by decide, C15_output_size .big (sample message13) [1, 2] (by decide)⟩

/-- C16: every container `readData` returns satisfies the invariant
`writeData` checks: it has L = (count byte) + 1 leaves with 2 <= L <= 256 and
exactly 2L - 1 tree bits, so `checkIntegrityOf` accepts it. -/
theorem C16_read_output_valid (e : Endian) (bs : List Byte) (c : EncodedData)
    (h : readData e bs = .ok c) :
    2 ≤ c.treeLeaves.length ∧ c.treeLeaves.length ≤ 256 ∧
    c.treeShape.length = 2 * c.treeLeaves.length - 1 ∧
    checkIntegrityOf c = .ok () ∧
    (bs.get? 4).map (fun b => b.val + 1) = some c.treeLeaves.length := by
  obtain ⟨b, leaves, m, region, hbs, hb, hl⟩ := readData_ok_layout e bs c h
  have hbl := b.isLt
  rw [hbs, readData_layout e b leaves m region hb hl] at h
  obtain ⟨h1, h2⟩ := readBitsOf_shape leaves (b.val + 1) m.val region (by omega) c h
  have hlen : c.treeLeaves.length = b.val + 1 := by rw [h1, hl]
  have h3 : c.treeShape.length = 2 * c.treeLeaves.length - 1 := by rw [h2, hlen]
  refine ⟨by omega, by omega, h3, (checkIntegrityOf_ok_iff c).2 ⟨by omega, h3⟩, ?_⟩
  rw [hbs, List.get?_eq_getElem?, List.getElem?_append_right (by rw [header_length]),
    header_length, hlen]
  simp

/-- C16: the theorem at a concrete input, its hypotheses discharged by
evaluation. -/
theorem C16_read_output_valid_witness :
    readData .little [0xA7, 0x6B, 0x10, 0xC5, 1, 65, 66, 8, 0x69] = .ok (sample message5) ∧
    (2 ≤ (sample message5).treeLeaves.length ∧ (sample message5).treeLeaves.length ≤ 256 ∧
    (sample message5).treeShape.length = 2 * (sample message5).treeLeaves.length - 1 ∧
    checkIntegrityOf (sample message5) = .ok () ∧
    (([0xA7, 0x6B, 0x10, 0xC5, 1, 65, 66, 8, 0x69] : List Byte).get? 4).map
      (fun b => b.val + 1) = some (sample message5).treeLeaves.length) :=
  ⟨by decide, C16_read_output_valid .little [0xA7, 0x6B, 0x10, 0xC5, 1, 65, 66, 8, 0x69]
    (sample message5) (by decide)⟩

/-- A well laid out stream whose declared bit count (R - 1) * 8 + m is smaller than the 2L - 1 tree bits
is rejected with the unexpected-end error, not returned with a short tree. -/
theorem readData_declared_too_short (e : Endian) (b : Byte) (leaves : List Byte) (m : Byte)
    (region : List Byte) (hb : 1 ≤ b.val) (hl : leaves.length = b.val + 1)
    (hlow : (region.length - 1) * 8 + m.val < 2 * (b.val + 1) - 1) :
    readData e (bytesOfU32 e kFileHeader ++ b :: (leaves ++ m :: region))
      = .error .unexpectedEndOfBits := by
  have hbl := b.isLt
  have hml := m.isLt
  rw [readData_layout e b leaves m region hb hl]
  rcases readBitsOf_cases leaves (b.val + 1) m.val region (by omega) (by omega) (by omega)
    with ⟨_, hcov, _, _⟩ | ⟨_, herr⟩
  · omega
  · exact herr

/-- C17: after every successful `writeData` call the three queues of the
container are empty, and what was emitted after the header and the count byte
is the leaves front first, the modulus byte, and bytes whose bits (least
significant first) are the tree bits front first followed by the message bits
front first. -/
theorem C17_destructive_draining (e : Endian) (data : EncodedData) (out : List Byte)
    (h : (writeData e data out).result = .ok ()) :
    (writeData e data out).data.treeLeaves = [] ∧
    (writeData e data out).data.treeShape = [] ∧
    (writeData e data out).data.messageBits = [] ∧
    ∃ (countByte modulusByte : Byte) (packed : List Byte),
      (writeData e data out).out = out ++ (bytesOfU32 e kFileHeader ++ countByte ::
        (data.treeLeaves ++ modulusByte :: packed)) ∧
      (bitsOfBytes packed).take (data.treeShape.length + data.messageBits.length)
        = data.treeShape ++ data.messageBits := by
  have hv := (writeData_result_ok_iff e data out).1 h
  obtain ⟨_, hd, ho⟩ := writeData_ok e data out hv
  rw [hd]
  refine ⟨rfl, rfl, rfl, _, _, _, ho, ?_⟩
  rw [bitsOfBytes_packBits, ← List.length_append, List.take_left]

/-- C17: the theorem at a concrete input, its hypotheses discharged by
evaluation. -/
theorem C17_destructive_draining_witness :
    (writeData .little (sample message5) []).result = .ok () ∧
    ((writeData .little (sample message5) []).data.treeLeaves = [] ∧
    (writeData .little (sample message5) []).data.treeShape = [] ∧
    (writeData .little (sample message5) []).data.messageBits = [] ∧
    ∃ (countByte modulusByte : Byte) (packed : List Byte),
      (writeData .little (sample message5) []).out
        = [] ++ (bytesOfU32 .little kFileHeader ++ countByte ::
          ((sample message5).treeLeaves ++ modulusByte :: packed)) ∧
      (bitsOfBytes packed).take
          ((sample message5).treeShape.length + (sample message5).messageBits.length)
        = (sample message5).treeShape ++ (sample message5).messageBits) :=
  ⟨by decide, C17_destructive_draining .little (sample message5) [] (by decide)⟩

/-- C18: for Bits built from values `v`, `w` (each 0 or 1), `==` holds if and
only if `v = w`, `!=` is the negation of `==`, and a Bit is printed as the
character 1 when built from 1 and as the character 0 when built from 0. -/
theorem C18_bit_equality_rendering (v w : Int) (a b : Bit)
    (ha : Bit.ofInt v = .ok a) (hb : Bit.ofInt w = .ok b) :
    (Bit.eq a b = true ↔ v = w) ∧
    Bit.ne a b = !(Bit.eq a b) ∧
    (v = 1 → Bit.render a = '1') ∧ (v = 0 → Bit.render a = '0') := by
  unfold Bit.ofInt at ha hb
  split_ifs at ha hb with h1 h2 h3 h4
  injection ha with ha
  injection hb with hb
  subst ha hb
  refine ⟨?_, rfl, ?_, ?_⟩
  · simp only [Bit.eq, beq_iff_eq, decide_eq_decide]
    omega
  · intro hv; simp [Bit.render, hv]
  · intro hv; simp [Bit.render, hv]

/-- C18: the theorem at a concrete input, its hypotheses discharged by
evaluation. -/
theorem C18_bit_equality_rendering_witness :
    (Bit.ofInt 1 = .ok ⟨true⟩ ∧ Bit.ofInt 0 = .ok ⟨false⟩) ∧
    ((Bit.eq ⟨true⟩ ⟨false⟩ = true ↔ (1 : Int) = 0) ∧
    Bit.ne ⟨true⟩ ⟨false⟩ = !(Bit.eq ⟨true⟩ ⟨false⟩) ∧
    ((1 : Int) = 1 → Bit.render ⟨true⟩ = '1') ∧ ((1 : Int) = 0 → Bit.render ⟨true⟩ = '0')) :=
  ⟨by decide, C18_bit_equality_rendering 1 0 ⟨true⟩ ⟨false⟩ (by decide) (by decide)⟩

theorem wrapInt32_of_fits (x : Int) (h1 : -2147483648 ≤ x) (h2 : x < 2147483648) :
    wrapInt32 x = x := by
  unfold wrapInt32
  omega

theorem wrapInt32_add (a b : Int) : wrapInt32 (wrapInt32 a + b) = wrapInt32 (a + b) := by
  unfold wrapInt32
  omega

theorem foldl_rating (l : List street) (a : Int) :
    l.foldl (fun output s => wrapInt32 (output + s.safetyRating)) (wrapInt32 a)
      = wrapInt32 (a + totalRating l) := by
  induction l generalizing a with
  | nil => simp [totalRating]
  | cons s l ih =>
    simp only [List.foldl_cons, wrapInt32_add]
    rw [ih (a + s.safetyRating)]
    simp only [totalRating, List.map_cons, List.sum_cons, add_assoc]

/-- The `int` that `getPathSafetyVector` returns is the exact total of the
ratings, wrapped around once at the end. -/
theorem getPathSafetyVector_eq (p : List street) :
    getPathSafetyVector p = wrapInt32 (totalRating p) := by
  have h := foldl_rating p 0
  rw [zero_add] at h
  exact h

/-- The order of two priorities, each the negated `int` total of a path,
against the order of the exact totals, when neither total nor its negation
leaves the range of `int`. -/
theorem priority_order (p q : List street)
    (hp : -2147483648 < totalRating p ∧ totalRating p < 2147483648)
    (hq : -2147483648 < totalRating q ∧ totalRating q < 2147483648)
    (h : wrapInt32 (-(getPathSafetyVector q)) ≤ wrapInt32 (-(getPathSafetyVector p))) :
    totalRating p ≤ totalRating q := by
  rw [getPathSafetyVector_eq, getPathSafetyVector_eq] at h
  rw [wrapInt32_of_fits (totalRating p) (by omega) (by omega),
    wrapInt32_of_fits (totalRating q) (by omega) (by omega),
    wrapInt32_of_fits (-(totalRating p)) (by omega) (by omega),
    wrapInt32_of_fits (-(totalRating q)) (by omega) (by omega)] at h
  omega

/-- The order of the `int` totals of two paths against the order of the
exact totals, when neither total leaves the range of `int`. -/
theorem rating_order (p q : List street)
    (hp : -2147483648 ≤ totalRating p ∧ totalRating p < 2147483648)
    (hq : -2147483648 ≤ totalRating q ∧ totalRating q < 2147483648) :
    (getPathSafetyVector p ≤ getPathSafetyVector q ↔ totalRating p ≤ totalRating q) := by
  rw [getPathSafetyVector_eq, getPathSafetyVector_eq,
    wrapInt32_of_fits (totalRating p) hp.1 hp.2, wrapInt32_of_fits (totalRating q) hq.1 hq.2]

/-- A bound on the total rating of a path from a bound on each rating. -/
theorem totalRating_bound (p : List street) (b : Int)
    (h : ∀ s ∈ p, -b ≤ s.safetyRating ∧ s.safetyRating ≤ b) :
    -((p.length : Int) * b) ≤ totalRating p ∧ totalRating p ≤ (p.length : Int) * b := by
  induction p with
  | nil => simp [totalRating]
  | cons s l ih =>
    have hs := h s (List.mem_cons_self _ _)
    have hl := ih (fun t ht => h t (List.mem_cons_of_mem _ ht))
    simp only [totalRating, List.map_cons, List.sum_cons, List.length_cons, Nat.cast_add,
      Nat.cast_one, add_mul, one_mul] at hl ⊢
    omega

theorem safestPath1Helper_entries (city : Grid) (fuel row col : Nat) (path : List street)
    (solutions : PriorityQueue (List street)) :
    (safestPath1Helper city fuel row col path solutions).entries
      = solutions.entries ++ (pathsFrom city fuel row col).map
          (fun cells => (path ++ cells, wrapInt32 (-(getPathSafetyVector (path ++ cells))))) := by
  induction fuel generalizing row col path solutions with
  | zero => simp [safestPath1Helper, pathsFrom]
  | succ fuel ih =>
    simp only [safestPath1Helper, pathsFrom]
    split_ifs <;>
      simp [ih, PriorityQueue.enqueue, List.map_map, Function.comp_def, List.append_assoc]

theorem walk_length (city : Grid) (moves : List Move) (row col : Nat) (cells : List street)
    (h : walk city row col moves = some cells) :
    row < city.numRows ∧ col < city.numCols ∧
      row + col + moves.length + 2 = city.numRows + city.numCols ∧
      cells.length = moves.length := by
  induction moves generalizing row col cells with
  | nil =>
    simp only [walk] at h
    split_ifs at h with hc
    injection h with h
    subst h
    simp
    omega
  | cons m ms ih =>
    cases m with
    | down =>
      simp only [walk] at h
      split_ifs at h with hc
      cases hw : walk city (row + 1) col ms with
      | none => rw [hw] at h; cases h
      | some cells1 =>
        rw [hw] at h
        injection h with h
        subst h
        have := ih (row + 1) col cells1 hw
        simp
        omega
    | right =>
      simp only [walk] at h
      split_ifs at h with hc
      cases hw : walk city row (col + 1) ms with
      | none => rw [hw] at h; cases h
      | some cells1 =>
        rw [hw] at h
        injection h with h
        subst h
        have := ih row (col + 1) cells1 hw
        simp
        omega

theorem mem_pathsFrom_of_walk (city : Grid) (moves : List Move) (fuel row col : Nat)
    (cells : List street) (h : walk city row col moves = some cells)
    (hf : moves.length < fuel) : cells ∈ pathsFrom city fuel row col := by
  induction moves generalizing row col cells fuel with
  | nil =>
    obtain ⟨f, rfl⟩ : ∃ f, fuel = f + 1 := ⟨fuel - 1, by simp at hf; omega⟩
    simp only [walk] at h
    split_ifs at h with hc
    injection h with h
    subst h
    have hexit : (row : Int) = (city.numRows : Int) - 1 ∧ (col : Int) = (city.numCols : Int) - 1 := by
      omega
    simp only [pathsFrom, hexit, and_self, if_true, List.mem_singleton]
  | cons m ms ih =>
    obtain ⟨f, rfl⟩ : ∃ f, fuel = f + 1 := ⟨fuel - 1, by simp at hf; omega⟩
    have hf1 : ms.length < f := by simp at hf; omega
    cases m with
    | down =>
      simp only [walk] at h
      split_ifs at h with hc
      cases hw : walk city (row + 1) col ms with
      | none => rw [hw] at h; cases h
      | some cells1 =>
        rw [hw] at h
        injection h with h
        subst h
        have hne : ¬ ((row : Int) = (city.numRows : Int) - 1 ∧
            (col : Int) = (city.numCols : Int) - 1) := by omega
        have hd : (row : Int) < (city.numRows : Int) - 1 ∧
            (city.cell (row + 1) col).sidewalk = true := ⟨by omega, hc.2.2⟩
        simp only [pathsFrom, hne, if_false, hd, and_self, if_true, List.mem_append,
          List.mem_map]
        exact Or.inl ⟨cells1, ih f (row + 1) col cells1 hw hf1, rfl⟩
    | right =>
      simp only [walk] at h
      split_ifs at h with hc
      cases hw : walk city row (col + 1) ms with
      | none => rw [hw] at h; cases h
      | some cells1 =>
        rw [hw] at h
        injection h with h
        subst h
        have hne : ¬ ((row : Int) = (city.numRows : Int) - 1 ∧
            (col : Int) = (city.numCols : Int) - 1) := by omega
        have hd : (col : Int) < (city.numCols : Int) - 1 ∧
            (city.cell row (col + 1)).sidewalk = true := ⟨by omega, hc.2.2⟩
        simp only [pathsFrom, hne, if_false, hd, and_self, if_true, List.mem_append,
          List.mem_map]
        exact Or.inr ⟨cells1, ih f row (col + 1) cells1 hw hf1, rfl⟩

theorem walk_of_mem_pathsFrom (city : Grid) (fuel row col : Nat) (cells : List street)
    (h : cells ∈ pathsFrom city fuel row col) (hr : row < city.numRows)
    (hc : col < city.numCols) : ∃ moves, walk city row col moves = some cells := by
  induction fuel generalizing row col cells with
  | zero => simp [pathsFrom] at h
  | succ fuel ih =>
    simp only [pathsFrom] at h
    by_cases hexit : (row : Int) = (city.numRows : Int) - 1 ∧
        (col : Int) = (city.numCols : Int) - 1
    · rw [if_pos hexit, List.mem_singleton] at h
      subst h
      refine ⟨[], ?_⟩
      have : row + 1 = city.numRows ∧ col + 1 = city.numCols := by omega
      simp only [walk, this, and_self, if_true]
    · rw [if_neg hexit] at h
      rcases List.mem_append.1 h with hd | hrt
      · by_cases hcond : (row : Int) < (city.numRows : Int) - 1 ∧
            (city.cell (row + 1) col).sidewalk = true
        · rw [if_pos hcond] at hd
          obtain ⟨cells1, hmem, rfl⟩ := List.mem_map.1 hd
          obtain ⟨moves, hw⟩ := ih (row + 1) col cells1 hmem (by omega) hc
          refine ⟨.down :: moves, ?_⟩
          have : row + 1 < city.numRows ∧ col < city.numCols ∧
              (city.cell (row + 1) col).sidewalk = true := ⟨by omega, hc, hcond.2⟩
          simp only [walk, this, and_self, if_true, hw, Option.map_some']
        · rw [if_neg hcond] at hd
          cases hd
      · by_cases hcond : (col : Int) < (city.numCols : Int) - 1 ∧
            (city.cell row (col + 1)).sidewalk = true
        · rw [if_pos hcond] at hrt
          obtain ⟨cells1, hmem, rfl⟩ := List.mem_map.1 hrt
          obtain ⟨moves, hw⟩ := ih row (col + 1) cells1 hmem hr (by omega)
          refine ⟨.right :: moves, ?_⟩
          have : row < city.numRows ∧ col + 1 < city.numCols ∧
              (city.cell row (col + 1)).sidewalk = true := ⟨hr, by omega, hcond.2⟩
          simp only [walk, this, and_self, if_true, hw, Option.map_some']
        · rw [if_neg hcond] at hrt
          cases hrt

theorem leastEntry_spec {α : Type} (l : List (α × Int)) :
    (l ≠ [] → ∃ x, leastEntry l = some x) ∧
    (∀ x, leastEntry l = some x → x ∈ l ∧ ∀ y ∈ l, x.2 ≤ y.2) := by
  induction l with
  | nil => exact ⟨fun h => absurd rfl h, fun x h => by simp [leastEntry] at h⟩
  | cons a rest ih =>
    constructor
    · intro _
      simp only [leastEntry]
      cases leastEntry rest with
      | none => exact ⟨_, rfl⟩
      | some y =>
        simp only
        split_ifs <;> exact ⟨_, rfl⟩
    · intro x hx
      simp only [leastEntry] at hx
      cases hl : leastEntry rest with
      | none =>
        rw [hl] at hx
        injection hx with hx
        subst hx
        have hnil : rest = [] := by
          by_contra hne
          obtain ⟨z, hz⟩ := ih.1 hne
          rw [hl] at hz
          cases hz
        subst hnil
        simp
      | some y =>
        rw [hl] at hx
        obtain ⟨hy, hmin⟩ := ih.2 y hl
        simp only at hx
        split_ifs at hx with hle
        · injection hx with hx
          subst hx
          refine ⟨List.mem_cons_self _ _, ?_⟩
          intro z hz
          rcases List.mem_cons.1 hz with rfl | hz
          · exact le_refl _
          · exact le_trans hle (hmin z hz)
        · injection hx with hx
          subst hx
          refine ⟨List.mem_cons_of_mem _ hy, ?_⟩
          intro z hz
          rcases List.mem_cons.1 hz with rfl | hz
          · omega
          · exact hmin z hz

/-- What `safestPath1` returns when the city has a sidewalk path: one of
them, of full length, whose priority (the negated `int` total) is the
least. -/
theorem safestPath1_spec (city : Grid) (hex : ∃ p, IsSidewalkPath city p) :
    ∃ best, safestPath1 city = some best ∧ IsSidewalkPath city best ∧
      best.length = city.numRows + city.numCols - 1 ∧
      ∀ p, IsSidewalkPath city p →
        wrapInt32 (-(getPathSafetyVector best)) ≤ wrapInt32 (-(getPathSafetyVector p)) := by
  obtain ⟨p0, moves0, cells0, hw0, _⟩ := hex
  obtain ⟨hr, hc, hlen0, _⟩ := walk_length city moves0 0 0 cells0 hw0
  have hne : ¬ (city.numRows = 0 ∨ city.numCols = 0) := by omega
  have hent := safestPath1Helper_entries city (city.numRows + city.numCols) 0 0
    [city.cell 0 0] ⟨[]⟩
  simp only [List.nil_append] at hent
  have hmem0 := mem_pathsFrom_of_walk city moves0 (city.numRows + city.numCols) 0 0 cells0 hw0
    (by omega)
  have hnonempty : (safestPath1Helper city (city.numRows + city.numCols) 0 0
      [city.cell 0 0] ⟨[]⟩).entries ≠ [] := by
    rw [hent]
    intro hnil
    have := List.map_eq_nil_iff.1 hnil
    rw [this] at hmem0
    cases hmem0
  obtain ⟨x, hx⟩ := (leastEntry_spec _).1 hnonempty
  obtain ⟨hxmem, hxmin⟩ := (leastEntry_spec _).2 x hx
  rw [hent] at hxmem hxmin
  obtain ⟨cellsb, hcb, hxb⟩ := List.mem_map.1 hxmem
  obtain ⟨movesb, hwb⟩ := walk_of_mem_pathsFrom city _ 0 0 cellsb hcb hr hc
  obtain ⟨_, _, hlenb, hclb⟩ := walk_length city movesb 0 0 cellsb hwb
  refine ⟨x.1, ?_, ?_, ?_, ?_⟩
  · simp only [safestPath1, hne, if_false, PriorityQueue.dequeue, hx, Option.map_some']
  · rw [← hxb]
    exact ⟨movesb, cellsb, hwb, rfl⟩
  · rw [← hxb]
    simp only [List.singleton_append, List.length_cons, hclb]
    omega
  · rintro p ⟨moves, cells, hw, rfl⟩
    obtain ⟨_, _, hlen, _⟩ := walk_length city moves 0 0 cells hw
    have hmem := mem_pathsFrom_of_walk city moves (city.numRows + city.numCols) 0 0 cells hw
      (by omega)
    have := hxmin _ (List.mem_map.2 ⟨cells, hmem, rfl⟩)
    rw [← hxb] at this ⊢
    simp only [List.singleton_append] at this ⊢
    exact this

/-- C22, as stated, fails: the paths with the ratings 2147483647, 1 and 0, 0
have the same length and the first has the greater total safety rating
(2147483648 against 0), yet `getSaferPath` returns the second: the `int` sum
of the first has wrapped around to -2147483648. -/
theorem C22_counterexample :
    [walkway 2147483647, walkway 1].length = [walkway 0, walkway 0].length ∧
    totalRating [walkway 2147483647, walkway 1] ≥ totalRating [walkway 0, walkway 0] ∧
    getPathSafetyVector [walkway 2147483647, walkway 1] = -2147483648 ∧
    getSaferPath [walkway 2147483647, walkway 1] [walkway 0, walkway 0]
      = [walkway 0, walkway 0] ∧
    getSaferPath [walkway 2147483647, walkway 1] [walkway 0, walkway 0]
      ≠ [walkway 2147483647, walkway 1] := by
  decide

/-- C22 (amended): `getSaferPath` returns the strictly longer of its two
arguments when their lengths differ; when the lengths are equal and the total
safety rating of each path lies in the range of `int` (-2^31 .. 2^31 - 1), it
returns the first if its total safety rating is at least that of the second,
and the second otherwise; the result is always one of the two arguments. -/
theorem C22_getSaferPath (path1 path2 : List street) :
    (path1.length > path2.length → getSaferPath path1 path2 = path1) ∧
    (path2.length > path1.length → getSaferPath path1 path2 = path2) ∧
    (path1.length = path2.length →
      (-2147483648 ≤ totalRating path1 ∧ totalRating path1 < 2147483648) →
      (-2147483648 ≤ totalRating path2 ∧ totalRating path2 < 2147483648) →
      (totalRating path1 ≥ totalRating path2 → getSaferPath path1 path2 = path1) ∧
      (totalRating path1 < totalRating path2 → getSaferPath path1 path2 = path2)) ∧
    (getSaferPath path1 path2 = path1 ∨ getSaferPath path1 path2 = path2) := by
  unfold getSaferPath
  refine ⟨?_, ?_, ?_, ?_⟩
  · intro h; rw [if_pos h]
  · intro h; rw [if_neg (by omega), if_pos h]
  · intro h h1 h2
    have hord := rating_order path2 path1 h2 h1
    constructor
    · intro hr; rw [if_neg (by omega), if_neg (by omega), if_pos (hord.2 hr)]
    · intro hr
      rw [if_neg (by omega), if_neg (by omega), if_neg (fun hge => by have := hord.1 hge; omega)]
  · split_ifs <;> simp

/-- C22: the theorem at a concrete input, its hypotheses discharged by
evaluation. -/
theorem C22_getSaferPath_witness :
    ([walkway 3, walkway 4].length = [walkway 5, walkway 1].length ∧
      (-2147483648 ≤ totalRating [walkway 3, walkway 4] ∧
        totalRating [walkway 3, walkway 4] < 2147483648) ∧
      (-2147483648 ≤ totalRating [walkway 5, walkway 1] ∧
        totalRating [walkway 5, walkway 1] < 2147483648) ∧
      totalRating [walkway 3, walkway 4] ≥ totalRating [walkway 5, walkway 1]) ∧
    getSaferPath [walkway 3, walkway 4] [walkway 5, walkway 1] = [walkway 3, walkway 4] :=
  ⟨by decide,
    ((C22_getSaferPath [walkway 3, walkway 4] [walkway 5, walkway 1]).2.2.1
      (by decide) (by decide) (by decide)).1 (by decide)⟩

theorem BitWriter.put_index (w : BitWriter) (b : Bit) (h : w._bitIndex < 8) :
    (w.put b)._bitIndex = (w._bitIndex + 1) % 8 ∧
    (w.put b)._out.length = w._out.length + (w._bitIndex + 1) / 8 := by
  have hmod : (w._bitIndex + 1) % 256 = w._bitIndex + 1 := by omega
  unfold BitWriter.put
  by_cases h7 : w._bitIndex + 1 = 8
  · have hd : (w._bitIndex + 1) / 8 = 1 := by omega
    cases hb : Bit.ne b Bit.zero <;> simp [hmod, h7, BitWriter.flush]
  · have hd : (w._bitIndex + 1) / 8 = 0 := by omega
    have hm : (w._bitIndex + 1) % 8 = w._bitIndex + 1 := by omega
    cases hb : Bit.ne b Bit.zero <;> simp [hmod, h7, hd, hm]

theorem foldl_put_index (bits : List Bit) (w : BitWriter) (h : w._bitIndex < 8) :
    (bits.foldl BitWriter.put w)._bitIndex = (w._bitIndex + bits.length) % 8 ∧
    (bits.foldl BitWriter.put w)._out.length
      = w._out.length + (w._bitIndex + bits.length) / 8 := by
  induction bits generalizing w with
  | nil =>
    simp only [List.foldl_nil, List.length_nil, Nat.add_zero]
    omega
  | cons b bs ih =>
    obtain ⟨h1, h2⟩ := BitWriter.put_index w b h
    have hlt : (w.put b)._bitIndex < 8 := by rw [h1]; omega
    obtain ⟨i1, i2⟩ := ih (w.put b) hlt
    simp only [List.foldl_cons, List.length_cons]
    rw [i1, i2, h1, h2]
    omega

/-- C23: after any k calls of `put` on a fresh `BitWriter` (before it is
disposed of), exactly floor(k/8) bytes have been emitted, the pending bit
index is k mod 8 (so below 8), and every bit of the accumulator at a position
at or above the index is zero; the put that completes a group of 8 emits its
byte itself and leaves index and accumulator at 0. -/
theorem C23_writer_invariant (out : List Byte) (bits : List Bit) :
    (bits.foldl BitWriter.put (BitWriter.new out))._out.length
      = out.length + bits.length / 8 ∧
    (bits.foldl BitWriter.put (BitWriter.new out))._out.take out.length = out ∧
    (bits.foldl BitWriter.put (BitWriter.new out))._bitIndex = bits.length % 8 ∧
    (bits.foldl BitWriter.put (BitWriter.new out))._bitIndex < 8 ∧
    (∀ i, (bits.foldl BitWriter.put (BitWriter.new out))._bitIndex ≤ i →
      (bits.foldl BitWriter.put (BitWriter.new out))._bitBuffer.testBit i = false) ∧
    (bits.length % 8 = 7 → ∀ b,
      ((bits.foldl BitWriter.put (BitWriter.new out)).put b)._out.length
        = (bits.foldl BitWriter.put (BitWriter.new out))._out.length + 1 ∧
      ((bits.foldl BitWriter.put (BitWriter.new out)).put b)._bitIndex = 0 ∧
      ((bits.foldl BitWriter.put (BitWriter.new out)).put b)._bitBuffer = 0) := by
  have hnew : (BitWriter.new out)._bitIndex < 8 := by simp [BitWriter.new]
  obtain ⟨hi, hl⟩ := foldl_put_index bits (BitWriter.new out) hnew
  have hi0 : (BitWriter.new out)._bitIndex = 0 := rfl
  have ho0 : (BitWriter.new out)._out = out := rfl
  rw [hi0, Nat.zero_add] at hi hl
  rw [ho0] at hl
  obtain ⟨_, p1, hp1, hs1⟩ :=
    drainBits_spec bits (BitWriter.new out) [] (BitWriter.new_holds_nothing out)
  rw [drainBits_snd] at hp1 hs1
  have hidx : (bits.foldl BitWriter.put (BitWriter.new out))._bitIndex < 8 := by
    rw [hi]; omega
  refine ⟨hl, ?_, hi, hidx, ?_, ?_⟩
  · have := hs1 []
    rw [ho0] at this
    have hpre := congrArg (List.take out.length) this
    rw [List.take_left' rfl, List.take_append_of_le_length (by rw [hl]; omega)] at hpre
    exact hpre
  · intro i hle
    obtain ⟨hpi, _, hpb⟩ := hp1
    rw [hpb]
    apply Nat.testBit_lt_two_pow
    calc bitsVal p1 < 2 ^ p1.length := bitsVal_lt p1
      _ ≤ 2 ^ i := Nat.pow_le_pow_right (by decide) (by omega)
  · intro h7 b
    have hfull : p1.length + 1 = 8 := by
      have := hp1.1
      omega
    obtain ⟨hpend, hout⟩ := BitWriter.put_pending_full _ p1 b hp1 hfull
    obtain ⟨q1, _, q3⟩ := hpend
    refine ⟨by rw [hout]; simp, q1, ?_⟩
    rw [q3]; rfl

theorem BitReader.get_state (r : BitReader) (b : Bit) (r1 : BitReader)
    (h : r._bitIndex ≤ 8) (hg : r.get = .ok (b, r1)) :
    (r._bitIndex = 8 → r1._in = r._in.drop 1 ∧ r1._bitIndex = 1) ∧
    (r._bitIndex < 8 → r1._in = r._in ∧ r1._bitIndex = r._bitIndex + 1) := by
  unfold BitReader.get at hg
  by_cases h8 : r._bitIndex = 8
  · rw [if_pos h8] at hg
    cases hin : r._in with
    | nil => simp [BitReader.readMore, hin] at hg
    | cons c cs =>
      simp only [BitReader.readMore, hin] at hg
      injection hg with hg
      injection hg with _ hg
      subst hg
      exact ⟨fun _ => ⟨by simp, rfl⟩, fun hlt => by omega⟩
  · rw [if_neg h8] at hg
    simp only at hg
    injection hg with hg
    injection hg with _ hg
    subst hg
    refine ⟨fun h => absurd h h8, fun hlt => ⟨rfl, ?_⟩⟩
    show (r._bitIndex + 1) % 256 = r._bitIndex + 1
    omega

theorem gets_state (k : Nat) (r : BitReader) (bits : List Bit) (r1 : BitReader)
    (h1 : 1 ≤ r._bitIndex) (h8 : r._bitIndex ≤ 8)
    (hg : BitReader.gets k r = .ok (bits, r1)) :
    r1._in = r._in.drop ((k + r._bitIndex - 1) / 8) ∧
    r1._bitIndex = (k + r._bitIndex - 1) % 8 + 1 := by
  induction k generalizing r bits with
  | zero =>
    simp only [BitReader.gets] at hg
    injection hg with hg
    injection hg with _ hg
    subst hg
    have h0 : (0 + r._bitIndex - 1) / 8 = 0 := by omega
    rw [h0]
    exact ⟨by simp, by omega⟩
  | succ k ih =>
    simp only [BitReader.gets] at hg
    cases hget : r.get with
    | error err => rw [hget] at hg; cases hg
    | ok res =>
      obtain ⟨b, r2⟩ := res
      rw [hget] at hg
      simp only at hg
      cases hrest : BitReader.gets k r2 with
      | error err => rw [hrest] at hg; cases hg
      | ok res2 =>
        obtain ⟨bits2, r3⟩ := res2
        rw [hrest] at hg
        simp only at hg
        injection hg with hg
        injection hg with _ hg
        subst hg
        obtain ⟨g8, glt⟩ := BitReader.get_state r b r2 h8 hget
        by_cases hidx : r._bitIndex = 8
        · obtain ⟨gin, gi⟩ := g8 hidx
          obtain ⟨i1, i2⟩ := ih r2 bits2 (by omega) (by omega) hrest
          rw [i1, i2, gin, gi, hidx, List.drop_drop]
          constructor
          · congr 1; omega
          · omega
        · obtain ⟨gin, gi⟩ := glt (by omega)
          obtain ⟨i1, i2⟩ := ih r2 bits2 (by omega) (by omega) hrest
          rw [i1, i2, gin, gi]
          constructor
          · congr 1; omega
          · omega

/-- C24: after k successful calls of `get` on a fresh `BitReader`, exactly
ceil(k/8) bytes have been taken from the source: none before the first get,
and the byte after a fully read one only on the get that follows its 8th
bit. -/
theorem C24_reader_laziness (bytes : List Byte) (k : Nat) (bits : List Bit) (r : BitReader)
    (h : BitReader.gets k (BitReader.new bytes) = .ok (bits, r)) :
    r._in = bytes.drop ((k + 7) / 8) ∧
    (k + 7) / 8 ≤ bytes.length ∧
    bytes.length - r._in.length = (k + 7) / 8 := by
  obtain ⟨hin, _⟩ := gets_state k (BitReader.new bytes) bits r (by simp [BitReader.new])
    (by simp [BitReader.new]) h
  have hk : k ≤ 8 * bytes.length := by
    by_contra hgt
    rw [gets_eq_readMessageBits, readMessageBits_error k (BitReader.new bytes)
      (by simp [BitReader.new])
      (by rw [BitReader.new_pending, bitsOfBytes_length]; omega)] at h
    cases h
  have hidx : (BitReader.new bytes)._bitIndex = 8 := rfl
  have hsrc : (BitReader.new bytes)._in = bytes := rfl
  rw [hidx, hsrc] at hin
  have he : (k + 8 - 1) / 8 = (k + 7) / 8 := by omega
  rw [he] at hin
  refine ⟨hin, by omega, ?_⟩
  rw [hin, List.length_drop]
  omega

/-- C24: the theorem at a concrete input, its hypotheses discharged by
evaluation. -/
theorem C24_reader_laziness_witness :
    BitReader.gets 8 (BitReader.new [0x69, 0xFF, 3])
      = .ok ([⟨true⟩, ⟨false⟩, ⟨false⟩, ⟨true⟩, ⟨false⟩, ⟨true⟩, ⟨true⟩, ⟨false⟩],
          ⟨[0xFF, 3], 0x69, 8⟩) ∧
    ((⟨[0xFF, 3], 0x69, 8⟩ : BitReader)._in = ([0x69, 0xFF, 3] : List Byte).drop ((8 + 7) / 8) ∧
    (8 + 7) / 8 ≤ ([0x69, 0xFF, 3] : List Byte).length ∧
    ([0x69, 0xFF, 3] : List Byte).length - (⟨[0xFF, 3], 0x69, 8⟩ : BitReader)._in.length
      = (8 + 7) / 8) :=
  ⟨by decide, C24_reader_laziness [0x69, 0xFF, 3] 8
    [⟨true⟩, ⟨false⟩, ⟨false⟩, ⟨true⟩, ⟨false⟩, ⟨true⟩, ⟨true⟩, ⟨false⟩] ⟨[0xFF, 3], 0x69, 8⟩
    (by decide)⟩

/-- C25: for every container with 2 <= L <= 256 leaves, 2L - 1 tree bits and
any message bits (fewer than 2^64 bits in all), `readData` applied to the
bytes written succeeds and returns the container; for a valid container with
L >= 257 the stored count byte is (L - 1) mod 256 and `readData` applied to
the bytes written does not return the container. -/
theorem C25_roundtrip_limit (e : Endian) (c : EncodedData) (out : List Byte)
    (h2 : 2 ≤ c.treeLeaves.length)
    (hts : c.treeShape.length = 2 * c.treeLeaves.length - 1)
    (hsz : c.treeShape.length + c.messageBits.length < 2 ^ 64) :
    (c.treeLeaves.length ≤ 256 →
      readData e ((writeData e c out).out.drop out.length) = .ok c) ∧
    (257 ≤ c.treeLeaves.length →
      (∃ b : Byte, ((writeData e c out).out.drop out.length).get? 4 = some b ∧
        b.val = (c.treeLeaves.length - 1) % 256) ∧
      readData e ((writeData e c out).out.drop out.length) ≠ .ok c) := by
  have hv : checkIntegrityOf c = .ok () := (checkIntegrityOf_ok_iff c).2 ⟨h2, hts⟩
  have hout := (writeData_ok e c out hv).2.2
  constructor
  · intro h256
    have hb : (toU8 (c.treeLeaves.length - 1)).val = c.treeLeaves.length - 1 :=
      toU8_val_of_lt _ (by omega)
    have hm : (toU8 (modulusOf (c.treeShape.length + c.messageBits.length))).val
        = modulusOf (c.treeShape.length + c.messageBits.length) :=
      toU8_val_of_lt _
        (by have := modulusOf_range (c.treeShape.length + c.messageBits.length); omega)
    rw [hout, List.drop_left,
      readData_layout e _ _ _ _ (by rw [hb]; omega) (by rw [hb]; omega), hb, hm]
    have hL : c.treeLeaves.length - 1 + 1 = c.treeLeaves.length := by omega
    rw [hL, readBitsOf_written _ _ _ _ (by omega) hts hsz]
  · intro h257
    constructor
    · refine ⟨toU8 (c.treeLeaves.length - 1), ?_, rfl⟩
      rw [hout, List.drop_left, List.get?_eq_getElem?,
        List.getElem?_append_right (by rw [header_length]), header_length]
      simp
    · intro hread
      obtain ⟨b, leaves, m, region, hbs, hb, hl⟩ := readData_ok_layout e _ c hread
      have hbl := b.isLt
      rw [hbs, readData_layout e b leaves m region hb hl] at hread
      obtain ⟨h1, _⟩ := readBitsOf_shape leaves (b.val + 1) m.val region (by omega) c hread
      have : c.treeLeaves.length = b.val + 1 := by rw [h1, hl]
      omega

/-- C25: the theorem at a concrete input, its hypotheses discharged by
evaluation. -/
theorem C25_roundtrip_limit_witness :
    (2 ≤ (sample message13).treeLeaves.length ∧
      (sample message13).treeShape.length = 2 * (sample message13).treeLeaves.length - 1 ∧
      (sample message13).treeShape.length + (sample message13).messageBits.length < 2 ^ 64) ∧
    (((sample message13).treeLeaves.length ≤ 256 →
      readData .little ((writeData .little (sample message13) []).out.drop
        ([] : List Byte).length) = .ok (sample message13)) ∧
    (257 ≤ (sample message13).treeLeaves.length →
      (∃ b : Byte, ((writeData .little (sample message13) []).out.drop
          ([] : List Byte).length).get? 4 = some b ∧
        b.val = ((sample message13).treeLeaves.length - 1) % 256) ∧
      readData .little ((writeData .little (sample message13) []).out.drop
        ([] : List Byte).length) ≠ .ok (sample message13))) :=
  ⟨by decide, C25_roundtrip_limit .little (sample message13) [] (by decide) (by decide)
    (by decide)⟩

/-- C26: for a stream with a correct magic header, leaf-count byte `b`,
b + 1 leaf bytes, a trailing-count byte `m` and R further bytes (fewer than
2^60), `readData` returns a container if and only if b >= 1, R >= 1, m <= 8
and (R - 1) * 8 + m >= 2 * (b + 1) - 1; in every other case it fails with an
error: the count-too-low error when b = 0, and otherwise the unexpected-end
error of the bit reader (this covers the wrap-around of the remaining-bit
counter). -/
theorem C26_read_success (e : Endian) (b : Byte) (leaves : List Byte) (m : Byte)
    (region : List Byte) (hl : leaves.length = b.val + 1) (hsmall : region.length < 2 ^ 60) :
    ((∃ c, readData e (bytesOfU32 e kFileHeader ++ b :: (leaves ++ m :: region)) = .ok c) ↔
      (1 ≤ b.val ∧ 1 ≤ region.length ∧ m.val ≤ 8 ∧
        2 * (b.val + 1) - 1 ≤ (region.length - 1) * 8 + m.val)) ∧
    (b.val = 0 →
      readData e (bytesOfU32 e kFileHeader ++ b :: (leaves ++ m :: region))
        = .error .charCountTooLow) ∧
    (1 ≤ b.val →
      ¬ (1 ≤ region.length ∧ m.val ≤ 8 ∧
        2 * (b.val + 1) - 1 ≤ (region.length - 1) * 8 + m.val) →
      readData e (bytesOfU32 e kFileHeader ++ b :: (leaves ++ m :: region))
        = .error .unexpectedEndOfBits) := by
  have hbl := b.isLt
  have hml := m.isLt
  by_cases hb : b.val = 0
  · have herr : readData e (bytesOfU32 e kFileHeader ++ b :: (leaves ++ m :: region))
        = .error .charCountTooLow := by
      rw [readData_header]
      simp [hb]
    refine ⟨?_, fun _ => herr, fun h1 => by omega⟩
    rw [herr]
    constructor
    · rintro ⟨c, hc⟩; cases hc
    · rintro ⟨h1, _⟩; omega
  · have hb1 : 1 ≤ b.val := by omega
    rw [readData_layout e b leaves m region hb1 hl]
    rcases readBitsOf_cases leaves (b.val + 1) m.val region (by omega) (by omega) (by omega)
      with ⟨hR, hcov, hm8, hok⟩ | ⟨hbad, herr⟩
    · rw [hok]
      refine ⟨⟨fun _ => ⟨hb1, hR, hm8, hcov⟩, fun _ => ⟨_, rfl⟩⟩, fun h0 => absurd h0 hb,
        fun _ hn => absurd ⟨hR, hm8, hcov⟩ hn⟩
    · rw [herr]
      refine ⟨⟨?_, ?_⟩, fun h0 => absurd h0 hb, fun _ _ => rfl⟩
      · rintro ⟨c, hc⟩; cases hc
      · rintro ⟨_, hR, hm8, hcov⟩
        exfalso
        rcases hbad with h | h | h <;> omega

/-- C26: the theorem at a concrete input, its hypotheses discharged by
evaluation. -/
theorem C26_read_success_witness :
    (([65, 66] : List Byte).length = (1 : Byte).val + 1 ∧
      ([0x69] : List Byte).length < 2 ^ 60) ∧
    (((∃ c, readData .little (bytesOfU32 .little kFileHeader ++ 1 :: ([65, 66] ++ 2 :: [0x69]))
        = .ok c) ↔
      (1 ≤ (1 : Byte).val ∧ 1 ≤ ([0x69] : List Byte).length ∧ (2 : Byte).val ≤ 8 ∧
        2 * ((1 : Byte).val + 1) - 1 ≤ (([0x69] : List Byte).length - 1) * 8 + (2 : Byte).val)) ∧
    ((1 : Byte).val = 0 →
      readData .little (bytesOfU32 .little kFileHeader ++ 1 :: ([65, 66] ++ 2 :: [0x69]))
        = .error .charCountTooLow) ∧
    (1 ≤ (1 : Byte).val →
      ¬ (1 ≤ ([0x69] : List Byte).length ∧ (2 : Byte).val ≤ 8 ∧
        2 * ((1 : Byte).val + 1) - 1 ≤ (([0x69] : List Byte).length - 1) * 8 + (2 : Byte).val) →
      readData .little (bytesOfU32 .little kFileHeader ++ 1 :: ([65, 66] ++ 2 :: [0x69]))
        = .error .unexpectedEndOfBits)) :=
  ⟨by decide, C26_read_success .little 1 [65, 66] 2 [0x69] (by decide) (by decide)⟩

theorem bitsOfBytes_append (a b : List Byte) :
    bitsOfBytes (a ++ b) = bitsOfBytes a ++ bitsOfBytes b := by
  induction a with
  | nil => rfl
  | cons x xs ih =>
    rw [List.cons_append]
    simp only [bitsOfBytes]
    rw [ih, List.append_assoc]

theorem bitsOfBytes_take (bytes : List Byte) (n : Nat) :
    bitsOfBytes (bytes.take n) = (bitsOfBytes bytes).take (8 * n) := by
  by_cases hn : n ≤ bytes.length
  · conv_rhs => rw [← List.take_append_drop n bytes, bitsOfBytes_append]
    rw [List.take_left' (by rw [bitsOfBytes_length, List.length_take]; omega)]
  · rw [List.take_of_length_le (by omega),
      List.take_of_length_le (by rw [bitsOfBytes_length]; omega)]

theorem bitsOfByte_injective (x y : Byte) (h : bitsOfByte x = bitsOfByte y) : x = y := by
  apply Fin.ext
  apply Nat.eq_of_testBit_eq
  intro i
  by_cases hi : i < 8
  · have := congrArg (fun l => l[i]?) h
    simp only [bitsOfByte, bitsOfNat, List.getElem?_map, List.getElem?_range hi,
      Option.map_some', Option.some.injEq, Bit.mk.injEq] at this
    exact this
  · have hx : x.val < 2 ^ i := lt_of_lt_of_le x.isLt
      (by calc 256 = 2 ^ 8 := by norm_num
            _ ≤ 2 ^ i := Nat.pow_le_pow_right (by decide) (by omega))
    have hy : y.val < 2 ^ i := lt_of_lt_of_le y.isLt
      (by calc 256 = 2 ^ 8 := by norm_num
            _ ≤ 2 ^ i := Nat.pow_le_pow_right (by decide) (by omega))
    rw [Nat.testBit_lt_two_pow hx, Nat.testBit_lt_two_pow hy]

theorem bitsOfBytes_injective (a b : List Byte) (h : bitsOfBytes a = bitsOfBytes b) :
    a = b := by
  induction a generalizing b with
  | nil =>
    cases b with
    | nil => rfl
    | cons y ys =>
      have := congrArg List.length h
      simp [bitsOfBytes_length] at this
  | cons x xs ih =>
    cases b with
    | nil =>
      have := congrArg List.length h
      simp [bitsOfBytes_length] at this
    | cons y ys =>
      simp only [bitsOfBytes] at h
      have hlen : (bitsOfByte x).length = (bitsOfByte y).length := by
        simp [bitsOfByte, bitsOfNat_length]
      obtain ⟨h1, h2⟩ := List.append_inj h hlen
      rw [bitsOfByte_injective x y h1, ih ys h2]

/-- Packing the first `t` bits of a region gives the region back when `t`
ends in the last byte and the bits of the region from `t` on are zero. -/
theorem packBits_take_region (region : List Byte) (t : Nat)
    (h1 : 8 * (region.length - 1) < t) (h2 : t ≤ 8 * region.length)
    (hzero : ∀ k, t ≤ k → k < 8 * region.length →
      (bitsOfBytes region)[k]? = some ⟨false⟩) :
    packBits ((bitsOfBytes region).take t) = region := by
  apply bitsOfBytes_injective
  have hlen : ((bitsOfBytes region).take t).length = t := by
    rw [List.length_take, bitsOfBytes_length]; omega
  rw [bitsOfBytes_packBits, hlen]
  have hR : 8 * ((t + 7) / 8) = 8 * region.length := by omega
  rw [hR]
  conv_rhs => rw [← List.take_append_drop t (bitsOfBytes region)]
  congr 1
  apply List.ext_getElem?
  intro j
  by_cases hj : j < 8 * region.length - t
  · rw [List.getElem?_replicate, if_pos hj, List.getElem?_drop]
    exact (hzero (t + j) (by omega) (by omega)).symm
  · rw [List.getElem?_eq_none (by simp; omega),
      List.getElem?_eq_none (by rw [List.length_drop, bitsOfBytes_length]; omega)]

/-- C27: for every stream on which `readData` succeeds (header, count byte,
leaves, trailing-count byte `m`, a region of fewer than 2^60 bytes): when
1 <= m <= 8 and the last byte of the region has all bits at positions >= m
equal to zero, `writeData` applied to the container read appends exactly the
stream to the sink; when m = 0 it does not. -/
theorem C27_canonical_reencoding (e : Endian) (b : Byte) (leaves : List Byte) (m : Byte)
    (region : List Byte) (c : EncodedData) (out : List Byte)
    (hl : leaves.length = b.val + 1) (hsmall : region.length < 2 ^ 60)
    (hok : readData e (bytesOfU32 e kFileHeader ++ b :: (leaves ++ m :: region)) = .ok c) :
    (1 ≤ m.val →
      (∀ last, region.getLast? = some last →
        ∀ i, m.val ≤ i → i < 8 → last.val.testBit i = false) →
      (writeData e c out).result = .ok () ∧
      (writeData e c out).out
        = out ++ (bytesOfU32 e kFileHeader ++ b :: (leaves ++ m :: region))) ∧
    (m.val = 0 →
      (writeData e c out).out
        ≠ out ++ (bytesOfU32 e kFileHeader ++ b :: (leaves ++ m :: region))) := by
  have hbl := b.isLt
  have hml := m.isLt
  have hb : 1 ≤ b.val := by
    by_contra hb0
    rw [readData_header] at hok
    have : b.val + 1 < 2 := by omega
    simp only [this, if_true] at hok
    cases hok
  rw [readData_layout e b leaves m region hb hl] at hok
  rcases readBitsOf_cases leaves (b.val + 1) m.val region (by omega) (by omega) (by omega)
    with ⟨hR, hcov, hm8, hread⟩ | ⟨_, herr⟩
  swap
  · rw [herr] at hok; cases hok
  rw [hread] at hok
  injection hok with hc
  have hX := bitsOfBytes_length region
  have hts : c.treeShape.length = 2 * (b.val + 1) - 1 := by
    rw [← hc]; simp only [List.length_take, hX]; omega
  have hmb : c.messageBits.length = (region.length - 1) * 8 + m.val - (2 * (b.val + 1) - 1) := by
    rw [← hc]; simp only [List.length_take, List.length_drop, hX]; omega
  have hlv : c.treeLeaves = leaves := by rw [← hc]
  have hbits : c.treeShape ++ c.messageBits
      = (bitsOfBytes region).take ((region.length - 1) * 8 + m.val) := by
    rw [← hc]
    simp only
    rw [← List.take_add]
    congr 1
    omega
  have hv : checkIntegrityOf c = .ok () :=
    (checkIntegrityOf_ok_iff c).2 ⟨by rw [hlv, hl]; omega, by rw [hts, hlv, hl]⟩
  obtain ⟨hres, _, hout⟩ := writeData_ok e c out hv
  have hT : c.treeShape.length + c.messageBits.length = (region.length - 1) * 8 + m.val := by
    rw [hts, hmb]; omega
  have hcount : toU8 (c.treeLeaves.length - 1) = b := by
    apply Fin.ext
    rw [hlv, hl]
    simp only [toU8, Nat.add_sub_cancel]
    omega
  obtain ⟨hmod, hmod1, hmod8⟩ := modulusOf_range (c.treeShape.length + c.messageBits.length)
  constructor
  · intro hm1 hzero
    refine ⟨hres, ?_⟩
    have hmodulus : toU8 (modulusOf (c.treeShape.length + c.messageBits.length)) = m := by
      apply Fin.ext
      rw [toU8_val_of_lt _ (by omega), hmod, hT]
      split_ifs <;> omega
    have hpack : packBits (c.treeShape ++ c.messageBits) = region := by
      rw [hbits]
      apply packBits_take_region region _ (by omega) (by omega)
      intro k hk1 hk2
      have hq : k / 8 = region.length - 1 := by omega
      rw [bitsOfBytes_getElem?, hq]
      have hlast : region.getLast? = region[region.length - 1]? := by
        rw [List.getLast?_eq_getElem?]
      have hsome : region[region.length - 1]?
          = some (region.get ⟨region.length - 1, by omega⟩) :=
        List.getElem?_eq_getElem (by omega)
      rw [hsome, Option.map_some']
      have := hzero _ (hlast.trans hsome) (k % 8) (by omega) (by omega)
      rw [this]
    rw [hout, hcount, hlv, hmodulus, hpack]
  · intro hm0 heq
    rw [hout, hcount, hlv] at heq
    have h1 := List.append_cancel_left heq
    have h2 := List.append_cancel_left h1
    injection h2 with _ h3
    have h4 := List.append_cancel_left h3
    injection h4 with h5 _
    have := congrArg Fin.val h5
    rw [toU8_val_of_lt _ (by omega)] at this
    omega

/-- C27: the theorem at a concrete input, its hypotheses discharged by
evaluation. -/
theorem C27_canonical_reencoding_witness :
    (([65, 66] : List Byte).length = (1 : Byte).val + 1 ∧
      ([0x69] : List Byte).length < 2 ^ 60 ∧
      readData .little (bytesOfU32 .little kFileHeader ++ 1 :: ([65, 66] ++ 8 :: [0x69]))
        = .ok (sample message5)) ∧
    ((1 ≤ (8 : Byte).val →
      (∀ last, ([0x69] : List Byte).getLast? = some last →
        ∀ i, (8 : Byte).val ≤ i → i < 8 → last.val.testBit i = false) →
      (writeData .little (sample message5) []).result = .ok () ∧
      (writeData .little (sample message5) []).out
        = [] ++ (bytesOfU32 .little kFileHeader ++ 1 :: ([65, 66] ++ 8 :: [0x69]))) ∧
    ((8 : Byte).val = 0 →
      (writeData .little (sample message5) []).out
        ≠ [] ++ (bytesOfU32 .little kFileHeader ++ 1 :: ([65, 66] ++ 8 :: [0x69])))) :=
  ⟨by decide, C27_canonical_reencoding .little 1 [65, 66] 8 [0x69] (sample message5) []
    (by decide) (by decide) (by decide)⟩

/-- C28: for every valid container with at most 256 leaves (fewer than 2^64
bits) whose written form has R bitstream bytes and trailing count m, and
every k with 1 <= k < R and (R - k - 1) * 8 + m >= 2L - 1, `readData` applied
to the written bytes without their last k bytes succeeds and returns the same
leaves and tree shape, with the message bits shortened by their last 8k
bits. -/
theorem C28_silent_tail_truncation (e : Endian) (c : EncodedData) (out : List Byte) (k : Nat)
    (h2 : 2 ≤ c.treeLeaves.length) (h256 : c.treeLeaves.length ≤ 256)
    (hts : c.treeShape.length = 2 * c.treeLeaves.length - 1)
    (hsz : c.treeShape.length + c.messageBits.length < 2 ^ 64)
    (hk1 : 1 ≤ k) (hk : k < (c.treeShape.length + c.messageBits.length + 7) / 8)
    (hcov : 2 * c.treeLeaves.length - 1
      ≤ ((c.treeShape.length + c.messageBits.length + 7) / 8 - k - 1) * 8
        + modulusOf (c.treeShape.length + c.messageBits.length)) :
    8 * k ≤ c.messageBits.length ∧
    readData e (((writeData e c out).out.drop out.length).take
        (((writeData e c out).out.drop out.length).length - k))
      = .ok ⟨c.treeShape, c.treeLeaves,
          c.messageBits.take (c.messageBits.length - 8 * k)⟩ := by
  have hv : checkIntegrityOf c = .ok () := (checkIntegrityOf_ok_iff c).2 ⟨h2, hts⟩
  have hb : (toU8 (c.treeLeaves.length - 1)).val = c.treeLeaves.length - 1 :=
    toU8_val_of_lt _ (by omega)
  obtain ⟨hmod, hm1, hm8⟩ := modulusOf_range (c.treeShape.length + c.messageBits.length)
  have hm : (toU8 (modulusOf (c.treeShape.length + c.messageBits.length))).val
      = modulusOf (c.treeShape.length + c.messageBits.length) :=
    toU8_val_of_lt _ (by omega)
  have hM : 8 * k ≤ c.messageBits.length := by
    split_ifs at hmod <;> omega
  refine ⟨hM, ?_⟩
  rw [(writeData_ok e c out hv).2.2, List.drop_left]
  have hlenW : (bytesOfU32 e kFileHeader ++ toU8 (c.treeLeaves.length - 1) ::
      (c.treeLeaves ++ toU8 (modulusOf (c.treeShape.length + c.messageBits.length)) ::
        packBits (c.treeShape ++ c.messageBits))).length
      = 6 + c.treeLeaves.length + (c.treeShape.length + c.messageBits.length + 7) / 8 := by
    simp only [List.length_append, List.length_cons, header_length, packBits_length]
    omega
  rw [hlenW, readData_take e _ _ _ _ _ (by rw [hb]; omega) (by rw [hb]; omega) (by omega), hb, hm]
  have hL : c.treeLeaves.length - 1 + 1 = c.treeLeaves.length := by omega
  rw [hL, if_neg (by omega), if_neg (by omega), if_neg (by omega)]
  have hcut : 6 + c.treeLeaves.length + (c.treeShape.length + c.messageBits.length + 7) / 8 - k
        - (6 + c.treeLeaves.length)
      = (c.treeShape.length + c.messageBits.length + 7) / 8 - k := by omega
  rw [hcut]
  have hlen : (List.take ((c.treeShape.length + c.messageBits.length + 7) / 8 - k)
      (packBits (c.treeShape ++ c.messageBits))).length
        = (c.treeShape.length + c.messageBits.length + 7) / 8 - k := by
    rw [List.length_take, packBits_length, List.length_append]; omega
  have hT : ((c.treeShape.length + c.messageBits.length + 7) / 8 - k - 1) * 8
      + modulusOf (c.treeShape.length + c.messageBits.length)
        = c.treeShape.length + c.messageBits.length - 8 * k := by
    split_ifs at hmod <;> omega
  have hN : bitsToReadOf ((c.treeShape.length + c.messageBits.length + 7) / 8 - k)
      (modulusOf (c.treeShape.length + c.messageBits.length))
        = c.treeShape.length + c.messageBits.length - 8 * k := by
    rw [bitsToReadOf_pos _ _ (by omega) (by omega), hT]
  have hD : decrement64 (c.treeShape.length + c.messageBits.length - 8 * k)
      (2 * c.treeLeaves.length - 1) = c.messageBits.length - 8 * k := by
    rw [decrement64_ge _ _ (by omega) (by omega)]; omega
  rw [readBitsOf_ok _ _ _ _ (by omega) (by rw [hlen]; omega)
    (by rw [hlen, hN, hD]; omega), hlen, hN, hD, bitsOfBytes_take, bitsOfBytes_packBits]
  have e1 : List.take (2 * c.treeLeaves.length - 1)
      (List.take (8 * ((c.treeShape.length + c.messageBits.length + 7) / 8 - k))
        (c.treeShape ++ c.messageBits ++ List.replicate
          (8 * (((c.treeShape ++ c.messageBits).length + 7) / 8)
            - (c.treeShape ++ c.messageBits).length) ⟨false⟩)) = c.treeShape := by
    rw [List.take_take, Nat.min_eq_left (by omega), List.append_assoc, ← hts, List.take_left]
  have e2 : List.take (c.messageBits.length - 8 * k) (List.drop (2 * c.treeLeaves.length - 1)
      (List.take (8 * ((c.treeShape.length + c.messageBits.length + 7) / 8 - k))
        (c.treeShape ++ c.messageBits ++ List.replicate
          (8 * (((c.treeShape ++ c.messageBits).length + 7) / 8)
            - (c.treeShape ++ c.messageBits).length) ⟨false⟩)))
      = List.take (c.messageBits.length - 8 * k) c.messageBits := by
    rw [List.drop_take, List.take_take, Nat.min_eq_left (by omega), List.append_assoc, ← hts,
      List.drop_left, List.take_append_of_le_length (by omega)]
  rw [e1, e2]

/-- C28: the theorem at a concrete input, its hypotheses discharged by
evaluation. -/
theorem C28_silent_tail_truncation_witness :
    (2 ≤ (sample message13).treeLeaves.length ∧ (sample message13).treeLeaves.length ≤ 256 ∧
      (sample message13).treeShape.length = 2 * (sample message13).treeLeaves.length - 1 ∧
      (sample message13).treeShape.length + (sample message13).messageBits.length < 2 ^ 64 ∧
      1 ≤ 1 ∧
      1 < ((sample message13).treeShape.length + (sample message13).messageBits.length + 7) / 8 ∧
      2 * (sample message13).treeLeaves.length - 1
        ≤ (((sample message13).treeShape.length + (sample message13).messageBits.length + 7) / 8
            - 1 - 1) * 8
          + modulusOf ((sample message13).treeShape.length
              + (sample message13).messageBits.length)) ∧
    (8 * 1 ≤ (sample message13).messageBits.length ∧
    readData .little (((writeData .little (sample message13) []).out.drop
        ([] : List Byte).length).take
        (((writeData .little (sample message13) []).out.drop ([] : List Byte).length).length - 1))
      = .ok ⟨(sample message13).treeShape, (sample message13).treeLeaves,
          (sample message13).messageBits.take ((sample message13).messageBits.length - 8 * 1)⟩) :=
  ⟨by decide, C28_silent_tail_truncation .little (sample message13) [] 1 (by decide) (by decide)
    (by decide) (by decide) (by decide) (by decide) (by decide)⟩

theorem getSaferPath_cases (p1 p2 : List street) :
    (getSaferPath p1 p2 = p1 ∧ p2.length ≤ p1.length ∧
      (p2.length = p1.length → getPathSafetyVector p2 ≤ getPathSafetyVector p1)) ∨
    (getSaferPath p1 p2 = p2 ∧ p1.length ≤ p2.length ∧
      (p1.length = p2.length → getPathSafetyVector p1 ≤ getPathSafetyVector p2)) := by
  unfold getSaferPath
  by_cases h1 : p1.length > p2.length
  · rw [if_pos h1]
    exact Or.inl ⟨rfl, by omega, fun h => by omega⟩
  · rw [if_neg h1]
    by_cases h2 : p2.length > p1.length
    · rw [if_pos h2]
      exact Or.inr ⟨rfl, by omega, fun h => by omega⟩
    · rw [if_neg h2]
      by_cases h3 : getPathSafetyVector p1 ≥ getPathSafetyVector p2
      · rw [if_pos h3]
        exact Or.inl ⟨rfl, by omega, fun _ => h3⟩
      · rw [if_neg h3]
        exact Or.inr ⟨rfl, by omega, fun _ => by omega⟩

theorem walk_nil_iff (city : Grid) (row col : Nat) (cells : List street) :
    walk city row col [] = some cells ↔
      (row + 1 = city.numRows ∧ col + 1 = city.numCols) ∧ cells = [] := by
  simp only [walk]
  split_ifs with h
  · simp [h, eq_comm]
  · simp [h]

theorem walk_down_iff (city : Grid) (row col : Nat) (ms : List Move) (cells : List street) :
    walk city row col (.down :: ms) = some cells ↔
      (row + 1 < city.numRows ∧ col < city.numCols ∧
        (city.cell (row + 1) col).sidewalk = true) ∧
      ∃ cells1, walk city (row + 1) col ms = some cells1 ∧
        cells = city.cell (row + 1) col :: cells1 := by
  simp only [walk]
  split_ifs with h
  · cases hw : walk city (row + 1) col ms with
    | none => simp [h]
    | some c1 => simp [h, eq_comm]
  · simp [h]

theorem walk_right_iff (city : Grid) (row col : Nat) (ms : List Move) (cells : List street) :
    walk city row col (.right :: ms) = some cells ↔
      (row < city.numRows ∧ col + 1 < city.numCols ∧
        (city.cell row (col + 1)).sidewalk = true) ∧
      ∃ cells1, walk city row (col + 1) ms = some cells1 ∧
        cells = city.cell row (col + 1) :: cells1 := by
  simp only [walk]
  split_ifs with h
  · cases hw : walk city row (col + 1) ms with
    | none => simp [h]
    | some c1 => simp [h, eq_comm]
  · simp [h]

theorem walk_cells (city : Grid) (moves : List Move) (row col : Nat) (cells : List street)
    (h : walk city row col moves = some cells) :
    cells = (locsOf row col moves).map (fun loc => city.cell loc.row loc.col) := by
  induction moves generalizing row col cells with
  | nil =>
    rw [walk_nil_iff] at h
    rw [h.2]; rfl
  | cons m ms ih =>
    cases m with
    | down =>
      rw [walk_down_iff] at h
      obtain ⟨_, cells1, hw1, rfl⟩ := h
      simp only [locsOf, List.map_cons]
      rw [← ih (row + 1) col cells1 hw1]
    | right =>
      rw [walk_right_iff] at h
      obtain ⟨_, cells1, hw1, rfl⟩ := h
      simp only [locsOf, List.map_cons]
      rw [← ih row (col + 1) cells1 hw1]

theorem pathSpec_exit (city : Grid) (row col : Nat) (path : List street)
    (hr : row + 1 = city.numRows) (hc : col + 1 = city.numCols) :
    PathSpec city row col path path := by
  have hd : (city.numRows - 1 - row) + (city.numCols - 1 - col) = 0 := by omega
  unfold PathSpec
  rw [hd]
  refine ⟨by omega, fun _ => ⟨[], [], ?_, by simp⟩, ?_⟩
  · rw [walk_nil_iff]; exact ⟨⟨hr, hc⟩, rfl⟩
  · intro moves cells hw
    cases moves with
    | nil =>
      rw [walk_nil_iff] at hw
      rw [hw.2]; simp
    | cons m ms =>
      cases m with
      | down => rw [walk_down_iff] at hw; omega
      | right => rw [walk_right_iff] at hw; omega

/-- No sidewalk walk leaves a cell whose only open direction is blocked. -/
theorem pathSpec_blocked (city : Grid) (row col : Nat) (path : List street)
    (hr : row < city.numRows) (hc : col < city.numCols)
    (hne : ¬ (row + 1 = city.numRows ∧ col + 1 = city.numCols))
    (hdown : row + 1 < city.numRows → (city.cell (row + 1) col).sidewalk ≠ true)
    (hright : col + 1 < city.numCols → (city.cell row (col + 1)).sidewalk ≠ true) :
    PathSpec city row col path [] := by
  unfold PathSpec
  refine ⟨by simp, ?_, ?_⟩
  · intro hlen
    simp only [List.length_nil] at hlen
    omega
  · intro moves cells hw
    exfalso
    cases moves with
    | nil => rw [walk_nil_iff] at hw; omega
    | cons m ms =>
      cases m with
      | down => rw [walk_down_iff] at hw; exact hdown hw.1.1 hw.1.2.2
      | right => rw [walk_right_iff] at hw; exact hright hw.1.2.1 hw.1.2.2

theorem pathSpec_right_only (city : Grid) (row col : Nat) (path res : List street)
    (hr : row + 1 = city.numRows) (hc : col + 1 < city.numCols)
    (hsw : (city.cell row (col + 1)).sidewalk = true)
    (h : PathSpec city row (col + 1) (path ++ [city.cell row (col + 1)]) res) :
    PathSpec city row col path res := by
  obtain ⟨iA, iB, iC⟩ := h
  rw [List.length_append, List.length_singleton] at iA iB iC
  unfold PathSpec
  refine ⟨by omega, ?_, ?_⟩
  · intro hlen
    obtain ⟨ms, cs, hw, hres⟩ := iB (by omega)
    refine ⟨.right :: ms, city.cell row (col + 1) :: cs, ?_, ?_⟩
    · rw [walk_right_iff]; exact ⟨⟨by omega, hc, hsw⟩, cs, hw, rfl⟩
    · rw [hres]; simp
  · intro moves cells hw
    cases moves with
    | nil => rw [walk_nil_iff] at hw; omega
    | cons m ms =>
      cases m with
      | down => rw [walk_down_iff] at hw; omega
      | right =>
        rw [walk_right_iff] at hw
        obtain ⟨_, cs, hw1, rfl⟩ := hw
        obtain ⟨c1, c2⟩ := iC ms cs hw1
        refine ⟨by omega, ?_⟩
        have : path ++ city.cell row (col + 1) :: cs
            = path ++ [city.cell row (col + 1)] ++ cs := by simp
        rw [this]; exact c2

theorem pathSpec_down_only (city : Grid) (row col : Nat) (path res : List street)
    (hr : row + 1 < city.numRows) (hc : col + 1 = city.numCols)
    (hsw : (city.cell (row + 1) col).sidewalk = true)
    (h : PathSpec city (row + 1) col (path ++ [city.cell (row + 1) col]) res) :
    PathSpec city row col path res := by
  obtain ⟨iA, iB, iC⟩ := h
  rw [List.length_append, List.length_singleton] at iA iB iC
  unfold PathSpec
  refine ⟨by omega, ?_, ?_⟩
  · intro hlen
    obtain ⟨ms, cs, hw, hres⟩ := iB (by omega)
    refine ⟨.down :: ms, city.cell (row + 1) col :: cs, ?_, ?_⟩
    · rw [walk_down_iff]; exact ⟨⟨hr, by omega, hsw⟩, cs, hw, rfl⟩
    · rw [hres]; simp
  · intro moves cells hw
    cases moves with
    | nil => rw [walk_nil_iff] at hw; omega
    | cons m ms =>
      cases m with
      | right => rw [walk_right_iff] at hw; omega
      | down =>
        rw [walk_down_iff] at hw
        obtain ⟨_, cs, hw1, rfl⟩ := hw
        obtain ⟨c1, c2⟩ := iC ms cs hw1
        refine ⟨by omega, ?_⟩
        have : path ++ city.cell (row + 1) col :: cs
            = path ++ [city.cell (row + 1) col] ++ cs := by simp
        rw [this]; exact c2

/-- The interior case: both recursive results meet their specification, for
the paths extended by the neighbour when it is a sidewalk and left as they
are when it is not; then the safer of the two meets the specification of the
cell. -/
theorem pathSpec_interior (city : Grid) (row col : Nat) (path rightPath downPath r dn : List street)
    (hr : row + 1 < city.numRows) (hc : col + 1 < city.numCols)
    (hrp : rightPath = if (city.cell row (col + 1)).sidewalk = true
      then path ++ [city.cell row (col + 1)] else path)
    (hdp : downPath = if (city.cell (row + 1) col).sidewalk = true
      then path ++ [city.cell (row + 1) col] else path)
    (hR : PathSpec city row (col + 1) rightPath r)
    (hD : PathSpec city (row + 1) col downPath dn) :
    PathSpec city row col path (getSaferPath r dn) := by
  obtain ⟨rA, rB, rC⟩ := hR
  obtain ⟨dA, dB, dC⟩ := hD
  have hrl : rightPath.length ≤ path.length + 1 := by
    rw [hrp]; split_ifs <;> simp
  have hdl : downPath.length ≤ path.length + 1 := by
    rw [hdp]; split_ifs <;> simp
  have hrfull : r.length = path.length
        + ((city.numRows - 1 - row) + (city.numCols - 1 - col)) →
      ∃ moves cells, walk city row col moves = some cells ∧ r = path ++ cells := by
    intro hlen
    by_cases hsw : (city.cell row (col + 1)).sidewalk = true
    · rw [if_pos hsw] at hrp
      subst hrp
      rw [List.length_append, List.length_singleton] at rA rB
      obtain ⟨ms, cs, hw, hres⟩ := rB (by omega)
      refine ⟨.right :: ms, city.cell row (col + 1) :: cs, ?_, ?_⟩
      · rw [walk_right_iff]; exact ⟨⟨by omega, hc, hsw⟩, cs, hw, rfl⟩
      · rw [hres]; simp
    · rw [if_neg hsw] at hrp
      subst hrp
      omega
  have hdfull : dn.length = path.length
        + ((city.numRows - 1 - row) + (city.numCols - 1 - col)) →
      ∃ moves cells, walk city row col moves = some cells ∧ dn = path ++ cells := by
    intro hlen
    by_cases hsw : (city.cell (row + 1) col).sidewalk = true
    · rw [if_pos hsw] at hdp
      subst hdp
      rw [List.length_append, List.length_singleton] at dA dB
      obtain ⟨ms, cs, hw, hres⟩ := dB (by omega)
      refine ⟨.down :: ms, city.cell (row + 1) col :: cs, ?_, ?_⟩
      · rw [walk_down_iff]; exact ⟨⟨hr, by omega, hsw⟩, cs, hw, rfl⟩
      · rw [hres]; simp
    · rw [if_neg hsw] at hdp
      subst hdp
      omega
  have hrwalk : ∀ ms cs, (city.cell row (col + 1)).sidewalk = true →
      walk city row (col + 1) ms = some cs →
      r.length = path.length + ((city.numRows - 1 - row) + (city.numCols - 1 - col)) ∧
      getPathSafetyVector (path ++ city.cell row (col + 1) :: cs) ≤ getPathSafetyVector r := by
    intro ms cs hsw hw1
    rw [if_pos hsw] at hrp
    subst hrp
    rw [List.length_append, List.length_singleton] at rC
    obtain ⟨c1, c2⟩ := rC ms cs hw1
    refine ⟨by omega, ?_⟩
    have : path ++ city.cell row (col + 1) :: cs
        = path ++ [city.cell row (col + 1)] ++ cs := by simp
    rw [this]; exact c2
  have hdwalk : ∀ ms cs, (city.cell (row + 1) col).sidewalk = true →
      walk city (row + 1) col ms = some cs →
      dn.length = path.length + ((city.numRows - 1 - row) + (city.numCols - 1 - col)) ∧
      getPathSafetyVector (path ++ city.cell (row + 1) col :: cs) ≤ getPathSafetyVector dn := by
    intro ms cs hsw hw1
    rw [if_pos hsw] at hdp
    subst hdp
    rw [List.length_append, List.length_singleton] at dC
    obtain ⟨c1, c2⟩ := dC ms cs hw1
    refine ⟨by omega, ?_⟩
    have : path ++ city.cell (row + 1) col :: cs
        = path ++ [city.cell (row + 1) col] ++ cs := by simp
    rw [this]; exact c2
  have hrA : r.length ≤ path.length
      + ((city.numRows - 1 - row) + (city.numCols - 1 - col)) := by omega
  have hdA : dn.length ≤ path.length
      + ((city.numRows - 1 - row) + (city.numCols - 1 - col)) := by omega
  clear rA rB rC dA dB dC
  unfold PathSpec
  rcases getSaferPath_cases r dn with ⟨hres, hlen, hrate⟩ | ⟨hres, hlen, hrate⟩
  · rw [hres]
    refine ⟨hrA, hrfull, ?_⟩
    intro moves cells hw
    cases moves with
    | nil => rw [walk_nil_iff] at hw; omega
    | cons m ms =>
      cases m with
      | right =>
        rw [walk_right_iff] at hw
        obtain ⟨⟨_, _, hsw⟩, cs, hw1, rfl⟩ := hw
        exact hrwalk ms cs hsw hw1
      | down =>
        rw [walk_down_iff] at hw
        obtain ⟨⟨_, _, hsw⟩, cs, hw1, rfl⟩ := hw
        obtain ⟨c1, c2⟩ := hdwalk ms cs hsw hw1
        exact ⟨by omega, le_trans c2 (hrate (by omega))⟩
  · rw [hres]
    refine ⟨hdA, hdfull, ?_⟩
    intro moves cells hw
    cases moves with
    | nil => rw [walk_nil_iff] at hw; omega
    | cons m ms =>
      cases m with
      | down =>
        rw [walk_down_iff] at hw
        obtain ⟨⟨_, _, hsw⟩, cs, hw1, rfl⟩ := hw
        exact hdwalk ms cs hsw hw1
      | right =>
        rw [walk_right_iff] at hw
        obtain ⟨⟨_, _, hsw⟩, cs, hw1, rfl⟩ := hw
        obtain ⟨c1, c2⟩ := hrwalk ms cs hsw hw1
        exact ⟨by omega, le_trans c2 (hrate (by omega))⟩

/-- The result of `safestPath2Helper` from a cell inside the grid, with fuel
for the moves that remain, meets its specification. -/
theorem safestPath2Helper_spec (city : Grid) (fuel row col : Nat) (path : List street)
    (hr : row < city.numRows) (hc : col < city.numCols)
    (hf : (city.numRows - 1 - row) + (city.numCols - 1 - col) < fuel) :
    PathSpec city row col path (safestPath2Helper city fuel row col path) := by
  induction fuel generalizing row col path with
  | zero => omega
  | succ fuel ih =>
    simp only [safestPath2Helper]
    by_cases hexit : (row : Int) = (city.numRows : Int) - 1 ∧
        (col : Int) = (city.numCols : Int) - 1
    · rw [if_pos hexit]
      exact pathSpec_exit city row col path (by omega) (by omega)
    · rw [if_neg hexit]
      by_cases hlastrow : (row : Int) = (city.numRows : Int) - 1
      · rw [if_pos hlastrow]
        have hcol : col + 1 < city.numCols := by omega
        by_cases hsw : (city.cell row (col + 1)).sidewalk = true
        · rw [if_neg (by simp [hsw])]
          exact pathSpec_right_only city row col path _ (by omega) hcol hsw
            (ih row (col + 1) _ hr hcol (by omega))
        · rw [if_pos (by simp [hsw])]
          exact pathSpec_blocked city row col path hr hc (by omega) (fun h => by omega)
            (fun _ => hsw)
      · rw [if_neg hlastrow]
        have hrow : row + 1 < city.numRows := by omega
        by_cases hlastcol : (col : Int) = (city.numCols : Int) - 1
        · rw [if_pos hlastcol]
          by_cases hsw : (city.cell (row + 1) col).sidewalk = true
          · rw [if_neg (by simp [hsw])]
            exact pathSpec_down_only city row col path _ hrow (by omega) hsw
              (ih (row + 1) col _ hrow hc (by omega))
          · rw [if_pos (by simp [hsw])]
            exact pathSpec_blocked city row col path hr hc (by omega) (fun _ => hsw)
              (fun h => by omega)
        · rw [if_neg hlastcol]
          have hcol : col + 1 < city.numCols := by omega
          exact pathSpec_interior city row col path _ _ _ _ hrow hcol rfl rfl
            (ih row (col + 1) _ hr hcol (by omega)) (ih (row + 1) col _ hrow hc (by omega))

/-- What `safestPath2` returns when the city has a sidewalk path: one of
them, of full length, of the greatest `int` total. -/
theorem safestPath2_spec (city : Grid) (hex : ∃ p, IsSidewalkPath city p) :
    ∃ best, safestPath2 city = some best ∧ IsSidewalkPath city best ∧
      best.length = city.numRows + city.numCols - 1 ∧
      ∀ p, IsSidewalkPath city p → getPathSafetyVector p ≤ getPathSafetyVector best := by
  obtain ⟨p0, moves0, cells0, hw0, _⟩ := hex
  obtain ⟨hr, hc, _, _⟩ := walk_length city moves0 0 0 cells0 hw0
  have hne : ¬ (city.numRows = 0 ∨ city.numCols = 0) := by omega
  obtain ⟨sA, sB, sC⟩ := safestPath2Helper_spec city (city.numRows + city.numCols) 0 0
    [city.cell 0 0] hr hc (by omega)
  obtain ⟨hlen0, _⟩ := sC moves0 cells0 hw0
  obtain ⟨movesb, cellsb, hwb, hresb⟩ := sB hlen0
  refine ⟨safestPath2Helper city (city.numRows + city.numCols) 0 0 [city.cell 0 0],
    by simp only [safestPath2, hne, if_false], ?_, ?_, ?_⟩
  · exact ⟨movesb, cellsb, hwb, by rw [hresb]; rfl⟩
  · rw [hlen0, List.length_singleton]
    omega
  · rintro p ⟨moves, cells, hw, rfl⟩
    exact (sC moves cells hw).2

theorem simpleCity_has_path : ∃ p, IsSidewalkPath simpleCity p :=
  ⟨_, [.down, .down, .right, .right], [walkway 0, walkway 0, walkway 0, walkway 0],
    by decide, rfl⟩

theorem tieCity_has_path : ∃ p, IsSidewalkPath tieCity p :=
  ⟨_, [.right, .right, .down, .down],
    [⟨5, 1, 4, true, 7⟩, ⟨3, 2, 1, true, 7⟩, ⟨5, 1, 4, true, 7⟩, ⟨5, 1, 4, true, 7⟩],
    by decide, rfl⟩

/-- The total rating of every sidewalk path, and its negation, lies in the
range of `int` when every rating of the city is at most `b` in absolute value
and rows + cols times `b` is below 2^31. -/
theorem ratings_fit_of_cells (city : Grid) (b : Int)
    (hcell : ∀ row col, -b ≤ (city.cell row col).safetyRating ∧
      (city.cell row col).safetyRating ≤ b)
    (hsmall : ((city.numRows + city.numCols : Nat) : Int) * b < 2147483648) :
    ∀ p, IsSidewalkPath city p →
      -2147483648 < totalRating p ∧ totalRating p < 2147483648 := by
  rintro p ⟨moves, cells, hw, rfl⟩
  obtain ⟨_, _, hlen, hcl⟩ := walk_length city moves 0 0 cells hw
  have hb := totalRating_bound (city.cell 0 0 :: cells) b (by
    intro s hs
    rcases List.mem_cons.1 hs with rfl | hs
    · exact hcell 0 0
    · rw [walk_cells city moves 0 0 cells hw] at hs
      obtain ⟨loc, _, rfl⟩ := List.mem_map.1 hs
      exact hcell _ _)
  have hb0 : 0 ≤ b := by
    have := hcell 0 0
    omega
  have hle : (((city.cell 0 0 :: cells).length : Nat) : Int)
      ≤ ((city.numRows + city.numCols : Nat) : Int) := by
    rw [List.length_cons, hcl]
    exact_mod_cast (by omega : moves.length + 1 ≤ city.numRows + city.numCols)
  have hmul := mul_le_mul_of_nonneg_right hle hb0
  omega

theorem simpleCity_fits : ∀ p, IsSidewalkPath simpleCity p →
    -2147483648 < totalRating p ∧ totalRating p < 2147483648 := by
  refine ratings_fit_of_cells simpleCity 9 (fun row col => ?_) (by decide)
  rcases row with _ | _ | _ | row <;> rcases col with _ | _ | _ | col <;>
    simp [simpleCity, Grid.ofRows, walkway, roadway, default]

theorem tieCity_fits : ∀ p, IsSidewalkPath tieCity p →
    -2147483648 < totalRating p ∧ totalRating p < 2147483648 := by
  refine ratings_fit_of_cells tieCity 9 (fun row col => ?_) (by decide)
  rcases row with _ | _ | _ | row <;> rcases col with _ | _ | _ | col <;>
    simp [tieCity, Grid.ofRows, roadway, default]

/-- C19, as stated, fails: in the city of ratings 2147483647, 2 over 0, 0
the path through the top-right cell is a sidewalk path of total safety rating
2147483649, yet `safestPath1` returns the path through the bottom-left cell,
of total 2147483647: the `int` sum of the first has wrapped around. -/
theorem C19_counterexample :
    IsSidewalkPath brimCity [walkway 2147483647, walkway 2, walkway 0] ∧
    safestPath1 brimCity = some [walkway 2147483647, walkway 0, walkway 0] ∧
    totalRating [walkway 2147483647, walkway 0, walkway 0]
      < totalRating [walkway 2147483647, walkway 2, walkway 0] :=
  ⟨⟨[.right, .down], [walkway 2, walkway 0], by decide, by decide⟩, by decide, by decide⟩

/-- C19 (amended): in every grid that has a path from the top-left cell to
the bottom-right cell moving only right or down and entering only sidewalks,
`safestPath1` returns such a path, starting with `city[0][0]` and of length
rows + cols - 1; when the total safety rating of every such path lies
strictly between -2^31 and 2^31 (so that neither the `int` sum nor its
negation overflows), the total safety rating of the returned path is at least
that of every such path. -/
theorem C19_safestPath1_optimal (city : Grid) (hex : ∃ p, IsSidewalkPath city p) :
    ∃ best, safestPath1 city = some best ∧ IsSidewalkPath city best ∧
      best.head? = some (city.cell 0 0) ∧
      best.length = city.numRows + city.numCols - 1 ∧
      ((∀ p, IsSidewalkPath city p →
          -2147483648 < totalRating p ∧ totalRating p < 2147483648) →
        ∀ p, IsSidewalkPath city p → totalRating p ≤ totalRating best) := by
  obtain ⟨best, h1, h2, h3, h4⟩ := safestPath1_spec city hex
  refine ⟨best, h1, h2, ?_, h3, ?_⟩
  · obtain ⟨_, _, _, rfl⟩ := h2
    rfl
  · intro hfit p hp
    exact priority_order p best (hfit p hp) (hfit best h2) (h4 p hp)

/-- C19: the theorem at a concrete input, its hypotheses discharged by
evaluation. -/
theorem C19_safestPath1_optimal_witness :
    (∃ p, IsSidewalkPath simpleCity p) ∧
    (∀ p, IsSidewalkPath simpleCity p →
      -2147483648 < totalRating p ∧ totalRating p < 2147483648) ∧
    ∃ best, safestPath1 simpleCity = some best ∧ IsSidewalkPath simpleCity best ∧
      best.head? = some (simpleCity.cell 0 0) ∧
      best.length = simpleCity.numRows + simpleCity.numCols - 1 ∧
      ∀ p, IsSidewalkPath simpleCity p → totalRating p ≤ totalRating best := by
  obtain ⟨best, h1, h2, h3, h4, h5⟩ := C19_safestPath1_optimal simpleCity simpleCity_has_path
  exact ⟨simpleCity_has_path, simpleCity_fits, best, h1, h2, h3, h4, h5 simpleCity_fits⟩

/-- C20, as stated, fails: in the city of ratings 2147483647, 1 over 0, 0
the `int` sum of the path through the top-right cell wraps around to -2^31,
whose negation is -2^31 again, the least priority there is: `safestPath1`
returns that path, of total safety rating 2147483648, and `safestPath2` the
path through the bottom-left cell, of total 2147483647 (as `int` sums:
-2147483648 and 2147483647). -/
theorem C20_counterexample :
    IsSidewalkPath edgeCity [walkway 2147483647, walkway 1, walkway 0] ∧
    safestPath1 edgeCity = some [walkway 2147483647, walkway 1, walkway 0] ∧
    safestPath2 edgeCity = some [walkway 2147483647, walkway 0, walkway 0] ∧
    totalRating [walkway 2147483647, walkway 0, walkway 0]
      ≠ totalRating [walkway 2147483647, walkway 1, walkway 0] ∧
    getPathSafetyVector [walkway 2147483647, walkway 0, walkway 0]
      ≠ getPathSafetyVector [walkway 2147483647, walkway 1, walkway 0] :=
  ⟨⟨[.right, .down], [walkway 1, walkway 0], by decide, by decide⟩, by decide, by decide,
    by decide, by decide⟩

/-- C20 (amended): in every grid that has a right/down path over sidewalks
from the top-left to the bottom-right cell, `safestPath2` returns such a
path, of length rows + cols - 1; when the total safety rating of every such
path lies strictly between -2^31 and 2^31 (so that neither the `int` sum nor
its negation overflows), its total safety rating equals that of the path
`safestPath1` returns. -/
theorem C20_safestPath2_agrees (city : Grid) (hex : ∃ p, IsSidewalkPath city p) :
    ∃ best2 best1, safestPath2 city = some best2 ∧ safestPath1 city = some best1 ∧
      IsSidewalkPath city best2 ∧
      best2.length = city.numRows + city.numCols - 1 ∧
      ((∀ p, IsSidewalkPath city p →
          -2147483648 < totalRating p ∧ totalRating p < 2147483648) →
        totalRating best2 = totalRating best1) := by
  obtain ⟨best1, h1, v1, _, m1⟩ := safestPath1_spec city hex
  obtain ⟨best2, h2, v2, l2, m2⟩ := safestPath2_spec city hex
  refine ⟨best2, best1, h2, h1, v2, l2, fun hfit => ?_⟩
  have f1 := hfit best1 v1
  have f2 := hfit best2 v2
  have hle1 := priority_order best2 best1 f2 f1 (m1 best2 v2)
  have hle2 := (rating_order best1 best2 ⟨by omega, f1.2⟩ ⟨by omega, f2.2⟩).1 (m2 best1 v1)
  omega

/-- C20: the theorem at a concrete input, its hypotheses discharged by
evaluation. -/
theorem C20_safestPath2_agrees_witness :
    (∃ p, IsSidewalkPath tieCity p) ∧
    (∀ p, IsSidewalkPath tieCity p →
      -2147483648 < totalRating p ∧ totalRating p < 2147483648) ∧
    ∃ best2 best1, safestPath2 tieCity = some best2 ∧ safestPath1 tieCity = some best1 ∧
      IsSidewalkPath tieCity best2 ∧
      best2.length = tieCity.numRows + tieCity.numCols - 1 ∧
      totalRating best2 = totalRating best1 := by
  obtain ⟨best2, best1, h1, h2, h3, h4, h5⟩ := C20_safestPath2_agrees tieCity tieCity_has_path
  exact ⟨tieCity_has_path, tieCity_fits, best2, best1, h1, h2, h3, h4, h5 tieCity_fits⟩

theorem enqueueMovesUnchecked_eq (curr_path : List GridLocation) (moves : List GridLocation)
    (paths : List (List GridLocation)) :
    enqueueMovesUnchecked curr_path moves paths
      = paths ++ moves.map (fun move => move :: curr_path) := by
  induction moves generalizing paths with
  | nil => simp [enqueueMovesUnchecked]
  | cons m ms ih => simp [enqueueMovesUnchecked, ih]

theorem enqueueMoves_eq (checked_moves curr_path : List GridLocation)
    (moves : List GridLocation) (paths : List (List GridLocation))
    (h : ∀ move ∈ moves, move ∉ checked_moves) :
    enqueueMoves checked_moves curr_path moves paths
      = enqueueMovesUnchecked curr_path moves paths := by
  induction moves generalizing paths with
  | nil => rfl
  | cons m ms ih =>
    have hm : m ∉ checked_moves := h m (List.mem_cons_self _ _)
    simp only [enqueueMoves, enqueueMovesUnchecked, hm, not_false_eq_true, if_true]
    exact ih _ (fun move hmove => h move (List.mem_cons_of_mem _ hmove))

theorem mem_generateValidMoves (city : Grid) (cur move : GridLocation)
    (h : move ∈ generateValidMoves city cur) :
    (move = ⟨cur.row, cur.col + 1⟩ ∨ move = ⟨cur.row + 1, cur.col⟩) ∧
    move.row < city.numRows ∧ move.col < city.numCols ∧
    (city.cell move.row move.col).sidewalk = true := by
  simp only [generateValidMoves, List.mem_filter, List.mem_cons, List.mem_singleton,
    List.mem_nil_iff, or_false, Bool.and_eq_true, decide_eq_true_eq] at h
  exact ⟨h.1, h.2.1.1, h.2.1.2, h.2.2⟩

theorem diag_generateValidMoves (city : Grid) (cur move : GridLocation)
    (h : move ∈ generateValidMoves city cur) : move.row + move.col = cur.row + cur.col + 1 := by
  obtain ⟨h1 | h1, _⟩ := mem_generateValidMoves city cur move h <;> subst h1 <;> simp <;> omega

/-- Under the invariant, no move that the loop tests is in `checked_moves`. -/
theorem moves_not_checked (city : Grid) (s : SearchState) (hinv : SearchInv s)
    (top : GridLocation) (rest : List GridLocation) (tail : List (List GridLocation))
    (hp : s.paths = (top :: rest) :: tail) :
    ∀ move ∈ generateValidMoves city top, move ∉ List.insert top s.checked_moves := by
  obtain ⟨_, h2, _, _⟩ := hinv
  intro move hmove hmem
  have hd := diag_generateValidMoves city top move hmove
  rcases List.mem_insert_iff.1 hmem with heq | hch
  · subst heq; omega
  · have := h2 move hch (top :: rest) (by rw [hp]; exact List.mem_cons_self _ _)
    simp only [diagOf] at this
    omega

/-- Under the invariant, an iteration of the loop does what the iteration
without the test does, and keeps the invariant. -/
theorem step_eq_unchecked (city : Grid) (s : SearchState) (hinv : SearchInv s) :
    safestPath3Step city s = safestPath3StepUnchecked city s ∧
    ∀ s1, safestPath3Step city s = some s1 → SearchInv s1 := by
  cases hp : s.paths with
  | nil =>
    simp [safestPath3Step, safestPath3StepUnchecked, hp]
  | cons curr tail =>
    cases curr with
    | nil => simp [safestPath3Step, safestPath3StepUnchecked, hp]
    | cons top rest =>
      have hnot := moves_not_checked city s hinv top rest tail hp
      obtain ⟨i1, i2, i3, i4⟩ := hinv
      rw [hp] at i1 i2 i3 i4
      have htail_ge : ∀ q ∈ tail, top.row + top.col ≤ diagOf q := by
        intro q hq
        exact (List.pairwise_cons.1 i3).1 q hq
      have hcurr_mem : (top :: rest) ∈ (top :: rest) :: tail := List.mem_cons_self _ _
      have htail_le : ∀ q ∈ tail, diagOf q ≤ top.row + top.col + 1 := by
        intro q hq
        exact i4 _ hcurr_mem q (List.mem_cons_of_mem _ hq)
      have hchecked : ∀ l ∈ List.insert top s.checked_moves,
          l.row + l.col ≤ top.row + top.col := by
        intro l hl
        rcases List.mem_insert_iff.1 hl with heq | hch
        · subst heq; omega
        · exact i2 l hch _ hcurr_mem
      simp only [safestPath3Step, safestPath3StepUnchecked, hp]
      by_cases hexit : (top.row : Int) = (city.numRows : Int) - 1 ∧
          (top.col : Int) = (city.numCols : Int) - 1
      · simp only [hexit, and_self, if_true, true_and]
        intro s1 hs1
        injection hs1 with hs1
        subst hs1
        refine ⟨fun p hp1 => i1 p (List.mem_cons_of_mem _ hp1), ?_, (List.pairwise_cons.1 i3).2,
          fun p hp1 q hq => i4 p (List.mem_cons_of_mem _ hp1) q (List.mem_cons_of_mem _ hq)⟩
        intro l hl p hp1
        exact le_trans (hchecked l hl) (htail_ge p hp1)
      · simp only [hexit, if_false]
        rw [enqueueMoves_eq _ _ _ _ hnot]
        refine ⟨rfl, ?_⟩
        intro s1 hs1
        injection hs1 with hs1
        subst hs1
        rw [enqueueMovesUnchecked_eq]
        have hnew : ∀ q ∈ (generateValidMoves city top).map (fun move => move :: top :: rest),
            q ≠ [] ∧ diagOf q = top.row + top.col + 1 := by
          intro q hq
          obtain ⟨mv, hmv, rfl⟩ := List.mem_map.1 hq
          exact ⟨by simp, by simp only [diagOf]; exact diag_generateValidMoves city top mv hmv⟩
        refine ⟨?_, ?_, ?_, ?_⟩
        · intro p hp1
          rcases List.mem_append.1 hp1 with h | h
          · exact i1 p (List.mem_cons_of_mem _ h)
          · exact (hnew p h).1
        · intro l hl p hp1
          have hl1 := hchecked l hl
          rcases List.mem_append.1 hp1 with h | h
          · exact le_trans hl1 (htail_ge p h)
          · rw [(hnew p h).2]; omega
        · rw [List.pairwise_append]
          refine ⟨(List.pairwise_cons.1 i3).2, ?_, ?_⟩
          · rw [List.pairwise_iff_forall_sublist]
            intro a b hab
            have ha := (hnew a (hab.subset (List.mem_cons_self _ _))).2
            have hb := (hnew b (hab.subset (by simp))).2
            omega
          · intro a ha b hb
            rw [(hnew b hb).2]
            exact htail_le a ha
        · intro p hp1 q hq
          have hp2 : top.row + top.col ≤ diagOf p ∧ diagOf p ≤ top.row + top.col + 1 := by
            rcases List.mem_append.1 hp1 with h | h
            · exact ⟨htail_ge p h, htail_le p h⟩
            · rw [(hnew p h).2]; omega
          have hq2 : top.row + top.col ≤ diagOf q ∧ diagOf q ≤ top.row + top.col + 1 := by
            rcases List.mem_append.1 hq with h | h
            · exact ⟨htail_ge q h, htail_le q h⟩
            · rw [(hnew q h).2]; omega
          omega

theorem searchStart_inv : SearchInv searchStart := by
  refine ⟨?_, ?_, ?_, ?_⟩
  · intro p hp; simp [searchStart] at hp; subst hp; simp
  · intro l hl; simp [searchStart] at hl
  · simp [searchStart]
  · intro p hp q hq
    simp [searchStart] at hp hq
    subst hp hq
    omega

/-- The loop keeps the invariant and runs as the loop without the test. -/
theorem loop_eq_unchecked (city : Grid) (fuel : Nat) (s : SearchState) (hinv : SearchInv s) :
    safestPath3Loop city fuel s = safestPath3LoopUnchecked city fuel s ∧
    SearchInv (safestPath3Loop city fuel s) := by
  induction fuel generalizing s with
  | zero => exact ⟨rfl, hinv⟩
  | succ fuel ih =>
    obtain ⟨heq, hkeep⟩ := step_eq_unchecked city s hinv
    simp only [safestPath3Loop, safestPath3LoopUnchecked, ← heq]
    cases hs : safestPath3Step city s with
    | none => exact ⟨rfl, hinv⟩
    | some s1 => exact ih s1 (hkeep s1 hs)

/-- C29: in every grid and after any number of iterations of the loop of
`safestPath3Helper`, no move that `generateValidMoves` produces for the stack
at the front of the queue is in `checked_moves` (which by then holds the top
of that stack), so the test never prunes: the loop and the loop without the
test reach the same state, queue of stacks included, and the helper built on
the loop without the test returns the same result. -/
theorem C29_visited_never_prunes (city : Grid) (n : Nat) :
    (∀ top rest tail, (safestPath3Loop city n searchStart).paths = (top :: rest) :: tail →
      ∀ move ∈ generateValidMoves city top,
        move ∉ List.insert top (safestPath3Loop city n searchStart).checked_moves) ∧
    safestPath3Loop city n searchStart = safestPath3LoopUnchecked city n searchStart ∧
    safestPath3Helper city =
      (if (safestPath3LoopUnchecked city (2 ^ (city.numRows + city.numCols)) searchStart).paths
          = []
        then (safestPath3LoopUnchecked city (2 ^ (city.numRows + city.numCols))
          searchStart).solutions.dequeue
        else none) := by
  obtain ⟨heq, hinv⟩ := loop_eq_unchecked city n searchStart searchStart_inv
  refine ⟨?_, heq, ?_⟩
  · intro top rest tail hp
    exact moves_not_checked city _ hinv top rest tail hp
  · simp only [safestPath3Helper]
    rw [(loop_eq_unchecked city _ searchStart searchStart_inv).1]

theorem queueWeight_append (city : Grid) (a b : List (List GridLocation)) :
    queueWeight city (a ++ b) = queueWeight city a + queueWeight city b := by
  simp [queueWeight]

theorem weightOf_pos (city : Grid) (p : List GridLocation) (h : EndsInside city p) :
    1 ≤ weightOf city p := by
  obtain ⟨top, rest, rfl, hr, hc⟩ := h
  simp only [weightOf]
  have : 2 ^ 1 ≤ 2 ^ ((city.numRows - top.row) + (city.numCols - top.col)) :=
    Nat.pow_le_pow_right (by decide) (by omega)
  omega

/-- The stacks that one iteration adds weigh less than the stack it removes. -/
theorem weight_moves (city : Grid) (top : GridLocation) (rest : List GridLocation)
    (hr : top.row < city.numRows) (hc : top.col < city.numCols) :
    queueWeight city ((generateValidMoves city top).map (fun move => move :: top :: rest)) + 1
      ≤ weightOf city (top :: rest) := by
  obtain ⟨e, he⟩ : ∃ e, (city.numRows - top.row) + (city.numCols - top.col) = e + 2 :=
    ⟨(city.numRows - top.row) + (city.numCols - top.col) - 2, by omega⟩
  have hpow : 2 ^ (e + 2) = 2 * 2 ^ (e + 1) := by rw [pow_succ]; omega
  have hpos : 1 ≤ 2 ^ (e + 1) := Nat.one_le_two_pow
  have hright : top.col + 1 < city.numCols →
      (city.numRows - top.row) + (city.numCols - (top.col + 1)) = e + 1 := by omega
  have hdown : top.row + 1 < city.numRows →
      (city.numRows - (top.row + 1)) + (city.numCols - top.col) = e + 1 := by omega
  simp only [weightOf, he, hpow]
  simp only [generateValidMoves, List.filter]
  by_cases h1 : top.row < city.numRows ∧ top.col + 1 < city.numCols
  · by_cases h2 : top.row + 1 < city.numRows ∧ top.col < city.numCols
    · cases hs1 : (city.cell top.row (top.col + 1)).sidewalk <;>
        cases hs2 : (city.cell (top.row + 1) top.col).sidewalk <;>
        simp [h1, h2, queueWeight, weightOf, hright h1.2, hdown h2.1] <;> omega
    · cases hs1 : (city.cell top.row (top.col + 1)).sidewalk <;>
        simp [h1, h2, queueWeight, weightOf, hright h1.2] <;> omega
  · by_cases h2 : top.row + 1 < city.numRows ∧ top.col < city.numCols
    · cases hs2 : (city.cell (top.row + 1) top.col).sidewalk <;>
        simp [h1, h2, queueWeight, weightOf, hdown h2.1] <;> omega
    · simp [h1, h2, queueWeight]
      omega

theorem completion_exit (city : Grid) (top : GridLocation) (rest : List GridLocation)
    (hexit : top.row + 1 = city.numRows ∧ top.col + 1 = city.numCols)
    (x : List GridLocation × Int) :
    IsCompletion city (top :: rest) x ↔
      x = (top :: rest, wrapInt32 (-(getGridLocPathSafety (top :: rest) city))) := by
  constructor
  · rintro ⟨t, r, moves, cells, hp, hw, h1, h2⟩
    injection hp with ht hr
    subst ht hr
    cases moves with
    | nil =>
      simp only [locsOf, List.reverse_nil, List.nil_append] at h1
      rw [h1] at h2
      exact Prod.ext h1 h2
    | cons m ms =>
      cases m with
      | down => rw [walk_down_iff] at hw; omega
      | right => rw [walk_right_iff] at hw; omega
  · intro hx
    subst hx
    exact ⟨top, rest, [], [], rfl, by rw [walk_nil_iff]; exact ⟨hexit, rfl⟩, by simp [locsOf], rfl⟩

theorem completion_step (city : Grid) (top : GridLocation) (rest : List GridLocation)
    (hr : top.row < city.numRows) (hc : top.col < city.numCols)
    (hne : ¬ (top.row + 1 = city.numRows ∧ top.col + 1 = city.numCols))
    (x : List GridLocation × Int) :
    IsCompletion city (top :: rest) x ↔
      ∃ p ∈ (generateValidMoves city top).map (fun move => move :: top :: rest),
        IsCompletion city p x := by
  constructor
  · rintro ⟨t, r, moves, cells, hp, hw, h1, h2⟩
    injection hp with ht hr1
    subst ht hr1
    cases moves with
    | nil => rw [walk_nil_iff] at hw; exact absurd hw.1 hne
    | cons m ms =>
      cases m with
      | down =>
        rw [walk_down_iff] at hw
        obtain ⟨⟨c1, c2, c3⟩, cells1, hw1, _⟩ := hw
        refine ⟨⟨top.row + 1, top.col⟩ :: top :: rest, ?_, ?_⟩
        · apply List.mem_map.2
          refine ⟨⟨top.row + 1, top.col⟩, ?_, rfl⟩
          simp [generateValidMoves, c1, c2, c3]
        · exact ⟨⟨top.row + 1, top.col⟩, top :: rest, ms, cells1, rfl, hw1,
            by rw [h1]; simp [locsOf], h2⟩
      | right =>
        rw [walk_right_iff] at hw
        obtain ⟨⟨c1, c2, c3⟩, cells1, hw1, _⟩ := hw
        refine ⟨⟨top.row, top.col + 1⟩ :: top :: rest, ?_, ?_⟩
        · apply List.mem_map.2
          refine ⟨⟨top.row, top.col + 1⟩, ?_, rfl⟩
          simp [generateValidMoves, c1, c2, c3]
        · exact ⟨⟨top.row, top.col + 1⟩, top :: rest, ms, cells1, rfl, hw1,
            by rw [h1]; simp [locsOf], h2⟩
  · rintro ⟨p, hp, t, r, moves, cells, hpe, hw, h1, h2⟩
    obtain ⟨mv, hmv, rfl⟩ := List.mem_map.1 hp
    injection hpe with ht hr1
    subst ht hr1
    obtain ⟨hwhich, m1, m2, m3⟩ := mem_generateValidMoves city top mv hmv
    rcases hwhich with hmvr | hmvd
    · subst hmvr
      refine ⟨top, rest, .right :: moves, city.cell top.row (top.col + 1) :: cells, rfl, ?_,
        by rw [h1]; simp [locsOf], h2⟩
      rw [walk_right_iff]
      exact ⟨⟨hr, m2, m3⟩, cells, hw, rfl⟩
    · subst hmvd
      refine ⟨top, rest, .down :: moves, city.cell (top.row + 1) top.col :: cells, rfl, ?_,
        by rw [h1]; simp [locsOf], h2⟩
      rw [walk_down_iff]
      exact ⟨⟨m1, hc, m3⟩, cells, hw, rfl⟩

/-- With fuel for the weight of its queue, the loop without the test ends
with an empty queue, and `solutions` has gained exactly the completions of
the queued stacks. -/
theorem loopUnchecked_spec (city : Grid) (fuel : Nat) (s : SearchState)
    (hin : ∀ p ∈ s.paths, EndsInside city p) (hw : queueWeight city s.paths ≤ fuel) :
    (safestPath3LoopUnchecked city fuel s).paths = [] ∧
    ∀ x, x ∈ (safestPath3LoopUnchecked city fuel s).solutions.entries ↔
      (x ∈ s.solutions.entries ∨ ∃ p ∈ s.paths, IsCompletion city p x) := by
  induction fuel generalizing s with
  | zero =>
    have hnil : s.paths = [] := by
      cases hp : s.paths with
      | nil => rfl
      | cons p tail =>
        rw [hp] at hin hw
        have := weightOf_pos city p (hin p (List.mem_cons_self _ _))
        simp only [queueWeight, List.map_cons, List.sum_cons] at hw
        omega
    simp [safestPath3LoopUnchecked, hnil]
  | succ fuel ih =>
    cases hp : s.paths with
    | nil => simp [safestPath3LoopUnchecked, safestPath3StepUnchecked, hp]
    | cons curr tail =>
      rw [hp] at hin hw
      obtain ⟨top, rest, rfl, hr, hc⟩ := hin curr (List.mem_cons_self _ _)
      have hwc : queueWeight city ((top :: rest) :: tail)
          = weightOf city (top :: rest) + queueWeight city tail := by
        simp [queueWeight]
      have hpos := weightOf_pos city (top :: rest) ⟨top, rest, rfl, hr, hc⟩
      by_cases hexit : (top.row : Int) = (city.numRows : Int) - 1 ∧
          (top.col : Int) = (city.numCols : Int) - 1
      · have hstep : safestPath3StepUnchecked city s
            = some ⟨tail, List.insert top s.checked_moves,
                s.solutions.enqueue (top :: rest)
                  (wrapInt32 (-(getGridLocPathSafety (top :: rest) city)))⟩ := by
          simp only [safestPath3StepUnchecked, hp, hexit, and_self, if_true]
        simp only [safestPath3LoopUnchecked, hstep]
        obtain ⟨i1, i2⟩ := ih
          ⟨tail, List.insert top s.checked_moves,
            s.solutions.enqueue (top :: rest) (wrapInt32 (-(getGridLocPathSafety (top :: rest) city)))⟩
          (fun p hp1 => hin p (List.mem_cons_of_mem _ hp1))
          (by show queueWeight city tail ≤ fuel; omega)
        refine ⟨i1, fun x => ?_⟩
        rw [i2 x]
        simp only [PriorityQueue.enqueue, List.mem_append, List.mem_singleton]
        rw [← completion_exit city top rest (by omega) x]
        constructor
        · rintro ((h | h) | ⟨p, hp1, hc1⟩)
          · exact Or.inl h
          · exact Or.inr ⟨_, List.mem_cons_self _ _, h⟩
          · exact Or.inr ⟨p, List.mem_cons_of_mem _ hp1, hc1⟩
        · rintro (h | ⟨p, hp1, hc1⟩)
          · exact Or.inl (Or.inl h)
          · rcases List.mem_cons.1 hp1 with rfl | hp2
            · exact Or.inl (Or.inr hc1)
            · exact Or.inr ⟨p, hp2, hc1⟩
      · have hstep : safestPath3StepUnchecked city s
            = some ⟨tail ++ (generateValidMoves city top).map (fun move => move :: top :: rest),
                List.insert top s.checked_moves, s.solutions⟩ := by
          simp only [safestPath3StepUnchecked, hp, hexit, if_false, enqueueMovesUnchecked_eq]
        simp only [safestPath3LoopUnchecked, hstep]
        have hmoves := weight_moves city top rest hr hc
        obtain ⟨i1, i2⟩ := ih
          ⟨tail ++ (generateValidMoves city top).map (fun move => move :: top :: rest),
            List.insert top s.checked_moves, s.solutions⟩
          (by
            intro p hp1
            rcases List.mem_append.1 hp1 with h | h
            · exact hin p (List.mem_cons_of_mem _ h)
            · obtain ⟨mv, hmv, rfl⟩ := List.mem_map.1 h
              obtain ⟨_, m1, m2, _⟩ := mem_generateValidMoves city top mv hmv
              exact ⟨mv, top :: rest, rfl, m1, m2⟩)
          (by
            show queueWeight city (tail ++ (generateValidMoves city top).map
              (fun move => move :: top :: rest)) ≤ fuel
            rw [queueWeight_append]; omega)
        refine ⟨i1, fun x => ?_⟩
        rw [i2 x]
        simp only [List.mem_append, List.mem_cons]
        have hstepc := completion_step city top rest hr hc (by omega) x
        constructor
        · rintro (h | ⟨p, hp1 | hp1, hc1⟩)
          · exact Or.inl h
          · exact Or.inr ⟨p, Or.inr hp1, hc1⟩
          · exact Or.inr ⟨_, Or.inl rfl, hstepc.2 ⟨p, hp1, hc1⟩⟩
        · rintro (h | ⟨p, rfl | hp1, hc1⟩)
          · exact Or.inl h
          · obtain ⟨q, hq, hcq⟩ := hstepc.1 hc1
            exact Or.inr ⟨q, Or.inr hq, hcq⟩
          · exact Or.inr ⟨p, Or.inl hp1, hc1⟩

theorem unstack_eq (city : Grid) (stack : List GridLocation) (output : List street) :
    unstack city stack output
      = stack.reverse.map (fun loc => city.cell loc.row loc.col) ++ output := by
  induction stack generalizing output with
  | nil => rfl
  | cons loc rest ih =>
    simp only [unstack, ih, List.reverse_cons, List.map_append, List.map_cons, List.map_nil,
      List.append_assoc, List.singleton_append]

theorem getPathSafetyVector_reverse (l : List street) :
    getPathSafetyVector l.reverse = getPathSafetyVector l := by
  rw [getPathSafetyVector_eq, getPathSafetyVector_eq]
  simp only [totalRating, List.map_reverse, List.sum_reverse]

theorem safety_unstack (city : Grid) (stack : List GridLocation) :
    getGridLocPathSafety stack city = getPathSafetyVector (unstack city stack []) := by
  rw [unstack_eq, List.append_nil, List.map_reverse, getPathSafetyVector_reverse]
  simp only [getGridLocPathSafety, getPathSafetyVector, List.foldl_map]

/-- The stack of a completion of the entry, unstacked, is a sidewalk path. -/
theorem completion_unstack (city : Grid) (x : List GridLocation × Int)
    (h : IsCompletion city [⟨0, 0⟩] x) : IsSidewalkPath city (unstack city x.1 []) := by
  obtain ⟨top, rest, moves, cells, hp, hw, h1, _⟩ := h
  injection hp with ht hr
  subst ht hr
  refine ⟨moves, cells, hw, ?_⟩
  rw [unstack_eq, h1, walk_cells city moves 0 0 cells hw]
  simp

/-- Every sidewalk path is the unstacked stack of a completion of the entry. -/
theorem completion_of_path (city : Grid) (p : List street) (h : IsSidewalkPath city p) :
    ∃ x, IsCompletion city [⟨0, 0⟩] x ∧ unstack city x.1 [] = p := by
  obtain ⟨moves, cells, hw, rfl⟩ := h
  refine ⟨((locsOf 0 0 moves).reverse ++ [⟨0, 0⟩],
    wrapInt32 (-(getGridLocPathSafety ((locsOf 0 0 moves).reverse ++ [⟨0, 0⟩]) city))),
    ⟨⟨0, 0⟩, [], moves, cells, rfl, hw, rfl, by dsimp only⟩, ?_⟩
  rw [unstack_eq, walk_cells city moves 0 0 cells hw]
  simp

/-- What the loop of `safestPath3Helper` has done when it ends, in a city
with a sidewalk path: the queue is empty and `solutions` holds exactly the
completions of the entry. -/
theorem safestPath3Loop_spec (city : Grid) (hex : ∃ p, IsSidewalkPath city p) :
    (safestPath3Loop city (2 ^ (city.numRows + city.numCols)) searchStart).paths = [] ∧
    ∀ x, x ∈ (safestPath3Loop city (2 ^ (city.numRows + city.numCols))
        searchStart).solutions.entries ↔ IsCompletion city [⟨0, 0⟩] x := by
  obtain ⟨p0, moves0, cells0, hw0, _⟩ := hex
  obtain ⟨hr, hc, _, _⟩ := walk_length city moves0 0 0 cells0 hw0
  rw [(loop_eq_unchecked city _ searchStart searchStart_inv).1]
  have hin : ∀ p ∈ searchStart.paths, EndsInside city p := by
    intro p hp
    simp only [searchStart, List.mem_singleton] at hp
    subst hp
    exact ⟨⟨0, 0⟩, [], rfl, hr, hc⟩
  have hw : queueWeight city searchStart.paths ≤ 2 ^ (city.numRows + city.numCols) := by
    simp [searchStart, queueWeight, weightOf]
  obtain ⟨h1, h2⟩ := loopUnchecked_spec city _ searchStart hin hw
  refine ⟨h1, fun x => ?_⟩
  rw [h2 x]
  simp [searchStart]

/-- C21, as stated, fails: in the city of ratings 2147483647, 2 over 0, 0
the path through the top-right cell is a sidewalk path of total safety rating
2147483649, yet `safestPath3` returns the path through the bottom-left cell,
of total 2147483647: the `int` sum of the first has wrapped around. -/
theorem C21_counterexample :
    IsSidewalkPath brimCity [walkway 2147483647, walkway 2, walkway 0] ∧
    safestPath3 brimCity = some [walkway 2147483647, walkway 0, walkway 0] ∧
    totalRating [walkway 2147483647, walkway 0, walkway 0]
      < totalRating [walkway 2147483647, walkway 2, walkway 0] :=
  ⟨⟨[.right, .down], [walkway 2, walkway 0], by decide, by decide⟩, by decide, by decide⟩

/-- C21 (amended): in every grid that has a right/down path over sidewalks
from the top-left to the bottom-right cell, the loop of `safestPath3Helper`
ends with an empty queue and has put into `solutions` every such path and
nothing else (as stacks of locations, exit on top), and `safestPath3` returns
one of these paths, listed from `city[0][0]` to the exit; when the total
safety rating of every such path lies strictly between -2^31 and 2^31 (so
that neither the `int` sum nor its negation overflows), the total safety
rating of the returned path is at least that of every such path. -/
theorem C21_safestPath3_optimal (city : Grid) (hex : ∃ p, IsSidewalkPath city p) :
    (safestPath3Loop city (2 ^ (city.numRows + city.numCols)) searchStart).paths = [] ∧
    (∀ p, IsSidewalkPath city p ↔
      ∃ x ∈ (safestPath3Loop city (2 ^ (city.numRows + city.numCols))
          searchStart).solutions.entries, unstack city x.1 [] = p) ∧
    ∃ best, safestPath3 city = some best ∧ IsSidewalkPath city best ∧
      best.head? = some (city.cell 0 0) ∧
      best.length = city.numRows + city.numCols - 1 ∧
      ((∀ p, IsSidewalkPath city p →
          -2147483648 < totalRating p ∧ totalRating p < 2147483648) →
        ∀ p, IsSidewalkPath city p → totalRating p ≤ totalRating best) := by
  obtain ⟨hdone, hmem⟩ := safestPath3Loop_spec city hex
  have henum : ∀ p, IsSidewalkPath city p ↔
      ∃ x ∈ (safestPath3Loop city (2 ^ (city.numRows + city.numCols))
          searchStart).solutions.entries, unstack city x.1 [] = p := by
    intro p
    constructor
    · intro hp
      obtain ⟨x, hx, hu⟩ := completion_of_path city p hp
      exact ⟨x, (hmem x).2 hx, hu⟩
    · rintro ⟨x, hx, rfl⟩
      exact completion_unstack city x ((hmem x).1 hx)
  refine ⟨hdone, henum, ?_⟩
  obtain ⟨p0, hp0⟩ := hex
  obtain ⟨x0, hx0, _⟩ := (henum p0).1 hp0
  have hne : (safestPath3Loop city (2 ^ (city.numRows + city.numCols))
      searchStart).solutions.entries ≠ [] := by
    intro hnil
    rw [hnil] at hx0
    cases hx0
  obtain ⟨x, hx⟩ := (leastEntry_spec _).1 hne
  obtain ⟨hxmem, hxmin⟩ := (leastEntry_spec _).2 x hx
  have hxc := (hmem x).1 hxmem
  have hvalid := completion_unstack city x hxc
  refine ⟨unstack city x.1 [], ?_, hvalid, ?_, ?_, ?_⟩
  · simp only [safestPath3, safestPath3Helper, hdone, if_true, PriorityQueue.dequeue, hx,
      Option.map_some']
  · obtain ⟨_, _, _, he⟩ := hvalid
    rw [he]; rfl
  · obtain ⟨moves, cells, hw, he⟩ := hvalid
    obtain ⟨_, _, hlen, hcl⟩ := walk_length city moves 0 0 cells hw
    rw [he, List.length_cons, hcl]
    omega
  · intro hfit p hp
    obtain ⟨y, hy, hu⟩ := (henum p).1 hp
    have hle := hxmin y hy
    obtain ⟨_, _, _, _, _, _, _, hx2⟩ := hxc
    obtain ⟨_, _, _, _, _, _, _, hy2⟩ := (hmem y).1 hy
    rw [hx2, hy2, safety_unstack, safety_unstack, hu] at hle
    exact priority_order p (unstack city x.1 []) (hfit p hp) (hfit _ hvalid) hle

/-- C21: the theorem at a concrete input, its hypotheses discharged by
evaluation. -/
theorem C21_safestPath3_optimal_witness :
    (∃ p, IsSidewalkPath simpleCity p) ∧
    (∀ p, IsSidewalkPath simpleCity p →
      -2147483648 < totalRating p ∧ totalRating p < 2147483648) ∧
    (safestPath3Loop simpleCity (2 ^ (simpleCity.numRows + simpleCity.numCols))
      searchStart).paths = [] ∧
    (∀ p, IsSidewalkPath simpleCity p ↔
      ∃ x ∈ (safestPath3Loop simpleCity (2 ^ (simpleCity.numRows + simpleCity.numCols))
          searchStart).solutions.entries, unstack simpleCity x.1 [] = p) ∧
    ∃ best, safestPath3 simpleCity = some best ∧ IsSidewalkPath simpleCity best ∧
      best.head? = some (simpleCity.cell 0 0) ∧
      best.length = simpleCity.numRows + simpleCity.numCols - 1 ∧
      ∀ p, IsSidewalkPath simpleCity p → totalRating p ≤ totalRating best := by
  obtain ⟨h1, h2, best, h3, h4, h5, h6, h7⟩ :=
    C21_safestPath3_optimal simpleCity simpleCity_has_path
  exact ⟨simpleCity_has_path, simpleCity_fits, h1, h2, best, h3, h4, h5, h6, h7 simpleCity_fits⟩

end SafestPath
